import Mathlib

/-!
GLOB_MIN: rough global minimum of a univariate function

A shallow embedding of `glob_min` (src/GLOB_MIN.CPP) and theorems about it.

* The first embedding takes the arithmetic on `double` exactly: it is written over
  an arbitrary linearly ordered field `K`, so it runs on `ℚ` and is read over `ℝ`.
  What is proved of it is proved in exact arithmetic.
* The second embedding (`Machine`) is the same program over an arithmetic given as
  a parameter.  With the arithmetic of a field it is the first embedding
  (`machine_exact`); with the arithmetic of `Dbl`, a model of IEEE 754 binary64
  with round-to-nearest-even, infinities and NaN, it is the program as it runs,
  and shows where rounding and overflow change the outcome.
* The callbacks `criter` and `user_pressed_escape` are external and may be
  stateful.  Each is modelled as a function of the calls made so far (the trace,
  newest call first), which is the most general deterministic environment.
  A call of `criter` is taken to store a value through its pointer argument.
* `exp` and `log` come from `math.h`; they are parameters of the environment.
* `npts`, `i`, `ibest` are C `int`s.  For `-2^31 < npts < 2^31` none of
  `-npts`, `npts - 1`, `i++`, `ibest + 1` leaves the `int` range, so they are
  taken in `Int`.
* The two `for (;;)` loops have no bound in the source; they take a fuel
  argument here and report `timeout` when it runs out.
-/

namespace GlobMin

/-- One call of an external function during a run of `glob_min`. -/
inductive Event (K : Type) where
  /-- The call `criter (x, &y)`, which returned `quit` and stored `y`. -/
  | crit (x : K) (quit : Int) (y : K) : Event K
  /-- The call `user_pressed_escape ()`, which returned `quit`. -/
  | poll (quit : Int) : Event K
  deriving DecidableEq, Repr

/-- The external functions `glob_min` calls.  The callbacks see the trace of the
calls made before them (newest first). -/
structure Env (K : Type) where
  /-- The criterion function: returns its `int` result and the value stored in `*y`. -/
  criter : List (Event K) → K → Int × K
  /-- The keyboard poll. -/
  user_pressed_escape : List (Event K) → Int
  /-- The `exp` of `math.h`. -/
  exp : K → K
  /-- The `log` of `math.h`. -/
  log : K → K

/-- The six cells the output pointers of `glob_min` point to.  They are assumed
to be distinct cells. -/
structure Bracket (K : Type) where
  x1 : K
  y1 : K
  x2 : K
  y2 : K
  x3 : K
  y3 : K
  deriving DecidableEq, Repr

/-- The variables of `glob_min` (the local `y` apart, which lives inside one
iteration), the cells behind the output pointers, and the trace of external calls. -/
structure State (K : Type) where
  i : Int
  ibest : Int
  turned_up : Bool
  user_quit : Int
  x : K
  rate : K
  previous : K
  x1 : K
  y1 : K
  x2 : K
  y2 : K
  x3 : K
  y3 : K
  trace : List (Event K)
  deriving DecidableEq, Repr

/-- How the grid scan (the `for` loop of lines 68-103) is left. -/
inductive ScanExit (K : Type) where
  /-- By `return user_quit` (line 97). -/
  | aborted (s : State K) : ScanExit K
  /-- By `break` (line 94) or because `i < npts` failed. -/
  | finished (s : State K) : ScanExit K
  deriving DecidableEq, Repr

/-- What a run of `glob_min` produces. -/
inductive Outcome (K : Type) where
  /-- The function returned `code`, in the state `s`. -/
  | ret (code : Int) (s : State K) : Outcome K
  /-- An extension loop was still running when the fuel ran out. -/
  | timeout (s : State K) : Outcome K
  deriving DecidableEq, Repr

set_option linter.unusedSectionVars false

variable {K : Type} [LinearOrderedField K]

/-- Lines 70-73: evaluate the criterion at `x`, or take the supplied `*y2` at the
first point.  Returns the new state and the local `y`. -/
def evalPoint (E : Env K) (know_first_point : Bool) (s : State K) : State K × K :=
  if s.i ≠ 0 ∨ know_first_point = false then
    let r := E.criter s.trace s.x
    ({ s with user_quit := r.1, trace := Event.crit s.x r.1 r.2 :: s.trace }, r.2)
  else
    (s, s.y2)

/-- Lines 75-88: keep track of the best point and of its neighbours. -/
def track (s : State K) (y : K) : State K :=
  let s1 : State K :=
    if s.i = 0 ∨ y < s.y2 then
      { s with ibest := s.i, x2 := s.x, y2 := y, y1 := s.previous, turned_up := false }
    else if s.i = s.ibest + 1 then
      { s with y3 := y, turned_up := true }
    else s
  { s1 with previous := y }

/-- Lines 90-91: poll the keyboard unless the criterion already asked to quit. -/
def pollQuit (E : Env K) (s : State K) : State K :=
  if s.user_quit = 0 then
    let q := E.user_pressed_escape s.trace
    { s with user_quit := q, trace := Event.poll q :: s.trace }
  else s

/-- Lines 99-102 and the `i++` of the loop header. -/
def advance (log_space : Bool) (s : State K) : State K :=
  if log_space then { s with x := s.x * s.rate, i := s.i + 1 }
  else { s with x := s.x + s.rate, i := s.i + 1 }

/-- Lines 70-91: the part of one scan iteration before the exit tests. -/
def scanBody (E : Env K) (know_first_point : Bool) (s : State K) : State K :=
  let e := evalPoint E know_first_point s
  pollQuit E (track e.1 e.2)

/-- The loop of lines 68-103, with `n` iterations left (`n = npts - i`; neither
`npts` nor `i` is written in the body). -/
def scan (E : Env K) (log_space : Bool) (critlim : K) (know_first_point : Bool) :
    Nat → State K → ScanExit K
  | 0, s => ScanExit.finished s
  | n + 1, s =>
    let s3 := scanBody E know_first_point s
    if (s3.user_quit ≠ 0 ∨ s3.y2 ≤ critlim) ∧ s3.ibest > 0 ∧ s3.turned_up = true then
      ScanExit.finished s3
    else if s3.user_quit ≠ 0 then
      ScanExit.aborted s3
    else
      scan E log_space critlim know_first_point n (advance log_space s3)

/-- Lines 111-118: the abscissas of the two neighbours of the best point. -/
def neighbours (log_space : Bool) (s : State K) : State K :=
  if log_space then { s with x1 := s.x2 / s.rate, x3 := s.x2 * s.rate }
  else { s with x1 := s.x2 - s.rate, x3 := s.x2 + s.rate }

/-- Lines 130-133 of the right extension: poll, then evaluate at `*x3` into `*y3`. -/
def probeRight (E : Env K) (s : State K) : State K :=
  let q := E.user_pressed_escape s.trace
  let s1 : State K := { s with user_quit := q, trace := Event.poll q :: s.trace }
  if q = 0 then
    let r := E.criter s1.trace s1.x3
    { s1 with user_quit := r.1, y3 := r.2, trace := Event.crit s1.x3 r.1 r.2 :: s1.trace }
  else s1

/-- Lines 143-152: shift the three points to the right and step further. -/
def shiftRight (log_space : Bool) (s : State K) : State K :=
  let s1 : State K :=
    { s with x1 := s.x2, y1 := s.y2, x2 := s.x3, y2 := s.y3, rate := s.rate * 3 }
  if log_space then { s1 with x3 := s1.x3 * s1.rate } else { s1 with x3 := s1.x3 + s1.rate }

/-- The endless loop of lines 128-153. -/
def extendRight (E : Env K) (log_space : Bool) : Nat → State K → Outcome K
  | 0, s => Outcome.timeout s
  | n + 1, s =>
    let s2 := probeRight E s
    if s2.user_quit ≠ 0 then Outcome.ret s2.user_quit s2
    else if s2.y3 > s2.y2 then Outcome.ret 0 s2
    else if s2.y1 = s2.y2 ∧ s2.y2 = s2.y3 then Outcome.ret 0 s2
    else extendRight E log_space n (shiftRight log_space s2)

/-- Lines 159-162 of the left extension: poll, then evaluate at `*x1` into `*y1`. -/
def probeLeft (E : Env K) (s : State K) : State K :=
  let q := E.user_pressed_escape s.trace
  let s1 : State K := { s with user_quit := q, trace := Event.poll q :: s.trace }
  if q = 0 then
    let r := E.criter s1.trace s1.x1
    { s1 with user_quit := r.1, y1 := r.2, trace := Event.crit s1.x1 r.1 r.2 :: s1.trace }
  else s1

/-- Lines 172-181: shift the three points to the left and step further. -/
def shiftLeft (log_space : Bool) (s : State K) : State K :=
  let s1 : State K :=
    { s with x3 := s.x2, y3 := s.y2, x2 := s.x1, y2 := s.y1, rate := s.rate * 3 }
  if log_space then { s1 with x1 := s1.x1 / s1.rate } else { s1 with x1 := s1.x1 - s1.rate }

/-- The endless loop of lines 157-182. -/
def extendLeft (E : Env K) (log_space : Bool) : Nat → State K → Outcome K
  | 0, s => Outcome.timeout s
  | n + 1, s =>
    let s2 := probeLeft E s
    if s2.user_quit ≠ 0 then Outcome.ret s2.user_quit s2
    else if s2.y1 > s2.y2 then Outcome.ret 0 s2
    else if s2.y1 = s2.y2 ∧ s2.y2 = s2.y3 then Outcome.ret 0 s2
    else extendLeft E log_space n (shiftLeft log_space s2)

/-- Lines 50-55: the number of points, `-npts` when `npts` came in negative. -/
def pointCount (npts : Int) : Int := if npts < 0 then -npts else npts

/-- Lines 57-60: the step of the grid. -/
def stepRate (E : Env K) (low high : K) (npts : Int) (log_space : Bool) : K :=
  if log_space then E.exp (E.log (high / low) / ((pointCount npts - 1 : Int) : K))
  else (high - low) / ((pointCount npts - 1 : Int) : K)

/-- Lines 48-66: the state on entry to the scan loop.  `m` holds what the output
cells contain when `glob_min` is called (`m.y2` is `f(low)` when `npts < 0`). -/
def initState (E : Env K) (low high : K) (npts : Int) (log_space : Bool) (m : Bracket K) :
    State K :=
  { i := 0, ibest := -1, turned_up := false, user_quit := 0, x := low,
    rate := stepRate E low high npts log_space, previous := 0,
    x1 := m.x1, y1 := m.y1, x2 := m.x2, y2 := m.y2, x3 := m.x3, y3 := m.y3, trace := [] }

/-- Lines 127-185: the dispatch to an extension loop after the scan. -/
def extend (E : Env K) (log_space : Bool) (fuel : Nat) (s : State K) : Outcome K :=
  if s.turned_up = false then extendRight E log_space fuel s
  else if s.ibest = 0 then extendLeft E log_space fuel s
  else Outcome.ret 0 s

/-- The function `glob_min`.  `fuel` bounds the iterations of an extension loop. -/
def glob_min (fuel : Nat) (E : Env K) (low high : K) (npts : Int) (log_space : Bool)
    (critlim : K) (m : Bracket K) : Outcome K :=
  match scan E log_space critlim (decide (npts < 0)) (pointCount npts).toNat
      (initState E low high npts log_space m) with
  | ScanExit.aborted s => Outcome.ret s.user_quit s
  | ScanExit.finished s => extend E log_space fuel (neighbours log_space s)

/-! ## Reading a run, and the invariants of its loops -/

/-- The state a run ended in (at the `return`, or when the fuel ran out). -/
def Outcome.final : Outcome K → State K
  | Outcome.ret _ s => s
  | Outcome.timeout s => s

/-- An external call that asked to stop: `criter` or `user_pressed_escape`
returned nonzero. -/
def Event.Cancels : Event K → Prop
  | Event.crit _ q _ => q ≠ 0
  | Event.poll q => q ≠ 0

/-- The number of criterion evaluations in a trace. -/
def critCount : List (Event K) → Nat
  | [] => 0
  | Event.crit _ _ _ :: t => critCount t + 1
  | Event.poll _ :: t => critCount t

/-- The abscissas of the criterion evaluations of a trace, oldest first. -/
def critXs : List (Event K) → List K
  | [] => []
  | Event.crit x _ _ :: t => critXs t ++ [x]
  | Event.poll _ :: t => critXs t

/-- The test of line 93: stop the scan with the bracket closed. -/
def closedExit (critlim : K) (s : State K) : Prop :=
  (s.user_quit ≠ 0 ∨ s.y2 ≤ critlim) ∧ s.ibest > 0 ∧ s.turned_up = true

/-- The flat test of lines 140 and 169. -/
def flat (s : State K) : Prop := s.y1 = s.y2 ∧ s.y2 = s.y3

/-- The local `y` of an iteration. -/
def sampleY (E : Env K) (know_first_point : Bool) (s : State K) : K :=
  (evalPoint E know_first_point s).2

/-- What the tracking variables satisfy once the grid point of index `j` has been
processed. -/
def BestInv (j : Int) (s : State K) : Prop :=
  0 ≤ s.ibest ∧ s.ibest ≤ j ∧ (s.turned_up = true ↔ s.ibest < j) ∧
  (0 < s.ibest → s.y2 < s.y1) ∧ (s.turned_up = true → s.y2 ≤ s.y3) ∧ s.y2 ≤ s.previous

/-- The tracking invariant at the head of the scan loop. -/
def HeadY (s : State K) : Prop := 0 ≤ s.i ∧ (0 < s.i → BestInv (s.i - 1) s)

/-- The tracking invariant after the body of a scan iteration. -/
def BodyY (s : State K) : Prop := 0 ≤ s.i ∧ BestInv s.i s

/-- What line 58 needs of `exp` and `log` (both hold of the real functions). -/
def ExpLogOk (E : Env K) : Prop :=
  (∀ t : K, 0 < t → 1 < E.exp t) ∧ (∀ t : K, 1 < t → 0 < E.log t)

/-- A step that moves to the right: above 1 when it multiplies, above 0 when it adds. -/
def GoodStep (log_space : Bool) (r : K) : Prop :=
  (log_space = true → 1 < r) ∧ (log_space = false → 0 < r)

/-- The abscissa invariant at the head of the scan loop. -/
def HeadX (log_space : Bool) (s : State K) : Prop :=
  GoodStep log_space s.rate ∧ (log_space = true → 0 < s.x) ∧
  (log_space = true → 0 < s.i → 0 < s.x2)

/-- The abscissa invariant after the body of a scan iteration. -/
def BodyX (log_space : Bool) (s : State K) : Prop :=
  GoodStep log_space s.rate ∧ (log_space = true → 0 < s.x) ∧ (log_space = true → 0 < s.x2)

/-- What holds when the scan of a valid range is left towards line 111. -/
def ScanEnd (log_space : Bool) (s : State K) : Prop :=
  0 ≤ s.ibest ∧ (s.turned_up = false → 0 < s.ibest) ∧ (0 < s.ibest → s.y2 < s.y1) ∧
  (s.turned_up = true → s.y2 ≤ s.y3) ∧ GoodStep log_space s.rate ∧
  (log_space = true → 0 < s.x2)

/-- The bracket invariant at the head of the right extension loop. -/
def RightInv (log_space : Bool) (s : State K) : Prop :=
  s.y2 ≤ s.y1 ∧ s.x1 < s.x2 ∧ s.x2 < s.x3 ∧ GoodStep log_space s.rate ∧
  (log_space = true → 0 < s.x2)

/-- The bracket invariant at the head of the left extension loop. -/
def LeftInv (log_space : Bool) (s : State K) : Prop :=
  s.y2 ≤ s.y3 ∧ s.x1 < s.x2 ∧ s.x2 < s.x3 ∧ GoodStep log_space s.rate ∧
  (log_space = true → 0 < s.x1)

/-- A run under log spacing on `ℚ`: the criterion `(x - 2)^2`, a keyboard that is
never pressed, and stand-ins for `exp` and `log` that meet `ExpLogOk`. -/
def demoEnv : Env ℚ :=
  { criter := fun _ x => (0, (x - 2) * (x - 2)), user_pressed_escape := fun _ => 0,
    exp := fun t => 1 + t, log := fun t => t - 1 }

/-- The state in which the run of `demoEnv` on `[1, 4]` with four points returns. -/
def demoState : State ℚ :=
  { i := 4, ibest := 1, turned_up := true, user_quit := 0, x := 16, rate := 2, previous := 36,
    x1 := 1, y1 := 1, x2 := 2, y2 := 0, x3 := 4, y3 := 4,
    trace := [Event.poll 0, Event.crit 8 0 36, Event.poll 0, Event.crit 4 0 4,
      Event.poll 0, Event.crit 2 0 0, Event.poll 0, Event.crit 1 0 1] }

/-- Every value the criterion returned so far is at least `*y2`. -/
def MinInv (s : State K) : Prop :=
  ∀ x q y, Event.crit x q y ∈ s.trace → s.y2 ≤ y

/-- `MinInv`, and the same for the value supplied at `low` when there is one. -/
def BestSoFar (know : Bool) (y0 : K) (s : State K) : Prop :=
  MinInv s ∧ (know = true → s.y2 ≤ y0)

/-- The best-sample invariant at the head of the scan loop. -/
def HeadMin (know : Bool) (y0 : K) (s : State K) : Prop :=
  0 ≤ s.i ∧ (s.i = 0 → s.trace = [] ∧ s.y2 = y0) ∧ (0 < s.i → BestSoFar know y0 s)

/-- No call of the trace asked to stop. -/
def NoCancel (t : List (Event K)) : Prop := ∀ ev ∈ t, ¬ ev.Cancels

/-- After the external calls of an iteration: `user_quit` is nonzero exactly when
some call asked to stop, and only the newest call can have done so. -/
def QuitInv (s : State K) : Prop :=
  (s.user_quit ≠ 0 ↔ ∃ ev ∈ s.trace, ev.Cancels) ∧ NoCancel s.trace.tail

/-- At the head of the scan loop nothing has asked to stop. -/
def HeadQuit (s : State K) : Prop :=
  s.user_quit = 0 ∧ NoCancel s.trace ∧ 0 ≤ s.i ∧ (s.turned_up = true → 0 ≤ s.ibest)

/-- After the body of a scan iteration. -/
def BodyQuit (s : State K) : Prop :=
  QuitInv s ∧ 0 ≤ s.i ∧ (s.turned_up = true → 0 ≤ s.ibest)

/-- The criterion `(x - 1)^2` on `ℚ` with a keyboard that reports ESCape from the
moment more than `k` external calls have been made. -/
def pollAfter (k : Nat) : Env ℚ :=
  { criter := fun _ x => (0, (x - 1) * (x - 1)),
    user_pressed_escape := fun t => if k < t.length then 1 else 0,
    exp := fun t => 1 + t, log := fun t => t - 1 }

/-- The state in which the run of `pollAfter 2` on `[0, 2]` with three points returns. -/
def openState : State ℚ :=
  { i := 1, ibest := 1, turned_up := false, user_quit := 1, x := 1, rate := 1, previous := 0,
    x1 := 0, y1 := 1, x2 := 1, y2 := 0, x3 := 0, y3 := 0,
    trace := [Event.poll 1, Event.crit 1 0 0, Event.poll 0, Event.crit 0 0 1] }

/-- The abscissa of the grid point of index `i`: `x` after `i` passes through
lines 99-102, starting from `x = low` (line 62). -/
def gridX (low rate : K) (log_space : Bool) : Nat → K
  | 0 => low
  | i + 1 => if log_space then gridX low rate log_space i * rate
             else gridX low rate log_space i + rate

/-- The abscissas after the body of a scan iteration: the point just evaluated is
`s.x`; it is at or right of `low`, of the best point and of every point evaluated. -/
def GridBody (low : K) (log_space : Bool) (s : State K) : Prop :=
  GoodStep log_space s.rate ∧ 0 ≤ s.i ∧ low ≤ s.x ∧ (0 < s.i → low < s.x) ∧
  low ≤ s.x2 ∧ s.x2 ≤ s.x ∧ (s.ibest = 0 → s.x2 = low) ∧
  (∀ x q y, Event.crit x q y ∈ s.trace → low ≤ x ∧ x ≤ s.x)

/-- The abscissas at the head of the scan loop: `s.x` is the next point to evaluate. -/
def GridHead (low : K) (log_space : Bool) (s : State K) : Prop :=
  GoodStep log_space s.rate ∧ 0 ≤ s.i ∧ (s.i = 0 → s.x = low ∧ s.trace = []) ∧
  (0 < s.i → low < s.x ∧ low ≤ s.x2 ∧ s.x2 < s.x ∧ (s.ibest = 0 → s.x2 = low) ∧
    (∀ x q y, Event.crit x q y ∈ s.trace → low ≤ x ∧ x < s.x))

/-- The criterion `(x - 3)^2` on `ℚ`, never asking to stop, with a keyboard that is
never pressed. -/
def quadEnv : Env ℚ :=
  { criter := fun _ x => (0, (x - 3) * (x - 3)), user_pressed_escape := fun _ => 0,
    exp := fun t => 1 + t, log := fun t => t - 1 }

/-- The trace at the head of the grid step of index `i` of a call in which nothing
asked to stop before: each earlier step called the criterion, then the poll; the
step of index 0 only polled when the first value was supplied (`know`). -/
def gridTrace (E : Env K) (low rate : K) (log_space know : Bool) : Nat → List (Event K)
  | 0 => []
  | i + 1 =>
    let t := gridTrace E low rate log_space know i
    let x := gridX low rate log_space i
    if i ≠ 0 ∨ know = false then
      let r := E.criter t x
      Event.poll (E.user_pressed_escape (Event.crit x r.1 r.2 :: t)) :: Event.crit x r.1 r.2 :: t
    else Event.poll (E.user_pressed_escape t) :: t

/-- The value of the grid point of index `i` in such a call: what the criterion
returns there, or the supplied `y0` at the index 0 when `know` is set. -/
def gridY (E : Env K) (low rate : K) (log_space know : Bool) (y0 : K) (i : Nat) : K :=
  if i ≠ 0 ∨ know = false then
    (E.criter (gridTrace E low rate log_space know i) (gridX low rate log_space i)).2
  else y0

/-- Neither the criterion nor the poll ever asks to stop. -/
def Quiet (E : Env K) : Prop :=
  (∀ t x, (E.criter t x).1 = 0) ∧ (∀ t, E.user_pressed_escape t = 0)

/-- The index `b` is the first one at which `ys 0, ..., ys i` is least. -/
def IsFirstMin (ys : Nat → K) (i b : Nat) : Prop :=
  b ≤ i ∧ (∀ j, j ≤ i → ys b ≤ ys j) ∧ (∀ j, j < b → ys b < ys j)

/-- At the grid index `i` the first minimum of the values so far is not the first
sample, has a right neighbour, and is at or below `critlim`. -/
def StopsAt (ys : Nat → K) (critlim : K) (i : Nat) : Prop :=
  ∃ b, IsFirstMin ys i b ∧ 0 < b ∧ b < i ∧ ys b ≤ critlim

/-- The tracking variables once the grid point of index `k` has been processed,
in terms of the values `ys` sampled. -/
def TrackAt (ys : Nat → K) (k : Nat) (s : State K) : Prop :=
  ∃ b : Nat, IsFirstMin ys k b ∧ s.ibest = (b : Int) ∧ s.y2 = ys b ∧
    (s.turned_up = true ↔ b < k) ∧ (b < k → s.y3 = ys (b + 1)) ∧
    (0 < b → s.y1 = ys (b - 1)) ∧ s.previous = ys k

/-- The state after the body of the scan iteration of index `k`, in a call in
which nothing asks to stop and line 93 has not fired before. -/
def QuietBody (E : Env K) (low r : K) (log_space know : Bool) (y0 critlim : K)
    (s : State K) : Prop :=
  ∃ k : Nat, s.i = (k : Int) ∧ s.user_quit = 0 ∧
    s.trace = gridTrace E low r log_space know (k + 1) ∧ s.x = gridX low r log_space k ∧
    s.rate = r ∧ (∀ j, j < k → ¬ StopsAt (gridY E low r log_space know y0) critlim j) ∧
    TrackAt (gridY E low r log_space know y0) k s ∧ s.x2 = gridX low r log_space s.ibest.toNat

/-- The state at the head of the scan iteration of index `k` in such a call. -/
def QuietHead (E : Env K) (low r : K) (log_space know : Bool) (y0 critlim : K)
    (s : State K) : Prop :=
  ∃ k : Nat, s.i = (k : Int) ∧ s.user_quit = 0 ∧
    s.trace = gridTrace E low r log_space know k ∧ s.x = gridX low r log_space k ∧
    s.rate = r ∧ (∀ j, j < k → ¬ StopsAt (gridY E low r log_space know y0) critlim j) ∧
    (k = 0 → s.y2 = y0) ∧
    (0 < k → TrackAt (gridY E low r log_space know y0) (k - 1) s ∧
      s.x2 = gridX low r log_space s.ibest.toNat)

/-- A criterion that returns the constant `c` on `ℚ` and never asks to stop, with a
keyboard that is never pressed. -/
def constEnv (c : ℚ) : Env ℚ :=
  { criter := fun _ _ => (0, c), user_pressed_escape := fun _ => 0,
    exp := fun t => 1 + t, log := fun t => t - 1 }

/-- The criterion `f(x) = -x` on `ℚ`, never asking to stop, with a keyboard that
is never pressed. -/
def negEnv : Env ℚ :=
  { criter := fun _ x => (0, -x), user_pressed_escape := fun _ => 0,
    exp := fun t => 1 + t, log := fun t => t - 1 }

/-- Every value sampled left of the best point is strictly above the best value:
the best point is the leftmost one at which the least value was found. -/
def Tie (know : Bool) (y0 low : K) (s : State K) : Prop :=
  (∀ x q y, Event.crit x q y ∈ s.trace → x < s.x2 → s.y2 < y) ∧
  (know = true → low < s.x2 → s.y2 < y0)

/-- No point was sampled left of the best point. -/
def AllRight (know : Bool) (low : K) (s : State K) : Prop :=
  (∀ x q y, Event.crit x q y ∈ s.trace → s.x2 ≤ x) ∧ (know = true → s.x2 ≤ low)

/-- A criterion on `ℚ` with `f(0) = 1`, `f(1) = 0`, `f(2) = 0` and `f(x) = 1`
elsewhere, never asking to stop, with a keyboard that is never pressed. -/
def tieEnv : Env ℚ :=
  { criter := fun _ x => if x = 1 ∨ x = 2 then (0, 0) else (0, 1),
    user_pressed_escape := fun _ => 0,
    exp := fun t => 1 + t, log := fun t => t - 1 }

/-- The state in which the run of `tieEnv` on `[0, 1]` with two points returns. -/
def tieState : State ℚ :=
  { i := 2, ibest := 1, turned_up := false, user_quit := 0, x := 2, rate := 3, previous := 0,
    x1 := 1, y1 := 0, x2 := 2, y2 := 0, x3 := 5, y3 := 1,
    trace := [Event.crit 5 0 1, Event.poll 0, Event.crit 2 0 0, Event.poll 0, Event.poll 0,
      Event.crit 1 0 0, Event.poll 0, Event.crit 0 0 1] }

/-- The state in which the run of `quadEnv` on `[0, 1]` with `npts = -2` and
`*y2 = 5` returns, after two steps of the right extension. -/
def suppliedState : State ℚ :=
  { i := 2, ibest := 1, turned_up := false, user_quit := 0, x := 2, rate := 3, previous := 4,
    x1 := 1, y1 := 4, x2 := 2, y2 := 1, x3 := 5, y3 := 4,
    trace := [Event.crit 5 0 4, Event.poll 0, Event.crit 2 0 1, Event.poll 0, Event.poll 0,
      Event.crit 1 0 4, Event.poll 0] }

/-- Every call of the trace `t` carries an answer of the environment `E`. -/
def Answered (E : Env K) (t : List (Event K)) : Prop :=
  ∀ ev ∈ t, (∃ h, ev = Event.poll (E.user_pressed_escape h)) ∨
    (∃ h x, ev = Event.crit x (E.criter h x).1 (E.criter h x).2)

/-- The state in which the call on the empty range `[0, 0]` with three points and
the criterion `(x - 3)^2` returns. -/
def emptyRangeState : State ℚ :=
  { i := 3, ibest := 0, turned_up := true, user_quit := 0, x := 0, rate := 0, previous := 9,
    x1 := 0, y1 := 9, x2 := 0, y2 := 9, x3 := 0, y3 := 9,
    trace := [Event.crit 0 0 9, Event.poll 0, Event.poll 0, Event.crit 0 0 9, Event.poll 0,
      Event.crit 0 0 9, Event.poll 0, Event.crit 0 0 9] }

/-- The state in which the call with `npts = 0` on `[0, 1]` and the criterion
`(x - 3)^2` returns. -/
def noPointState : State ℚ :=
  { i := 0, ibest := -1, turned_up := false, user_quit := 0, x := 0, rate := -1, previous := 0,
    x1 := 1, y1 := 0, x2 := 0, y2 := 0, x3 := -1, y3 := 16,
    trace := [Event.crit (-1) 0 16, Event.poll 0] }

/-- The criterion `(x - 3)^2` on `ℚ` with a keyboard that reports ESCape from the
moment more than `k` external calls have been made. -/
def quadPollAfter (k : Nat) : Env ℚ :=
  { criter := fun _ x => (0, (x - 3) * (x - 3)),
    user_pressed_escape := fun t => if k < t.length then 1 else 0,
    exp := fun t => 1 + t, log := fun t => t - 1 }

/-- The state at the head of the right extension in the run of `quadPollAfter 3`
on `[0, 1]` with two points. -/
def extHeadState : State ℚ :=
  { i := 2, ibest := 1, turned_up := false, user_quit := 0, x := 2, rate := 1, previous := 4,
    x1 := 0, y1 := 9, x2 := 1, y2 := 4, x3 := 2, y3 := 0,
    trace := [Event.poll 0, Event.crit 1 0 4, Event.poll 0, Event.crit 0 0 9] }

/-- The values stored by the criterion evaluations of a trace, oldest first. -/
def critYs : List (Event K) → List K
  | [] => []
  | Event.crit _ _ y :: t => critYs t ++ [y]
  | Event.poll _ :: t => critYs t

/-- The values of the grid points processed so far, in the order of the grid: the
value supplied for the first point when there is one, then the values returned. -/
def samples (know : Bool) (y0 : K) (t : List (Event K)) : List K :=
  (if know = true then [y0] else []) ++ critYs t

/-- The value of the grid point of index `j` (0 when it has not been processed). -/
def sampleAt (know : Bool) (y0 : K) (t : List (Event K)) (j : Nat) : K :=
  (samples know y0 t).getD j 0

/-- After the body of a scan iteration: the grid points `0, ..., i` have a value,
and the tracking variables describe the first minimum of these values. -/
def SampBody (know : Bool) (y0 : K) (s : State K) : Prop :=
  ∃ k : Nat, s.i = (k : Int) ∧ (samples know y0 s.trace).length = k + 1 ∧
    TrackAt (sampleAt know y0 s.trace) k s

/-- At the head of a scan iteration: the grid points before `i` have a value. -/
def SampHead (know : Bool) (y0 : K) (s : State K) : Prop :=
  ∃ k : Nat, s.i = (k : Int) ∧ (k = 0 → s.trace = [] ∧ s.y2 = y0) ∧
    (0 < k → (samples know y0 s.trace).length = k ∧
      TrackAt (sampleAt know y0 s.trace) (k - 1) s)

/-- The state in which the scan of `quadEnv` on `[0, 1]` with three points is left:
the values are `9, 25/4, 4` and the best point is the last one. -/
def quadScanState : State ℚ :=
  { i := 3, ibest := 2, turned_up := false, user_quit := 0, x := 3 / 2, rate := 1 / 2,
    previous := 4, x1 := 0, y1 := 25 / 4, x2 := 1, y2 := 4, x3 := 0, y3 := 0,
    trace := [Event.poll 0, Event.crit 1 0 4, Event.poll 0, Event.crit (1 / 2) 0 (25 / 4),
      Event.poll 0, Event.crit 0 0 9] }

/-- The point `(x, y)` was sampled with its own value: the criterion `f` was
evaluated at `x` in the trace `t` and `y = f x`; or it is the point `x = low` with
the value `y0` supplied for it. -/
def Val (f : K → K) (know : Bool) (low y0 : K) (t : List (Event K)) (x y : K) : Prop :=
  (y = f x ∧ x ∈ critXs t) ∨ (know = true ∧ x = low ∧ y = y0)

/-- Under linear spacing, the best point and the neighbours captured so far were
sampled with their own values. -/
def ValCore (f : K → K) (know : Bool) (low y0 : K) (t : List (Event K)) (s : State K) : Prop :=
  Val f know low y0 t s.x2 s.y2 ∧ (0 < s.ibest → Val f know low y0 t (s.x2 - s.rate) s.y1) ∧
  (s.turned_up = true → Val f know low y0 t (s.x2 + s.rate) s.y3)

/-- The value invariant after the tracking of a scan iteration (linear spacing),
for the trace `t`. -/
def ValBodyAt (f : K → K) (know : Bool) (low y0 : K) (t : List (Event K)) (s : State K) :
    Prop :=
  0 ≤ s.i ∧ ValCore f know low y0 t s ∧ Val f know low y0 t s.x s.previous ∧
  s.x = s.x2 + ((s.i - s.ibest : Int) : K) * s.rate

/-- The value invariant after the body of a scan iteration (linear spacing). -/
def ValBody (f : K → K) (know : Bool) (low y0 : K) (s : State K) : Prop :=
  ValBodyAt f know low y0 s.trace s

/-- The value invariant at the head of the scan loop (linear spacing). -/
def ValHead (f : K → K) (know : Bool) (low y0 : K) (s : State K) : Prop :=
  0 ≤ s.i ∧ (s.i = 0 → s.x = low ∧ s.y2 = y0) ∧
  (0 < s.i → ValCore f know low y0 s.trace s ∧
    Val f know low y0 s.trace (s.x - s.rate) s.previous ∧
    s.x = s.x2 + ((s.i - s.ibest : Int) : K) * s.rate)

/-- The state in which the run of `quadEnv` on `[4, 6]` with three points returns:
the best sample is the first one, and the bracket is closed by two steps to the left. -/
def leftRunState : State ℚ :=
  { i := 3, ibest := 0, turned_up := true, user_quit := 0, x := 7, rate := 3, previous := 9,
    x1 := 0, y1 := 9, x2 := 3, y2 := 0, x3 := 4, y3 := 1,
    trace := [Event.crit 0 0 9, Event.poll 0, Event.crit 3 0 0, Event.poll 0, Event.poll 0,
      Event.crit 6 0 9, Event.poll 0, Event.crit 5 0 4, Event.poll 0, Event.crit 4 0 1] }

/-- The state a scan was left in. -/
def ScanExit.state : ScanExit K → State K
  | ScanExit.aborted s => s
  | ScanExit.finished s => s

/-- The abscissas after the body of a scan iteration under linear spacing with the
step `r`: the point of index `i` is `low + i * r`, the best point is the point of
index `ibest`, and the criterion was evaluated at distinct points of
`[low, x]`, at most `i + 1` times. -/
def LineBody (low r : K) (s : State K) : Prop :=
  0 ≤ s.i ∧ s.rate = r ∧ s.x = low + (s.i : K) * r ∧ s.x2 = low + (s.ibest : K) * r ∧
  (critXs s.trace).Nodup ∧ (∀ x ∈ critXs s.trace, low ≤ x ∧ x ≤ s.x) ∧
  ((critXs s.trace).length : Int) ≤ s.i + 1

/-- The abscissas at the head of the scan loop under linear spacing with the step
`r`: the criterion was evaluated at distinct points, each at least one step left
of the next point `x`, at most `i` times. -/
def LineHead (low r : K) (s : State K) : Prop :=
  0 ≤ s.i ∧ s.rate = r ∧ s.x = low + (s.i : K) * r ∧
  (0 < s.i → s.x2 = low + (s.ibest : K) * r) ∧
  (critXs s.trace).Nodup ∧ (∀ x ∈ critXs s.trace, low ≤ x ∧ x + r ≤ s.x) ∧
  ((critXs s.trace).length : Int) ≤ s.i

/-- The abscissa `high + r * (3^(k+1) - 1) / 2`: where the evaluation of index `k`
(counted from 0) of the right extension is said to be. -/
def rightPoint (high r : K) (k : Nat) : K := high + r * (3 ^ (k + 1) - 1) / 2

/-- The abscissa `low - r * (3^(k+1) - 1) / 2`: where the evaluation of index `k`
(counted from 0) of the left extension is said to be. -/
def leftPoint (low r : K) (k : Nat) : K := low - r * (3 ^ (k + 1) - 1) / 2

/-- At the head of iteration `j` of the right extension loop started at `high`
with the step `r`: the extension has evaluated the points of index below `j`, the
next one is `*x3`, and the step has been tripled `j` times. -/
def RightGeo (high r : K) (grid : List K) (j : Nat) (t : State K) : Prop :=
  critXs t.trace = grid ++ List.map (rightPoint high r) (List.range j) ∧
  t.x3 = rightPoint high r j ∧ t.rate = r * 3 ^ j

/-- At the head of iteration `j` of the left extension loop started at `low` with
the step `r`. -/
def LeftGeo (low r : K) (grid : List K) (j : Nat) (t : State K) : Prop :=
  critXs t.trace = grid ++ List.map (leftPoint low r) (List.range j) ∧
  t.x1 = leftPoint low r j ∧ t.rate = r * 3 ^ j

/-- The values the right extension sees for a criterion `f`: `*y1` and `*y2` as
the scan left them, then `f` at the successive extension points. -/
def rightVals (f : K → K) (high r y1 y2 : K) : Nat → K
  | 0 => y1
  | 1 => y2
  | j + 2 => f (rightPoint high r j)

/-- The state in which the run of `quadEnv` on `[0, 2]` with three points leaves
the scan: the best sample is the last one. -/
def rightScanState : State ℚ :=
  { i := 3, ibest := 2, turned_up := false, user_quit := 0, x := 3, rate := 1, previous := 1,
    x1 := 0, y1 := 4, x2 := 2, y2 := 1, x3 := 0, y3 := 0,
    trace := [Event.poll 0, Event.crit 2 0 1, Event.poll 0, Event.crit 1 0 4, Event.poll 0,
      Event.crit 0 0 9] }

/-! ## RANDOM.CPP: `normal`, `normal_pair` and `rand_sphere`

The external generator `unifrand()` takes no argument: its successive results are
a stream `unifrand : Nat → K`, and `pos` counts the calls made so far.  The
rejection loops of `normal` and `normal_pair` are run with `fuel` iterations at
most.  The functions of `math.h` are the fields of `Libm`. -/

/-- The `math.h` functions that `RANDOM.CPP` calls. -/
structure Libm (K : Type) where
  sqrt : K → K
  log : K → K
  sin : K → K
  cos : K → K

/-- Line 17: `#define PI 3.141592653589793`. -/
def PI : K := 3141592653589793 / 1000000000000000

/-- Lines 31-43: `normal ()`.  Returns the value and the number of calls of
`unifrand` made so far. -/
def normal (L : Libm K) (unifrand : Nat → K) : Nat → Nat → Option (K × Nat)
  | 0, _ => none
  | fuel + 1, pos =>
    if unifrand pos ≤ 0 then normal L unifrand fuel (pos + 1)
    else
      let x1 := L.sqrt (-2 * L.log (unifrand pos))
      let x2 := L.cos (2 * PI * unifrand (pos + 1))
      some (x1 * x2, pos + 2)

/-- Lines 45-59: `normal_pair (x1, x2)`.  Returns `*x1`, `*x2` and the number of
calls of `unifrand` made so far. -/
def normal_pair (L : Libm K) (unifrand : Nat → K) : Nat → Nat → Option (K × K × Nat)
  | 0, _ => none
  | fuel + 1, pos =>
    if unifrand pos ≤ 0 then normal_pair L unifrand fuel (pos + 1)
    else
      let u1 := L.sqrt (-2 * L.log (unifrand pos))
      let u2 := 2 * PI * unifrand (pos + 1)
      some (u1 * L.sin u2, u1 * L.cos u2, pos + 2)

/-- The variables of `rand_sphere`: the array `x`, the local `length`, and the
number of calls of `unifrand` made so far. -/
structure Sphere (K : Type) where
  x : Nat → K
  length : K
  pos : Nat

/-- Lines 135-138: the loop over the pairs, with `n` iterations left
(`n = nvars / 2 - i`). -/
def pairs (L : Libm K) (unifrand : Nat → K) (fuel : Nat) :
    Nat → Nat → Sphere K → Option (Sphere K)
  | 0, _, s => some s
  | n + 1, i, s =>
    match normal_pair L unifrand fuel s.pos with
    | none => none
    | some (a, b, pos) =>
      let x := Function.update (Function.update s.x (2 * i) a) (2 * i + 1) b
      pairs L unifrand fuel n (i + 1)
        { x := x, length := s.length + (x (2 * i) * x (2 * i) + x (2 * i + 1) * x (2 * i + 1)),
          pos := pos }

/-- Lines 140-143: the last component when `nvars` is odd. -/
def oddOne (L : Libm K) (unifrand : Nat → K) (fuel nvars : Nat) (s : Sphere K) :
    Option (Sphere K) :=
  if nvars % 2 ≠ 0 then
    match normal L unifrand fuel s.pos with
    | none => none
    | some (v, pos) =>
      let x := Function.update s.x (nvars - 1) v
      some { x := x, length := s.length + x (nvars - 1) * x (nvars - 1), pos := pos }
  else some s

/-- Lines 134-143: the components before they are scaled, and the sum of their
squares in `length`. -/
def sumSquares (L : Libm K) (unifrand : Nat → K) (fuel nvars : Nat) (x : Nat → K) (pos : Nat) :
    Option (Sphere K) :=
  match pairs L unifrand fuel (nvars / 2) 0 { x := x, length := 0, pos := pos } with
  | none => none
  | some s => oddOne L unifrand fuel nvars s

/-- Lines 146-147: `while (nvars--) x[nvars] *= length`, with `nvars = n` on
entry. -/
def scale (length : K) : Nat → (Nat → K) → (Nat → K)
  | 0, x => x
  | n + 1, x => scale length n (Function.update x n (x n * length))

/-- Lines 129-148: `rand_sphere (nvars, x)` for `nvars ≥ 0`, where the `/` and `%`
of C are those of `Nat`.  `x` is the array on entry and `pos` the number of calls
of `unifrand` made before. -/
def rand_sphere (L : Libm K) (unifrand : Nat → K) (fuel nvars : Nat) (x : Nat → K)
    (pos : Nat) : Option (Sphere K) :=
  match sumSquares L unifrand fuel nvars x pos with
  | none => none
  | some s =>
    let length := 1 / L.sqrt s.length
    some { x := scale length nvars s.x, length := length, pos := s.pos }

/-- The state in which the run of `demoEnv` on `[0, 5]` with `npts = -6`,
`*y2 = 4` and `critlim = 0` returns: the scan stops at the index 3. -/
def suppliedStopState : State ℚ :=
  { i := 3, ibest := 2, turned_up := true, user_quit := 0, x := 3, rate := 1, previous := 1,
    x1 := 1, y1 := 1, x2 := 2, y2 := 0, x3 := 3, y3 := 1,
    trace := [Event.poll 0, Event.crit 3 0 1, Event.poll 0, Event.crit 2 0 0, Event.poll 0,
      Event.crit 1 0 1, Event.poll 0] }

/-- The best point `(x2, y2)` was sampled: the criterion was evaluated at `x2` and
returned `y2`, or it is the point `low` with the value `y0` supplied for it. -/
def Attained (know : Bool) (low y0 : K) (s : State K) : Prop :=
  (∃ q, Event.crit s.x2 q s.y2 ∈ s.trace) ∨ (know = true ∧ s.x2 = low ∧ s.y2 = y0)

/-! ## The type `double`

The values of the C type `double` are modelled as IEEE 754 binary64 numbers with
round-to-nearest-even: every operation returns the double nearest to its exact
result.  The sign of zero is not kept (`-0.0` and `0.0` compare equal, and the
programs here divide by `npts - 1` only, which is never `-0.0`), and NaN has no
payload.  Every operation is taken to round to `double` (no extended precision, no
fused multiply-add). -/

/-- A value of the type `double`: the finite number `m * 2^e`, an infinity, or a
NaN.  The operations below return finite values in canonical form: zero is
`fin 0 0`, a normal number has `2^52 ≤ |m| < 2^53` and `-1074 ≤ e ≤ 971`, a
subnormal one has `|m| < 2^52` and `e = -1074`. -/
inductive Dbl where
  | fin (m : Int) (e : Int) : Dbl
  | inf (negative : Bool) : Dbl
  | nan : Dbl
  deriving DecidableEq, Repr

/-- The number of binary digits of `n`, with `fuel ≥` that number. -/
def Dbl.bitsAux : Nat → Nat → Nat
  | 0, _ => 0
  | fuel + 1, n => if n = 0 then 0 else Dbl.bitsAux fuel (n / 2) + 1

/-- The number of binary digits of `n`. -/
def Dbl.bits (n : Nat) : Nat := Dbl.bitsAux n n

/-- The double nearest to the exact value `m * 2^e`, ties to even; an infinity
when that value is beyond the largest double by half a unit in the last place or
more. -/
def Dbl.round (m e : Int) : Dbl :=
  let a := m.natAbs
  -- the exponent of the unit in the last place of the result
  let e1 : Int := max (e + (Dbl.bits a : Int) - 53) (-1074)
  let d : Nat := (e1 - e).toNat
  -- the value in units of `2^e1`: integer part, and remainder in units of `2^e`
  let q0 : Nat := if e1 ≤ e then a * 2 ^ (e - e1).toNat else a / 2 ^ d
  let r : Nat := if e1 ≤ e then 0 else a % 2 ^ d
  let half : Nat := 2 ^ (d - 1)
  let q : Nat := if e1 ≤ e then q0
    else if half < r ∨ (r = half ∧ q0 % 2 = 1) then q0 + 1 else q0
  -- a carry out of the 53 digits moves to the next exponent
  let q2 : Nat := if q = 2 ^ 53 then 2 ^ 52 else q
  let e2 : Int := if q = 2 ^ 53 then e1 + 1 else e1
  if q2 = 0 then Dbl.fin 0 0
  else if 971 < e2 then Dbl.inf (decide (m < 0))
  else Dbl.fin (if m < 0 then -(q2 : Int) else (q2 : Int)) e2

/-- The conversion of an `int` to `double`. -/
def Dbl.ofInt (n : Int) : Dbl := Dbl.round n 0

/-- Unary minus. -/
def Dbl.neg : Dbl → Dbl
  | Dbl.fin m e => Dbl.fin (-m) e
  | Dbl.inf s => Dbl.inf (!s)
  | Dbl.nan => Dbl.nan

/-- The sum, correctly rounded. -/
def Dbl.add : Dbl → Dbl → Dbl
  | Dbl.fin m1 e1, Dbl.fin m2 e2 =>
    let e := min e1 e2
    Dbl.round (m1 * ((2 ^ (e1 - e).toNat : Nat) : Int) + m2 * ((2 ^ (e2 - e).toNat : Nat) : Int)) e
  | Dbl.fin _ _, Dbl.inf t => Dbl.inf t
  | Dbl.inf s, Dbl.fin _ _ => Dbl.inf s
  | Dbl.inf s, Dbl.inf t => if s = t then Dbl.inf s else Dbl.nan
  | Dbl.nan, _ => Dbl.nan
  | _, Dbl.nan => Dbl.nan

/-- The difference, correctly rounded. -/
def Dbl.sub (a b : Dbl) : Dbl := Dbl.add a (Dbl.neg b)

/-- The product, correctly rounded. -/
def Dbl.mul : Dbl → Dbl → Dbl
  | Dbl.fin m1 e1, Dbl.fin m2 e2 => Dbl.round (m1 * m2) (e1 + e2)
  | Dbl.fin m _, Dbl.inf t => if m = 0 then Dbl.nan else Dbl.inf (xor (decide (m < 0)) t)
  | Dbl.inf s, Dbl.fin m _ => if m = 0 then Dbl.nan else Dbl.inf (xor s (decide (m < 0)))
  | Dbl.inf s, Dbl.inf t => Dbl.inf (xor s t)
  | Dbl.nan, _ => Dbl.nan
  | _, Dbl.nan => Dbl.nan

/-- The quotient, correctly rounded.  The quotient of the integers is taken with 64
digits or more, and a digit that records whether the division left a remainder. -/
def Dbl.div : Dbl → Dbl → Dbl
  | Dbl.fin m1 e1, Dbl.fin m2 e2 =>
    if m2 = 0 then (if m1 = 0 then Dbl.nan else Dbl.inf (decide (m1 < 0)))
    else
      let k : Nat := Dbl.bits m2.natAbs + 64
      let n : Nat := m1.natAbs * 2 ^ k
      let q : Nat := n / m2.natAbs
      let sticky : Nat := if n % m2.natAbs = 0 then 0 else 1
      let v : Int := ((2 * q + sticky : Nat) : Int)
      Dbl.round (if xor (decide (m1 < 0)) (decide (m2 < 0)) then -v else v) (e1 - e2 - k - 1)
  | Dbl.fin _ _, Dbl.inf _ => Dbl.fin 0 0
  | Dbl.inf s, Dbl.fin m _ => Dbl.inf (xor s (decide (m < 0)))
  | Dbl.inf _, Dbl.inf _ => Dbl.nan
  | Dbl.nan, _ => Dbl.nan
  | _, Dbl.nan => Dbl.nan

/-- The comparison `a < b`; false when an operand is a NaN. -/
def Dbl.lt : Dbl → Dbl → Bool
  | Dbl.fin m1 e1, Dbl.fin m2 e2 =>
    let e := min e1 e2
    decide (m1 * ((2 ^ (e1 - e).toNat : Nat) : Int) < m2 * ((2 ^ (e2 - e).toNat : Nat) : Int))
  | Dbl.fin _ _, Dbl.inf t => !t
  | Dbl.inf s, Dbl.fin _ _ => s
  | Dbl.inf s, Dbl.inf t => s && !t
  | Dbl.nan, _ => false
  | _, Dbl.nan => false

/-- The comparison `a == b`; false when an operand is a NaN. -/
def Dbl.eq : Dbl → Dbl → Bool
  | Dbl.fin m1 e1, Dbl.fin m2 e2 =>
    let e := min e1 e2
    decide (m1 * ((2 ^ (e1 - e).toNat : Nat) : Int) = m2 * ((2 ^ (e2 - e).toNat : Nat) : Int))
  | Dbl.fin _ _, Dbl.inf _ => false
  | Dbl.inf _, Dbl.fin _ _ => false
  | Dbl.inf s, Dbl.inf t => decide (s = t)
  | Dbl.nan, _ => false
  | _, Dbl.nan => false

/-- The comparison `a <= b`; false when an operand is a NaN. -/
def Dbl.le (a b : Dbl) : Bool := Dbl.lt a b || Dbl.eq a b

/-! ## `glob_min` over the arithmetic of the machine

The definitions above take the arithmetic of `double` exactly.  Here the same
program is written over an arithmetic that is a parameter: with the arithmetic of
an ordered field it is the program above (`machine_exact`), with the arithmetic of
`Dbl` it is the program as it runs. -/

/-- The operations on `double` that `glob_min` uses. -/
structure Arith (F : Type) where
  add : F → F → F
  sub : F → F → F
  mul : F → F → F
  div : F → F → F
  lt : F → F → Bool
  le : F → F → Bool
  eq : F → F → Bool
  /-- The conversion of an `int`, also for the constants `0.0` and `3.0`. -/
  ofInt : Int → F

/-- The arithmetic of an ordered field, in which nothing is rounded. -/
def Arith.exact (K : Type) [LinearOrderedField K] : Arith K :=
  { add := fun a b => a + b, sub := fun a b => a - b, mul := fun a b => a * b,
    div := fun a b => a / b, lt := fun a b => decide (a < b), le := fun a b => decide (a ≤ b),
    eq := fun a b => decide (a = b), ofInt := fun n => (n : K) }

/-- The arithmetic of `double`. -/
def Arith.double : Arith Dbl :=
  { add := Dbl.add, sub := Dbl.sub, mul := Dbl.mul, div := Dbl.div, lt := Dbl.lt, le := Dbl.le,
    eq := Dbl.eq, ofInt := Dbl.ofInt }

/-- Lines 75-88 over the arithmetic `A`. -/
def Machine.track {F : Type} (A : Arith F) (s : State F) (y : F) : State F :=
  let s1 : State F :=
    if s.i = 0 ∨ A.lt y s.y2 = true then
      { s with ibest := s.i, x2 := s.x, y2 := y, y1 := s.previous, turned_up := false }
    else if s.i = s.ibest + 1 then
      { s with y3 := y, turned_up := true }
    else s
  { s1 with previous := y }

/-- Lines 99-102 and the `i++` of the loop header, over the arithmetic `A`. -/
def Machine.advance {F : Type} (A : Arith F) (log_space : Bool) (s : State F) : State F :=
  if log_space then { s with x := A.mul s.x s.rate, i := s.i + 1 }
  else { s with x := A.add s.x s.rate, i := s.i + 1 }

/-- Lines 70-91 over the arithmetic `A`. -/
def Machine.scanBody {F : Type} (A : Arith F) (E : Env F) (know_first_point : Bool)
    (s : State F) : State F :=
  let e := evalPoint E know_first_point s
  pollQuit E (Machine.track A e.1 e.2)

/-- The loop of lines 68-103 over the arithmetic `A`. -/
def Machine.scan {F : Type} (A : Arith F) (E : Env F) (log_space : Bool) (critlim : F)
    (know_first_point : Bool) : Nat → State F → ScanExit F
  | 0, s => ScanExit.finished s
  | n + 1, s =>
    let s3 := Machine.scanBody A E know_first_point s
    if (s3.user_quit ≠ 0 ∨ A.le s3.y2 critlim = true) ∧ s3.ibest > 0 ∧ s3.turned_up = true then
      ScanExit.finished s3
    else if s3.user_quit ≠ 0 then
      ScanExit.aborted s3
    else
      Machine.scan A E log_space critlim know_first_point n (Machine.advance A log_space s3)

/-- Lines 111-118 over the arithmetic `A`. -/
def Machine.neighbours {F : Type} (A : Arith F) (log_space : Bool) (s : State F) : State F :=
  if log_space then { s with x1 := A.div s.x2 s.rate, x3 := A.mul s.x2 s.rate }
  else { s with x1 := A.sub s.x2 s.rate, x3 := A.add s.x2 s.rate }

/-- Lines 143-152 over the arithmetic `A`. -/
def Machine.shiftRight {F : Type} (A : Arith F) (log_space : Bool) (s : State F) : State F :=
  let s1 : State F :=
    { s with x1 := s.x2, y1 := s.y2, x2 := s.x3, y2 := s.y3, rate := A.mul s.rate (A.ofInt 3) }
  if log_space then { s1 with x3 := A.mul s1.x3 s1.rate }
  else { s1 with x3 := A.add s1.x3 s1.rate }

/-- The endless loop of lines 128-153 over the arithmetic `A`. -/
def Machine.extendRight {F : Type} (A : Arith F) (E : Env F) (log_space : Bool) :
    Nat → State F → Outcome F
  | 0, s => Outcome.timeout s
  | n + 1, s =>
    let s2 := probeRight E s
    if s2.user_quit ≠ 0 then Outcome.ret s2.user_quit s2
    else if A.lt s2.y2 s2.y3 = true then Outcome.ret 0 s2
    else if A.eq s2.y1 s2.y2 = true ∧ A.eq s2.y2 s2.y3 = true then Outcome.ret 0 s2
    else Machine.extendRight A E log_space n (Machine.shiftRight A log_space s2)

/-- Lines 172-181 over the arithmetic `A`. -/
def Machine.shiftLeft {F : Type} (A : Arith F) (log_space : Bool) (s : State F) : State F :=
  let s1 : State F :=
    { s with x3 := s.x2, y3 := s.y2, x2 := s.x1, y2 := s.y1, rate := A.mul s.rate (A.ofInt 3) }
  if log_space then { s1 with x1 := A.div s1.x1 s1.rate }
  else { s1 with x1 := A.sub s1.x1 s1.rate }

/-- The endless loop of lines 157-182 over the arithmetic `A`. -/
def Machine.extendLeft {F : Type} (A : Arith F) (E : Env F) (log_space : Bool) :
    Nat → State F → Outcome F
  | 0, s => Outcome.timeout s
  | n + 1, s =>
    let s2 := probeLeft E s
    if s2.user_quit ≠ 0 then Outcome.ret s2.user_quit s2
    else if A.lt s2.y2 s2.y1 = true then Outcome.ret 0 s2
    else if A.eq s2.y1 s2.y2 = true ∧ A.eq s2.y2 s2.y3 = true then Outcome.ret 0 s2
    else Machine.extendLeft A E log_space n (Machine.shiftLeft A log_space s2)

/-- Lines 57-60 over the arithmetic `A`. -/
def Machine.stepRate {F : Type} (A : Arith F) (E : Env F) (low high : F) (npts : Int)
    (log_space : Bool) : F :=
  if log_space then E.exp (A.div (E.log (A.div high low)) (A.ofInt (pointCount npts - 1)))
  else A.div (A.sub high low) (A.ofInt (pointCount npts - 1))

/-- Lines 48-66 over the arithmetic `A`. -/
def Machine.initState {F : Type} (A : Arith F) (E : Env F) (low high : F) (npts : Int)
    (log_space : Bool) (m : Bracket F) : State F :=
  { i := 0, ibest := -1, turned_up := false, user_quit := 0, x := low,
    rate := Machine.stepRate A E low high npts log_space, previous := A.ofInt 0,
    x1 := m.x1, y1 := m.y1, x2 := m.x2, y2 := m.y2, x3 := m.x3, y3 := m.y3, trace := [] }

/-- Lines 127-185 over the arithmetic `A`. -/
def Machine.extend {F : Type} (A : Arith F) (E : Env F) (log_space : Bool) (fuel : Nat)
    (s : State F) : Outcome F :=
  if s.turned_up = false then Machine.extendRight A E log_space fuel s
  else if s.ibest = 0 then Machine.extendLeft A E log_space fuel s
  else Outcome.ret 0 s

/-- The function `glob_min` over the arithmetic `A`. -/
def Machine.glob_min {F : Type} (A : Arith F) (fuel : Nat) (E : Env F) (low high : F)
    (npts : Int) (log_space : Bool) (critlim : F) (m : Bracket F) : Outcome F :=
  match Machine.scan A E log_space critlim (decide (npts < 0)) (pointCount npts).toNat
      (Machine.initState A E low high npts log_space m) with
  | ScanExit.aborted s => Outcome.ret s.user_quit s
  | ScanExit.finished s => Machine.extend A E log_space fuel (Machine.neighbours A log_space s)

/-- The return value of a run, if it returned. -/
def Outcome.code {F : Type} : Outcome F → Option Int
  | Outcome.ret c _ => some c
  | Outcome.timeout _ => none

/-- The rational value of a finite double (and 0 for the other values). -/
def Dbl.toRat : Dbl → ℚ
  | Dbl.fin m e => (m : ℚ) * (2 : ℚ) ^ e
  | Dbl.inf _ => 0
  | Dbl.nan => 0

/-- The criterion `f(x) = -x` on `double`, never asking to stop, with a keyboard
that is never pressed.  (`exp` and `log` are not called under linear spacing.) -/
def negDbl : Env Dbl :=
  { criter := fun _ x => (0, Dbl.neg x), user_pressed_escape := fun _ => 0,
    exp := fun t => t, log := fun t => t }

/-- The six output cells holding `0.0`. -/
def zeroCells : Bracket Dbl :=
  ⟨Dbl.ofInt 0, Dbl.ofInt 0, Dbl.ofInt 0, Dbl.ofInt 0, Dbl.ofInt 0, Dbl.ofInt 0⟩

/-! # Theorems -/

theorem scanBody_i (E : Env K) (know : Bool) (s : State K) : (scanBody E know s).i = s.i := by
  simp only [scanBody, evalPoint, pollQuit, track]
  split_ifs <;> rfl

theorem scanBody_x (E : Env K) (know : Bool) (s : State K) : (scanBody E know s).x = s.x := by
  simp only [scanBody, evalPoint, pollQuit, track]
  split_ifs <;> rfl

theorem scanBody_rate (E : Env K) (know : Bool) (s : State K) :
    (scanBody E know s).rate = s.rate := by
  simp only [scanBody, evalPoint, pollQuit, track]
  split_ifs <;> rfl

theorem advance_i (log_space : Bool) (s : State K) : (advance log_space s).i = s.i + 1 := by
  unfold advance; split_ifs <;> rfl

/-- Invariant rule for the scan loop: `H` holds at the loop head, `B` after the
body of an iteration. -/
theorem scan_rule (E : Env K) (log_space : Bool) (critlim : K) (know : Bool)
    (H B : State K → Prop)
    (hbody : ∀ s, H s → B (scanBody E know s))
    (hadv : ∀ s, B s → s.user_quit = 0 → ¬ closedExit critlim s → H (advance log_space s)) :
    ∀ (n : Nat) (s : State K), H s →
      (∀ s', scan E log_space critlim know n s = ScanExit.finished s' →
        (H s' ∧ s'.i = s.i + n) ∨ (B s' ∧ closedExit critlim s')) ∧
      (∀ s', scan E log_space critlim know n s = ScanExit.aborted s' →
        B s' ∧ s'.user_quit ≠ 0 ∧ ¬ closedExit critlim s') := by
  intro n
  induction n with
  | zero =>
    intro s hs
    constructor
    · intro s' h
      simp only [scan, ScanExit.finished.injEq] at h
      subst h
      left; exact ⟨hs, by simp⟩
    · intro s' h
      simp [scan] at h
  | succ n ih =>
    intro s hs
    have hB := hbody s hs
    by_cases hc : closedExit critlim (scanBody E know s)
    · have hscan : scan E log_space critlim know (n + 1) s
          = ScanExit.finished (scanBody E know s) := by
        have hc' := hc
        unfold closedExit at hc'
        simp only [scan]
        rw [if_pos hc']
      rw [hscan]
      constructor
      · intro s' h
        simp only [ScanExit.finished.injEq] at h
        subst h
        right; exact ⟨hB, hc⟩
      · intro s' h
        simp at h
    · by_cases hq : (scanBody E know s).user_quit ≠ 0
      · have hscan : scan E log_space critlim know (n + 1) s
            = ScanExit.aborted (scanBody E know s) := by
          have hc' := hc
          unfold closedExit at hc'
          simp only [scan]
          rw [if_neg hc', if_pos hq]
        rw [hscan]
        constructor
        · intro s' h
          simp at h
        · intro s' h
          simp only [ScanExit.aborted.injEq] at h
          subst h
          exact ⟨hB, hq, hc⟩
      · have hscan : scan E log_space critlim know (n + 1) s
            = scan E log_space critlim know n (advance log_space (scanBody E know s)) := by
          have hc' := hc
          unfold closedExit at hc'
          simp only [scan]
          rw [if_neg hc', if_neg hq]
        rw [hscan]
        have hq0 : (scanBody E know s).user_quit = 0 := by
          by_contra h0; exact hq h0
        have hH := hadv _ hB hq0 hc
        obtain ⟨h1, h2⟩ := ih _ hH
        constructor
        · intro s' h
          rcases h1 s' h with ⟨ha, hb⟩ | hb
          · left
            refine ⟨ha, ?_⟩
            rw [hb, advance_i, scanBody_i]
            push_cast; ring
          · right; exact hb
        · exact h2

/-- Invariant rule for the right extension loop. -/
theorem extendRight_rule (E : Env K) (log_space : Bool) (I : State K → Prop)
    (hstep : ∀ s, I s → (probeRight E s).user_quit = 0 →
      ¬ (probeRight E s).y3 > (probeRight E s).y2 → ¬ flat (probeRight E s) →
      I (shiftRight log_space (probeRight E s))) :
    ∀ (n : Nat) (s : State K), I s →
      (∀ c s', extendRight E log_space n s = Outcome.ret c s' →
        ∃ s0, I s0 ∧ s' = probeRight E s0 ∧
          ((c ≠ 0 ∧ c = s'.user_quit) ∨
           (c = 0 ∧ s'.user_quit = 0 ∧ (s'.y2 < s'.y3 ∨ flat s')))) ∧
      (∀ s', extendRight E log_space n s = Outcome.timeout s' → I s') := by
  intro n
  induction n with
  | zero =>
    intro s hs
    constructor
    · intro c s' h; simp [extendRight] at h
    · intro s' h
      simp only [extendRight, Outcome.timeout.injEq] at h
      subst h; exact hs
  | succ n ih =>
    intro s hs
    by_cases hq : (probeRight E s).user_quit ≠ 0
    · have hx : extendRight E log_space (n + 1) s
          = Outcome.ret (probeRight E s).user_quit (probeRight E s) := by
        simp only [extendRight]; rw [if_pos hq]
      rw [hx]
      constructor
      · intro c s' h
        simp only [Outcome.ret.injEq] at h
        obtain ⟨h1, h2⟩ := h
        subst h2
        exact ⟨s, hs, rfl, Or.inl ⟨by rw [← h1]; exact hq, h1.symm⟩⟩
      · intro s' h; simp at h
    · have hq0 : (probeRight E s).user_quit = 0 := by
        by_contra h0; exact hq h0
      by_cases hup : (probeRight E s).y3 > (probeRight E s).y2
      · have hx : extendRight E log_space (n + 1) s = Outcome.ret 0 (probeRight E s) := by
          simp only [extendRight]; rw [if_neg hq, if_pos hup]
        rw [hx]
        constructor
        · intro c s' h
          simp only [Outcome.ret.injEq] at h
          obtain ⟨h1, h2⟩ := h
          subst h2
          exact ⟨s, hs, rfl, Or.inr ⟨h1.symm, hq0, Or.inl hup⟩⟩
        · intro s' h; simp at h
      · by_cases hf : flat (probeRight E s)
        · have hx : extendRight E log_space (n + 1) s = Outcome.ret 0 (probeRight E s) := by
            have hf' := hf
            unfold flat at hf'
            simp only [extendRight]; rw [if_neg hq, if_neg hup, if_pos hf']
          rw [hx]
          constructor
          · intro c s' h
            simp only [Outcome.ret.injEq] at h
            obtain ⟨h1, h2⟩ := h
            subst h2
            exact ⟨s, hs, rfl, Or.inr ⟨h1.symm, hq0, Or.inr hf⟩⟩
          · intro s' h; simp at h
        · have hx : extendRight E log_space (n + 1) s
              = extendRight E log_space n (shiftRight log_space (probeRight E s)) := by
            have hf' := hf
            unfold flat at hf'
            simp only [extendRight]; rw [if_neg hq, if_neg hup, if_neg hf']
          rw [hx]
          exact ih _ (hstep s hs hq0 hup hf)

/-- Invariant rule for the left extension loop. -/
theorem extendLeft_rule (E : Env K) (log_space : Bool) (I : State K → Prop)
    (hstep : ∀ s, I s → (probeLeft E s).user_quit = 0 →
      ¬ (probeLeft E s).y1 > (probeLeft E s).y2 → ¬ flat (probeLeft E s) →
      I (shiftLeft log_space (probeLeft E s))) :
    ∀ (n : Nat) (s : State K), I s →
      (∀ c s', extendLeft E log_space n s = Outcome.ret c s' →
        ∃ s0, I s0 ∧ s' = probeLeft E s0 ∧
          ((c ≠ 0 ∧ c = s'.user_quit) ∨
           (c = 0 ∧ s'.user_quit = 0 ∧ (s'.y2 < s'.y1 ∨ flat s')))) ∧
      (∀ s', extendLeft E log_space n s = Outcome.timeout s' → I s') := by
  intro n
  induction n with
  | zero =>
    intro s hs
    constructor
    · intro c s' h; simp [extendLeft] at h
    · intro s' h
      simp only [extendLeft, Outcome.timeout.injEq] at h
      subst h; exact hs
  | succ n ih =>
    intro s hs
    by_cases hq : (probeLeft E s).user_quit ≠ 0
    · have hx : extendLeft E log_space (n + 1) s
          = Outcome.ret (probeLeft E s).user_quit (probeLeft E s) := by
        simp only [extendLeft]; rw [if_pos hq]
      rw [hx]
      constructor
      · intro c s' h
        simp only [Outcome.ret.injEq] at h
        obtain ⟨h1, h2⟩ := h
        subst h2
        exact ⟨s, hs, rfl, Or.inl ⟨by rw [← h1]; exact hq, h1.symm⟩⟩
      · intro s' h; simp at h
    · have hq0 : (probeLeft E s).user_quit = 0 := by
        by_contra h0; exact hq h0
      by_cases hup : (probeLeft E s).y1 > (probeLeft E s).y2
      · have hx : extendLeft E log_space (n + 1) s = Outcome.ret 0 (probeLeft E s) := by
          simp only [extendLeft]; rw [if_neg hq, if_pos hup]
        rw [hx]
        constructor
        · intro c s' h
          simp only [Outcome.ret.injEq] at h
          obtain ⟨h1, h2⟩ := h
          subst h2
          exact ⟨s, hs, rfl, Or.inr ⟨h1.symm, hq0, Or.inl hup⟩⟩
        · intro s' h; simp at h
      · by_cases hf : flat (probeLeft E s)
        · have hx : extendLeft E log_space (n + 1) s = Outcome.ret 0 (probeLeft E s) := by
            have hf' := hf
            unfold flat at hf'
            simp only [extendLeft]; rw [if_neg hq, if_neg hup, if_pos hf']
          rw [hx]
          constructor
          · intro c s' h
            simp only [Outcome.ret.injEq] at h
            obtain ⟨h1, h2⟩ := h
            subst h2
            exact ⟨s, hs, rfl, Or.inr ⟨h1.symm, hq0, Or.inr hf⟩⟩
          · intro s' h; simp at h
        · have hx : extendLeft E log_space (n + 1) s
              = extendLeft E log_space n (shiftLeft log_space (probeLeft E s)) := by
            have hf' := hf
            unfold flat at hf'
            simp only [extendLeft]; rw [if_neg hq, if_neg hup, if_neg hf']
          rw [hx]
          exact ih _ (hstep s hs hq0 hup hf)

/-- The scan body changes the tracking variables as `track` does on the local `y`;
the external calls only touch `user_quit` and the trace. -/
theorem scanBody_track (E : Env K) (know : Bool) (s : State K) :
    scanBody E know s =
      { track s (sampleY E know s) with
        user_quit := (scanBody E know s).user_quit, trace := (scanBody E know s).trace } := by
  simp only [scanBody, sampleY, evalPoint, pollQuit, track]
  split_ifs <;> simp_all

theorem extend_ret (E : Env K) (log_space : Bool) (fuel : Nat) (s1 : State K) (c : Int)
    (s : State K) (h : extend E log_space fuel s1 = Outcome.ret c s) :
    (s1.turned_up = false ∧ extendRight E log_space fuel s1 = Outcome.ret c s) ∨
    (s1.turned_up = true ∧ s1.ibest = 0 ∧ extendLeft E log_space fuel s1 = Outcome.ret c s) ∨
    (s1.turned_up = true ∧ s1.ibest ≠ 0 ∧ c = 0 ∧ s = s1) := by
  unfold extend at h
  by_cases ht : s1.turned_up = false
  · rw [if_pos ht] at h
    exact Or.inl ⟨ht, h⟩
  · rw [if_neg ht] at h
    have ht' : s1.turned_up = true := by simpa using ht
    by_cases hb : s1.ibest = 0
    · rw [if_pos hb] at h
      exact Or.inr (Or.inl ⟨ht', hb, h⟩)
    · rw [if_neg hb] at h
      simp only [Outcome.ret.injEq] at h
      exact Or.inr (Or.inr ⟨ht', hb, h.1.symm, h.2.symm⟩)

theorem glob_min_ret (fuel : Nat) (E : Env K) (low high : K) (npts : Int) (log_space : Bool)
    (critlim : K) (m : Bracket K) (c : Int) (s : State K)
    (h : glob_min fuel E low high npts log_space critlim m = Outcome.ret c s) :
    (scan E log_space critlim (decide (npts < 0)) (pointCount npts).toNat
        (initState E low high npts log_space m) = ScanExit.aborted s ∧ c = s.user_quit) ∨
    (∃ s1, scan E log_space critlim (decide (npts < 0)) (pointCount npts).toNat
        (initState E low high npts log_space m) = ScanExit.finished s1 ∧
      extend E log_space fuel (neighbours log_space s1) = Outcome.ret c s) := by
  unfold glob_min at h
  split at h
  · rename_i s0 heq
    simp only [Outcome.ret.injEq] at h
    left
    rw [heq, ← h.2]
    exact ⟨rfl, h.1.symm⟩
  · rename_i s0 heq
    right
    exact ⟨s0, heq, h⟩

theorem track_bestInv (s : State K) (y : K) (h : HeadY s) : BestInv s.i (track s y) := by
  obtain ⟨hi, hb⟩ := h
  unfold track
  by_cases h1 : s.i = 0 ∨ y < s.y2
  · rw [if_pos h1]
    refine ⟨hi, le_refl _, by simp, ?_, by simp, le_refl _⟩
    intro hpos
    have hpos' : 0 < s.i := hpos
    obtain ⟨_, _, _, _, _, hp⟩ := hb hpos'
    rcases h1 with h0 | hlt
    · omega
    · exact lt_of_lt_of_le hlt hp
  · rw [if_neg h1]
    push_neg at h1
    obtain ⟨hne, hge⟩ := h1
    have hpos : 0 < s.i := lt_of_le_of_ne hi (Ne.symm hne)
    obtain ⟨b0, b1, b2, b3, b4, b5⟩ := hb hpos
    by_cases h2 : s.i = s.ibest + 1
    · rw [if_pos h2]
      refine ⟨b0, by show s.ibest ≤ s.i; omega, ?_, b3, fun _ => hge, hge⟩
      show (true = true ↔ s.ibest < s.i)
      simp only [true_iff]; omega
    · rw [if_neg h2]
      have hlt : s.ibest < s.i - 1 := by omega
      have ht : s.turned_up = true := b2.mpr hlt
      refine ⟨b0, by show s.ibest ≤ s.i; omega, ?_, b3, b4, hge⟩
      show (s.turned_up = true ↔ s.ibest < s.i)
      constructor
      · intro _; omega
      · intro _; exact ht

theorem scanBody_bodyY (E : Env K) (know : Bool) (s : State K) (h : HeadY s) :
    BodyY (scanBody E know s) := by
  have hb := track_bestInv s (sampleY E know s) h
  rw [scanBody_track]
  refine ⟨?_, ?_⟩
  · show 0 ≤ (track s (sampleY E know s)).i
    have : (track s (sampleY E know s)).i = s.i := by
      unfold track; split_ifs <;> rfl
    rw [this]; exact h.1
  · have hi : (track s (sampleY E know s)).i = s.i := by
      unfold track; split_ifs <;> rfl
    show BestInv (track s (sampleY E know s)).i (track s (sampleY E know s))
    rw [hi]; exact hb

theorem advance_headY (log_space : Bool) (s : State K) (h : BodyY s) :
    HeadY (advance log_space s) := by
  obtain ⟨hi, hb⟩ := h
  have e : advance log_space s = { s with x := (advance log_space s).x, i := s.i + 1 } := by
    unfold advance; split_ifs <;> rfl
  rw [e]
  refine ⟨by show 0 ≤ s.i + 1; omega, fun _ => ?_⟩
  show BestInv (s.i + 1 - 1) s
  have : s.i + 1 - 1 = s.i := by ring
  rw [this]; exact hb

theorem stepRate_good (E : Env K) (low high : K) (npts : Int) (log_space : Bool)
    (hlh : low < high) (hn : 2 ≤ pointCount npts)
    (hlog : log_space = true → 0 < low ∧ ExpLogOk E) :
    GoodStep log_space (stepRate E low high npts log_space) := by
  have hN : (0 : K) < ((pointCount npts - 1 : Int) : K) := by
    have : (0 : Int) < pointCount npts - 1 := by omega
    exact_mod_cast this
  constructor
  · intro hl
    obtain ⟨hlow, hexp, hlg⟩ := hlog hl
    unfold stepRate
    rw [if_pos hl]
    apply hexp
    apply div_pos _ hN
    apply hlg
    rw [lt_div_iff₀ hlow]
    simpa using hlh
  · intro hl
    unfold stepRate
    have : ¬ log_space = true := by simp [hl]
    rw [if_neg this]
    exact div_pos (sub_pos.mpr hlh) hN

theorem scanBody_bodyX (E : Env K) (know log_space : Bool) (s : State K)
    (hi : 0 ≤ s.i) (h : HeadX log_space s) : BodyX log_space (scanBody E know s) := by
  obtain ⟨hg, hx, hx2⟩ := h
  rw [scanBody_track]
  unfold track
  by_cases h1 : s.i = 0 ∨ sampleY E know s < s.y2
  · rw [if_pos h1]
    exact ⟨hg, hx, hx⟩
  · rw [if_neg h1]
    push_neg at h1
    have hpos : 0 < s.i := lt_of_le_of_ne hi (Ne.symm h1.1)
    by_cases h2 : s.i = s.ibest + 1
    · rw [if_pos h2]
      exact ⟨hg, hx, fun hl => hx2 hl hpos⟩
    · rw [if_neg h2]
      exact ⟨hg, hx, fun hl => hx2 hl hpos⟩

theorem advance_headX (log_space : Bool) (s : State K) (h : BodyX log_space s) :
    HeadX log_space (advance log_space s) := by
  obtain ⟨hg, hx, hx2⟩ := h
  unfold advance
  cases log_space with
  | true =>
    simp only [if_true]
    refine ⟨hg, fun _ => ?_, fun _ _ => hx2 rfl⟩
    have h1 : (1 : K) < s.rate := hg.1 rfl
    exact mul_pos (hx rfl) (lt_trans zero_lt_one h1)
  | false =>
    simp only [Bool.false_eq_true, if_false]
    exact ⟨hg, fun h => by simp at h, fun h => by simp at h⟩

theorem scan_end (E : Env K) (low high : K) (npts : Int) (log_space : Bool) (critlim : K)
    (m : Bracket K) (hlh : low < high) (hn : 2 ≤ pointCount npts)
    (hlog : log_space = true → 0 < low ∧ ExpLogOk E) (s1 : State K)
    (h : scan E log_space critlim (decide (npts < 0)) (pointCount npts).toNat
      (initState E low high npts log_space m) = ScanExit.finished s1) :
    ScanEnd log_space s1 := by
  have hrule := scan_rule E log_space critlim (decide (npts < 0))
    (fun s => HeadY s ∧ HeadX log_space s) (fun s => BodyY s ∧ BodyX log_space s)
    (fun s hs => ⟨scanBody_bodyY E _ s hs.1, scanBody_bodyX E _ log_space s hs.1.1 hs.2⟩)
    (fun s hs _ _ => ⟨advance_headY log_space s hs.1, advance_headX log_space s hs.2⟩)
    (pointCount npts).toNat (initState E low high npts log_space m)
    ⟨⟨le_refl _, fun h0 => absurd h0 (lt_irrefl _)⟩,
      ⟨stepRate_good E low high npts log_space hlh hn hlog, fun hl => (hlog hl).1,
        fun _ h0 => absurd h0 (lt_irrefl _)⟩⟩
  rcases hrule.1 s1 h with ⟨⟨⟨_, hy⟩, hg, _, hx2⟩, hi⟩ | ⟨⟨⟨_, hy⟩, hg, _, hx2⟩, _, hpos, hup⟩
  · have hi' : s1.i = pointCount npts := by
      rw [hi]
      show (0 : Int) + ((pointCount npts).toNat : Int) = pointCount npts
      rw [Int.toNat_of_nonneg (by omega)]; ring
    have hpos : 0 < s1.i := by omega
    obtain ⟨b0, b1, b2, b3, b4, _⟩ := hy hpos
    refine ⟨b0, ?_, b3, b4, hg, fun hl => hx2 hl hpos⟩
    intro hf
    by_contra hcon
    have : s1.ibest < s1.i - 1 := by omega
    have := b2.mpr this
    rw [hf] at this
    exact absurd this (by simp)
  · obtain ⟨b0, b1, b2, b3, b4, _⟩ := hy
    exact ⟨b0, fun _ => hpos, b3, b4, hg, hx2⟩

theorem probeRight_eq (E : Env K) (s : State K) :
    probeRight E s =
      { s with
        user_quit := (probeRight E s).user_quit, y3 := (probeRight E s).y3,
        trace := (probeRight E s).trace } := by
  simp only [probeRight]
  split_ifs <;> rfl

theorem probeLeft_eq (E : Env K) (s : State K) :
    probeLeft E s =
      { s with
        user_quit := (probeLeft E s).user_quit, y1 := (probeLeft E s).y1,
        trace := (probeLeft E s).trace } := by
  simp only [probeLeft]
  split_ifs <;> rfl

theorem goodStep_triple (log_space : Bool) (r : K) (h : GoodStep log_space r) :
    GoodStep log_space (r * 3) := by
  constructor
  · intro hl; have := h.1 hl; linarith
  · intro hl; have := h.2 hl; linarith

theorem shiftRight_inv (E : Env K) (log_space : Bool) (s : State K)
    (h : RightInv log_space s) (hup : ¬ (probeRight E s).y3 > (probeRight E s).y2) :
    RightInv log_space (shiftRight log_space (probeRight E s)) := by
  obtain ⟨hy, h12, h23, hg, hpos⟩ := h
  rw [probeRight_eq] at hup ⊢
  have hle : (probeRight E s).y3 ≤ s.y2 := not_lt.mp hup
  unfold shiftRight
  cases log_space with
  | true =>
    simp only [if_true]
    have h1 : (1 : K) < s.rate := hg.1 rfl
    have hx2 : 0 < s.x2 := hpos rfl
    have hx3 : 0 < s.x3 := lt_trans hx2 h23
    refine ⟨hle, h23, ?_, goodStep_triple _ _ hg, fun _ => hx3⟩
    show s.x3 < s.x3 * (s.rate * 3)
    have : (1 : K) < s.rate * 3 := by linarith
    exact lt_mul_of_one_lt_right hx3 this
  | false =>
    simp only [Bool.false_eq_true, if_false]
    have h0 : (0 : K) < s.rate := hg.2 rfl
    refine ⟨hle, h23, ?_, goodStep_triple _ _ hg, fun h => by simp at h⟩
    show s.x3 < s.x3 + s.rate * 3
    linarith

theorem shiftLeft_inv (E : Env K) (log_space : Bool) (s : State K)
    (h : LeftInv log_space s) (hup : ¬ (probeLeft E s).y1 > (probeLeft E s).y2) :
    LeftInv log_space (shiftLeft log_space (probeLeft E s)) := by
  obtain ⟨hy, h12, h23, hg, hpos⟩ := h
  rw [probeLeft_eq] at hup ⊢
  have hle : (probeLeft E s).y1 ≤ s.y2 := not_lt.mp hup
  unfold shiftLeft
  cases log_space with
  | true =>
    simp only [if_true]
    have h1 : (1 : K) < s.rate := hg.1 rfl
    have hx1 : 0 < s.x1 := hpos rfl
    have h3 : (1 : K) < s.rate * 3 := by linarith
    have h30 : (0 : K) < s.rate * 3 := by linarith
    refine ⟨hle, ?_, h12, goodStep_triple _ _ hg, fun _ => ?_⟩
    · show s.x1 / (s.rate * 3) < s.x1
      exact div_lt_self hx1 h3
    · show 0 < s.x1 / (s.rate * 3)
      exact div_pos hx1 h30
  | false =>
    simp only [Bool.false_eq_true, if_false]
    have h0 : (0 : K) < s.rate := hg.2 rfl
    refine ⟨hle, ?_, h12, goodStep_triple _ _ hg, fun h => by simp at h⟩
    show s.x1 - s.rate * 3 < s.x1
    linarith

/-- After line 118 the three abscissas are in order. -/
theorem neighbours_order (log_space : Bool) (s : State K) (hg : GoodStep log_space s.rate)
    (hpos : log_space = true → 0 < s.x2) :
    (neighbours log_space s).x1 < (neighbours log_space s).x2 ∧
    (neighbours log_space s).x2 < (neighbours log_space s).x3 ∧
    (log_space = true → 0 < (neighbours log_space s).x1) ∧
    neighbours log_space s =
      { s with x1 := (neighbours log_space s).x1, x3 := (neighbours log_space s).x3 } := by
  unfold neighbours
  cases log_space with
  | true =>
    simp only [if_true]
    have h1 : (1 : K) < s.rate := hg.1 rfl
    have hx2 : 0 < s.x2 := hpos rfl
    refine ⟨?_, ?_, fun _ => ?_, trivial⟩
    · show s.x2 / s.rate < s.x2
      exact div_lt_self hx2 h1
    · show s.x2 < s.x2 * s.rate
      exact lt_mul_of_one_lt_right hx2 h1
    · show 0 < s.x2 / s.rate
      exact div_pos hx2 (lt_trans zero_lt_one h1)
  | false =>
    simp only [Bool.false_eq_true, if_false]
    have h0 : (0 : K) < s.rate := hg.2 rfl
    refine ⟨?_, ?_, fun h => by simp at h, trivial⟩
    · show s.x2 - s.rate < s.x2
      linarith
    · show s.x2 < s.x2 + s.rate
      linarith

/-- C1. Bracket guarantee: for every valid range (`low < high`, at least two
points, and `0 < low` under log spacing, where `exp` and `log` behave as the real
functions do), every criterion and every poll, whenever `glob_min` returns 0 the
returned bracket satisfies `x1 < x2 < x3`, `y2 ≤ y1` and `y2 ≤ y3`. -/
theorem bracket_guarantee (fuel : Nat) (E : Env K) (low high : K) (npts : Int) (log_space : Bool)
    (critlim : K) (m : Bracket K) (s : State K)
    (hlh : low < high) (hn : 2 ≤ pointCount npts)
    (hlog : log_space = true → 0 < low ∧ ExpLogOk E)
    (h : glob_min fuel E low high npts log_space critlim m = Outcome.ret 0 s) :
    s.x1 < s.x2 ∧ s.x2 < s.x3 ∧ s.y2 ≤ s.y1 ∧ s.y2 ≤ s.y3 := by
  rcases glob_min_ret fuel E low high npts log_space critlim m 0 s h with ⟨ha, hc⟩ | ⟨s1, hs, he⟩
  · -- `return user_quit` of line 97 returns a nonzero value
    have hrule := scan_rule E log_space critlim (decide (npts < 0))
      (fun _ => True) (fun _ => True) (fun _ _ => trivial) (fun _ _ _ _ => trivial)
      (pointCount npts).toNat (initState E low high npts log_space m) trivial
    exact absurd hc.symm (hrule.2 s ha).2.1
  · obtain ⟨e0, e1, e2, e3, eg, ex⟩ := scan_end E low high npts log_space critlim m hlh hn hlog s1 hs
    obtain ⟨n12, n23, nx1, neq⟩ := neighbours_order log_space s1 eg ex
    have fib : (neighbours log_space s1).ibest = s1.ibest := by rw [neq]
    have ftu : (neighbours log_space s1).turned_up = s1.turned_up := by rw [neq]
    have fy1 : (neighbours log_space s1).y1 = s1.y1 := by rw [neq]
    have fy2 : (neighbours log_space s1).y2 = s1.y2 := by rw [neq]
    have fy3 : (neighbours log_space s1).y3 = s1.y3 := by rw [neq]
    have fx2 : (neighbours log_space s1).x2 = s1.x2 := by rw [neq]
    have frt : (neighbours log_space s1).rate = s1.rate := by rw [neq]
    rcases extend_ret E log_space fuel _ 0 s he with ⟨ht, hx⟩ | ⟨ht, hb, hx⟩ | ⟨ht, hb, _, hx⟩
    · -- right extension
      rw [ftu] at ht
      have hI : RightInv log_space (neighbours log_space s1) := by
        refine ⟨?_, n12, n23, by rw [frt]; exact eg, fun hl => by rw [fx2]; exact ex hl⟩
        rw [fy1, fy2]; exact le_of_lt (e2 (e1 ht))
      obtain ⟨s0, hI0, hs0, hret⟩ := ((extendRight_rule E log_space (RightInv log_space)
        (fun t ht _ hup _ => shiftRight_inv E log_space t ht hup) fuel _ hI).1 0 s hx)
      obtain ⟨g1, g2, g3, _, _⟩ := hI0
      rcases hret with ⟨hne, _⟩ | ⟨_, _, hfin⟩
      · exact absurd rfl hne
      · have q1 : s.x1 = s0.x1 := by rw [hs0, probeRight_eq]
        have q2 : s.x2 = s0.x2 := by rw [hs0, probeRight_eq]
        have q3 : s.x3 = s0.x3 := by rw [hs0, probeRight_eq]
        have q4 : s.y1 = s0.y1 := by rw [hs0, probeRight_eq]
        have q5 : s.y2 = s0.y2 := by rw [hs0, probeRight_eq]
        refine ⟨by rw [q1, q2]; exact g2, by rw [q2, q3]; exact g3, by rw [q4, q5]; exact g1, ?_⟩
        rcases hfin with hlt | hfl
        · exact le_of_lt hlt
        · exact le_of_eq hfl.2
    · -- left extension
      rw [ftu] at ht
      have hI : LeftInv log_space (neighbours log_space s1) := by
        refine ⟨?_, n12, n23, by rw [frt]; exact eg, nx1⟩
        rw [fy2, fy3]; exact e3 ht
      obtain ⟨s0, hI0, hs0, hret⟩ := ((extendLeft_rule E log_space (LeftInv log_space)
        (fun t ht _ hup _ => shiftLeft_inv E log_space t ht hup) fuel _ hI).1 0 s hx)
      obtain ⟨g1, g2, g3, _, _⟩ := hI0
      rcases hret with ⟨hne, _⟩ | ⟨_, _, hfin⟩
      · exact absurd rfl hne
      · have q1 : s.x1 = s0.x1 := by rw [hs0, probeLeft_eq]
        have q2 : s.x2 = s0.x2 := by rw [hs0, probeLeft_eq]
        have q3 : s.x3 = s0.x3 := by rw [hs0, probeLeft_eq]
        have q4 : s.y3 = s0.y3 := by rw [hs0, probeLeft_eq]
        have q5 : s.y2 = s0.y2 := by rw [hs0, probeLeft_eq]
        refine ⟨by rw [q1, q2]; exact g2, by rw [q2, q3]; exact g3, ?_, by rw [q4, q5]; exact g1⟩
        rcases hfin with hlt | hfl
        · exact le_of_lt hlt
        · exact le_of_eq hfl.1.symm
    · -- no extension
      subst hx
      rw [ftu] at ht
      rw [fib] at hb
      have hpos : 0 < s1.ibest := lt_of_le_of_ne e0 (Ne.symm hb)
      refine ⟨n12, n23, ?_, ?_⟩
      · rw [fy1, fy2]; exact le_of_lt (e2 hpos)
      · rw [fy2, fy3]; exact e3 ht

/-! ## The exponential and the logarithm of the reals -/

/-- The real `exp` and `log` meet what line 58 needs of them. -/
theorem real_expLogOk (c : List (Event ℝ) → ℝ → Int × ℝ) (p : List (Event ℝ) → Int) :
    ExpLogOk ({ criter := c, user_pressed_escape := p, exp := Real.exp, log := Real.log } : Env ℝ) :=
  ⟨fun _ ht => Real.one_lt_exp_iff.mpr ht, fun _ ht => Real.log_pos ht⟩

theorem demoEnv_ok : ExpLogOk demoEnv :=
  ⟨fun t ht => by show (1 : ℚ) < 1 + t; linarith, fun t ht => by show (0 : ℚ) < t - 1; linarith⟩

/-! ## C1 -/

/-- A run under log spacing to which `bracket_guarantee` applies. -/
theorem bracket_guarantee_witness :
    glob_min 0 demoEnv 1 4 4 true (-1) ⟨0, 0, 0, 0, 0, 0⟩ = Outcome.ret 0 demoState ∧
    (demoState.x1 < demoState.x2 ∧ demoState.x2 < demoState.x3 ∧
      demoState.y2 ≤ demoState.y1 ∧ demoState.y2 ≤ demoState.y3) := by
  have h : glob_min 0 demoEnv 1 4 4 true (-1) ⟨0, 0, 0, 0, 0, 0⟩ = Outcome.ret 0 demoState := by
    norm_num [glob_min, scan, scanBody, evalPoint, track, pollQuit, advance, initState,
      stepRate, pointCount, neighbours, extend, demoEnv, demoState]
  exact ⟨h, bracket_guarantee 0 demoEnv 1 4 4 true (-1) ⟨0, 0, 0, 0, 0, 0⟩ demoState
    (by norm_num) (by decide) (fun _ => ⟨by norm_num, demoEnv_ok⟩) h⟩

/-! ## The best sample -/

theorem scanBody_trace_mem (E : Env K) (know : Bool) (s : State K) (x : K) (q : Int) (y : K)
    (h : Event.crit x q y ∈ (scanBody E know s).trace) :
    Event.crit x q y ∈ s.trace ∨
      ((s.i ≠ 0 ∨ know = false) ∧ x = s.x ∧ y = sampleY E know s) := by
  simp only [scanBody, sampleY, evalPoint, pollQuit, track] at h ⊢
  split_ifs at h ⊢ <;> simp_all <;> tauto

theorem sampleY_known (E : Env K) (know : Bool) (s : State K)
    (h : ¬ (s.i ≠ 0 ∨ know = false)) : sampleY E know s = s.y2 := by
  simp only [sampleY, evalPoint]
  rw [if_neg h]

theorem scanBody_y2 (E : Env K) (know : Bool) (s : State K) :
    (scanBody E know s).y2 = (track s (sampleY E know s)).y2 := by
  rw [scanBody_track]

theorem track_y2_le (s : State K) (y : K) : (track s y).y2 ≤ y := by
  unfold track
  split_ifs with h1 h2
  · exact le_refl _
  · push_neg at h1; exact h1.2
  · push_neg at h1; exact h1.2

theorem track_y2_le_old (s : State K) (y : K) (h : s.i ≠ 0) : (track s y).y2 ≤ s.y2 := by
  unfold track
  split_ifs with h1 h2
  · rcases h1 with h0 | hlt
    · exact absurd h0 h
    · exact le_of_lt hlt
  · exact le_refl _
  · exact le_refl _

theorem track_y2_first (s : State K) (y : K) (h : s.i = 0) : (track s y).y2 = y := by
  unfold track
  rw [if_pos (Or.inl h)]

theorem scanBody_bestSoFar (E : Env K) (know : Bool) (y0 : K) (s : State K)
    (h : HeadMin know y0 s) : BestSoFar know y0 (scanBody E know s) := by
  obtain ⟨hi, h0, hpos⟩ := h
  by_cases hz : s.i = 0
  · obtain ⟨ht, hy⟩ := h0 hz
    constructor
    · intro x q y hm
      rw [scanBody_y2]
      rcases scanBody_trace_mem E know s x q y hm with hold | ⟨_, _, hy'⟩
      · rw [ht] at hold; simp at hold
      · rw [hy']; exact track_y2_le _ _
    · intro hk
      rw [scanBody_y2, track_y2_first _ _ hz, sampleY_known E know s (by simp [hz, hk]), hy]
  · have hp : 0 < s.i := lt_of_le_of_ne hi (Ne.symm hz)
    obtain ⟨hm0, hk0⟩ := hpos hp
    constructor
    · intro x q y hm
      rw [scanBody_y2]
      rcases scanBody_trace_mem E know s x q y hm with hold | ⟨_, _, hy'⟩
      · exact le_trans (track_y2_le_old _ _ hz) (hm0 x q y hold)
      · rw [hy']; exact track_y2_le _ _
    · intro hk
      rw [scanBody_y2]
      exact le_trans (track_y2_le_old _ _ hz) (hk0 hk)

theorem advance_headMin (log_space know : Bool) (y0 : K) (s : State K) (hi : 0 ≤ s.i)
    (h : BestSoFar know y0 s) : HeadMin know y0 (advance log_space s) := by
  have e : advance log_space s = { s with x := (advance log_space s).x, i := s.i + 1 } := by
    unfold advance; split_ifs <;> rfl
  rw [e]
  refine ⟨by show 0 ≤ s.i + 1; omega, fun h0 => ?_, fun _ => h⟩
  have : s.i + 1 = 0 := h0
  omega

theorem scanBody_i_nonneg (E : Env K) (know : Bool) (s : State K) (h : 0 ≤ s.i) :
    0 ≤ (scanBody E know s).i := by
  rw [scanBody_i]; exact h

theorem probeRight_trace_mem (E : Env K) (s : State K) (x : K) (q : Int) (y : K)
    (h : Event.crit x q y ∈ (probeRight E s).trace) :
    Event.crit x q y ∈ s.trace ∨ (x = s.x3 ∧ y = (probeRight E s).y3) := by
  simp only [probeRight] at h ⊢
  split_ifs at h ⊢
  · simp_all; tauto
  · simp_all

theorem probeLeft_trace_mem (E : Env K) (s : State K) (x : K) (q : Int) (y : K)
    (h : Event.crit x q y ∈ (probeLeft E s).trace) :
    Event.crit x q y ∈ s.trace ∨ (x = s.x1 ∧ y = (probeLeft E s).y1) := by
  simp only [probeLeft] at h ⊢
  split_ifs at h ⊢
  · simp_all; tauto
  · simp_all

theorem probeRight_y2 (E : Env K) (s : State K) : (probeRight E s).y2 = s.y2 := by
  rw [probeRight_eq]

theorem probeLeft_y2 (E : Env K) (s : State K) : (probeLeft E s).y2 = s.y2 := by
  rw [probeLeft_eq]

theorem shiftRight_eq (log_space : Bool) (s : State K) :
    shiftRight log_space s =
      { s with
        x1 := s.x2, y1 := s.y2, x2 := s.x3, y2 := s.y3, rate := s.rate * 3,
        x3 := (shiftRight log_space s).x3 } := by
  unfold shiftRight; split_ifs <;> rfl

theorem shiftLeft_eq (log_space : Bool) (s : State K) :
    shiftLeft log_space s =
      { s with
        x3 := s.x2, y3 := s.y2, x2 := s.x1, y2 := s.y1, rate := s.rate * 3,
        x1 := (shiftLeft log_space s).x1 } := by
  unfold shiftLeft; split_ifs <;> rfl

theorem neighbours_eq (log_space : Bool) (s : State K) :
    neighbours log_space s =
      { s with x1 := (neighbours log_space s).x1, x3 := (neighbours log_space s).x3 } := by
  unfold neighbours; split_ifs <;> rfl

/-- A probe of the right extension that does not find a larger value keeps
`BestSoFar` once the points are shifted. -/
theorem shiftRight_bestSoFar (E : Env K) (log_space know : Bool) (y0 : K) (s : State K)
    (h : BestSoFar know y0 s) (hup : ¬ (probeRight E s).y3 > (probeRight E s).y2) :
    BestSoFar know y0 (shiftRight log_space (probeRight E s)) := by
  obtain ⟨hm, hk⟩ := h
  rw [probeRight_y2] at hup
  have hle : (probeRight E s).y3 ≤ s.y2 := not_lt.mp hup
  rw [shiftRight_eq]
  constructor
  · intro x q y hmem
    show (probeRight E s).y3 ≤ y
    rcases probeRight_trace_mem E s x q y hmem with hold | ⟨_, hy⟩
    · exact le_trans hle (hm x q y hold)
    · rw [hy]
  · intro hkk
    show (probeRight E s).y3 ≤ y0
    exact le_trans hle (hk hkk)

theorem shiftLeft_bestSoFar (E : Env K) (log_space know : Bool) (y0 : K) (s : State K)
    (h : BestSoFar know y0 s) (hup : ¬ (probeLeft E s).y1 > (probeLeft E s).y2) :
    BestSoFar know y0 (shiftLeft log_space (probeLeft E s)) := by
  obtain ⟨hm, hk⟩ := h
  rw [probeLeft_y2] at hup
  have hle : (probeLeft E s).y1 ≤ s.y2 := not_lt.mp hup
  rw [shiftLeft_eq]
  constructor
  · intro x q y hmem
    show (probeLeft E s).y1 ≤ y
    rcases probeLeft_trace_mem E s x q y hmem with hold | ⟨_, hy⟩
    · exact le_trans hle (hm x q y hold)
    · rw [hy]
  · intro hkk
    show (probeLeft E s).y1 ≤ y0
    exact le_trans hle (hk hkk)

/-- The `return user_quit` of line 97 returns a nonzero value. -/
theorem scan_aborted_quit (E : Env K) (log_space : Bool) (critlim : K) (know : Bool) (n : Nat)
    (s0 s : State K) (h : scan E log_space critlim know n s0 = ScanExit.aborted s) :
    s.user_quit ≠ 0 :=
  ((scan_rule E log_space critlim know (fun _ => True) (fun _ => True) (fun _ _ => trivial)
    (fun _ _ _ _ => trivial) n s0 trivial).2 s h).2.1

/-- When the scan is left towards line 111, `*y2` is the least value seen. -/
theorem scan_bestSoFar (E : Env K) (low high : K) (npts : Int) (log_space : Bool) (critlim : K)
    (m : Bracket K) (s1 : State K)
    (h : scan E log_space critlim (decide (npts < 0)) (pointCount npts).toNat
      (initState E low high npts log_space m) = ScanExit.finished s1) :
    BestSoFar (decide (npts < 0)) m.y2 s1 := by
  have hrule := scan_rule E log_space critlim (decide (npts < 0))
    (HeadMin (decide (npts < 0)) m.y2)
    (fun s => 0 ≤ s.i ∧ BestSoFar (decide (npts < 0)) m.y2 s)
    (fun s hs => ⟨scanBody_i_nonneg E _ s hs.1, scanBody_bestSoFar E _ _ s hs⟩)
    (fun s hs _ _ => advance_headMin log_space _ _ s hs.1 hs.2)
    (pointCount npts).toNat (initState E low high npts log_space m)
    ⟨le_refl _, fun _ => ⟨rfl, rfl⟩, fun h0 => absurd h0 (lt_irrefl _)⟩
  rcases hrule.1 s1 h with ⟨⟨hi, h0, hpos⟩, _⟩ | ⟨⟨_, hb⟩, _⟩
  · by_cases hz : s1.i = 0
    · obtain ⟨ht, hy⟩ := h0 hz
      refine ⟨fun x q y hm => ?_, fun _ => le_of_eq hy⟩
      rw [ht] at hm; simp at hm
    · exact hpos (lt_of_le_of_ne hi (Ne.symm hz))
  · exact hb

theorem neighbours_bestSoFar (log_space know : Bool) (y0 : K) (s : State K)
    (h : BestSoFar know y0 s) : BestSoFar know y0 (neighbours log_space s) := by
  rw [neighbours_eq]; exact h

/-! ## The best point was sampled -/

theorem scanBody_x2 (E : Env K) (know : Bool) (s : State K) :
    (scanBody E know s).x2 = (track s (sampleY E know s)).x2 := by
  rw [scanBody_track]

theorem advance_eq (log_space : Bool) (s : State K) :
    advance log_space s = { s with x := (advance log_space s).x, i := s.i + 1 } := by
  unfold advance; split_ifs <;> rfl

theorem scanBody_trace_old (E : Env K) (know : Bool) (s : State K) (ev : Event K)
    (h : ev ∈ s.trace) : ev ∈ (scanBody E know s).trace := by
  simp only [scanBody, evalPoint, pollQuit, track]
  split_ifs <;> simp_all

theorem scanBody_trace_new (E : Env K) (know : Bool) (s : State K)
    (hc : s.i ≠ 0 ∨ know = false) :
    Event.crit s.x (E.criter s.trace s.x).1 (sampleY E know s) ∈ (scanBody E know s).trace := by
  simp only [scanBody, sampleY, evalPoint, pollQuit, track]
  rw [if_pos hc]
  split_ifs <;> simp

theorem probeRight_trace_old (E : Env K) (s : State K) (ev : Event K)
    (h : ev ∈ s.trace) : ev ∈ (probeRight E s).trace := by
  simp only [probeRight]
  split_ifs <;> simp_all

theorem probeLeft_trace_old (E : Env K) (s : State K) (ev : Event K)
    (h : ev ∈ s.trace) : ev ∈ (probeLeft E s).trace := by
  simp only [probeLeft]
  split_ifs <;> simp_all

theorem probeRight_trace_new (E : Env K) (s : State K)
    (hq : (probeRight E s).user_quit = 0) :
    Event.crit s.x3 0 (probeRight E s).y3 ∈ (probeRight E s).trace := by
  simp only [probeRight] at hq ⊢
  split_ifs at hq ⊢ with h0
  · simp only at hq
    rw [hq]
    simp
  · exact absurd hq h0

theorem probeLeft_trace_new (E : Env K) (s : State K)
    (hq : (probeLeft E s).user_quit = 0) :
    Event.crit s.x1 0 (probeLeft E s).y1 ∈ (probeLeft E s).trace := by
  simp only [probeLeft] at hq ⊢
  split_ifs at hq ⊢ with h0
  · simp only at hq
    rw [hq]
    simp
  · exact absurd hq h0

/-- After the body of a scan iteration the best point is a point the criterion was
evaluated at, with the value it returned there (or the point `low` with the value
supplied). -/
theorem scanBody_attained (E : Env K) (know : Bool) (low y0 : K) (s : State K)
    (h0 : s.i = 0 → s.x = low ∧ s.y2 = y0) (hpos : s.i ≠ 0 → Attained know low y0 s) :
    Attained know low y0 (scanBody E know s) := by
  unfold Attained
  rw [scanBody_x2, scanBody_y2]
  by_cases h1 : s.i = 0 ∨ sampleY E know s < s.y2
  · have e2 : (track s (sampleY E know s)).x2 = s.x := by unfold track; rw [if_pos h1]
    have e3 : (track s (sampleY E know s)).y2 = sampleY E know s := by
      unfold track; rw [if_pos h1]
    rw [e2, e3]
    by_cases hc : s.i ≠ 0 ∨ know = false
    · exact Or.inl ⟨_, scanBody_trace_new E know s hc⟩
    · right
      rw [sampleY_known E know s hc]
      push_neg at hc
      exact ⟨by simpa using hc.2, (h0 hc.1).1, (h0 hc.1).2⟩
  · push_neg at h1
    have e2 : (track s (sampleY E know s)).x2 = s.x2 := by
      unfold track; rw [if_neg (by push_neg; exact h1)]; split_ifs <;> rfl
    have e3 : (track s (sampleY E know s)).y2 = s.y2 := by
      unfold track; rw [if_neg (by push_neg; exact h1)]; split_ifs <;> rfl
    rw [e2, e3]
    rcases hpos h1.1 with ⟨q, hq⟩ | hk
    · exact Or.inl ⟨q, scanBody_trace_old E know s _ hq⟩
    · exact Or.inr hk

/-- When the scan of at least one point is left towards line 111, the best point
is a sampled point with its value. -/
theorem scan_attained (E : Env K) (low high : K) (npts : Int) (log_space : Bool) (critlim : K)
    (m : Bracket K) (hn : 1 ≤ pointCount npts) (s1 : State K)
    (h : scan E log_space critlim (decide (npts < 0)) (pointCount npts).toNat
      (initState E low high npts log_space m) = ScanExit.finished s1) :
    Attained (decide (npts < 0)) low m.y2 s1 := by
  have hrule := scan_rule E log_space critlim (decide (npts < 0))
    (fun s => 0 ≤ s.i ∧ (s.i = 0 → s.x = low ∧ s.y2 = m.y2) ∧
      (s.i ≠ 0 → Attained (decide (npts < 0)) low m.y2 s))
    (fun s => 0 ≤ s.i ∧ Attained (decide (npts < 0)) low m.y2 s)
    (fun s hs => ⟨by rw [scanBody_i]; exact hs.1,
      scanBody_attained E _ low m.y2 s hs.2.1 hs.2.2⟩)
    (fun s hs _ _ => by
      rw [advance_eq]
      refine ⟨by show 0 ≤ s.i + 1; have := hs.1; omega, fun h0 => ?_, fun _ => hs.2⟩
      have : s.i + 1 = 0 := h0
      have := hs.1
      omega)
    (pointCount npts).toNat (initState E low high npts log_space m)
    ⟨le_refl _, fun _ => ⟨rfl, rfl⟩, fun h0 => absurd rfl h0⟩
  rcases hrule.1 s1 h with ⟨⟨_, _, hpos⟩, hi⟩ | ⟨⟨_, ha⟩, _⟩
  · apply hpos
    rw [hi]
    show (0 : Int) + ((pointCount npts).toNat : Int) ≠ 0
    omega
  · exact ha

/-! ## C2 -/

/-- C2. Best sample: whenever `glob_min` returns 0, the returned `y2` is less than
or equal to every value the criterion produced during the call (in the grid scan
and in an extension alike), and to the value supplied in `*y2` when `npts` is
negative.  And when the grid has at least one point, `y2` is one of these values:
the criterion was evaluated at the returned `x2` and returned `y2` there, or
`(x2, y2)` is the point `low` with the value supplied.  So `y2` is the minimum of
the values sampled. -/
theorem best_sample (fuel : Nat) (E : Env K) (low high : K) (npts : Int) (log_space : Bool)
    (critlim : K) (m : Bracket K) (s : State K)
    (h : glob_min fuel E low high npts log_space critlim m = Outcome.ret 0 s) :
    (∀ x q y, Event.crit x q y ∈ s.trace → s.y2 ≤ y) ∧ (npts < 0 → s.y2 ≤ m.y2) ∧
    (1 ≤ pointCount npts →
      (∃ q, Event.crit s.x2 q s.y2 ∈ s.trace) ∨ (npts < 0 ∧ s.x2 = low ∧ s.y2 = m.y2)) := by
  have key : BestSoFar (decide (npts < 0)) m.y2 s := by
    rcases glob_min_ret fuel E low high npts log_space critlim m 0 s h with
      ⟨ha, hc⟩ | ⟨s1, hs, he⟩
    · exact absurd hc.symm (scan_aborted_quit E log_space critlim _ _ _ s ha)
    · have h1 := neighbours_bestSoFar log_space _ _ s1
        (scan_bestSoFar E low high npts log_space critlim m s1 hs)
      rcases extend_ret E log_space fuel _ 0 s he with ⟨_, hx⟩ | ⟨_, _, hx⟩ | ⟨_, _, _, hx⟩
      · obtain ⟨s0, ⟨hm, hk⟩, hs0, hret⟩ := ((extendRight_rule E log_space
          (BestSoFar (decide (npts < 0)) m.y2)
          (fun t ht _ hup _ => shiftRight_bestSoFar E log_space _ _ t ht hup) fuel _ h1).1 0 s hx)
        rcases hret with ⟨hne, _⟩ | ⟨_, _, hfin⟩
        · exact absurd rfl hne
        · have hy3 : s.y2 ≤ s.y3 := by
            rcases hfin with hlt | hfl
            · exact le_of_lt hlt
            · exact le_of_eq hfl.2
          have hy2 : s.y2 = s0.y2 := by rw [hs0, probeRight_y2]
          refine ⟨fun x q y hmem => ?_, fun hkk => by rw [hy2]; exact hk hkk⟩
          rw [hs0] at hmem
          rcases probeRight_trace_mem E s0 x q y hmem with hold | ⟨_, hy⟩
          · rw [hy2]; exact hm x q y hold
          · rw [hy, ← hs0]; exact hy3
      · obtain ⟨s0, ⟨hm, hk⟩, hs0, hret⟩ := ((extendLeft_rule E log_space
          (BestSoFar (decide (npts < 0)) m.y2)
          (fun t ht _ hup _ => shiftLeft_bestSoFar E log_space _ _ t ht hup) fuel _ h1).1 0 s hx)
        rcases hret with ⟨hne, _⟩ | ⟨_, _, hfin⟩
        · exact absurd rfl hne
        · have hy1 : s.y2 ≤ s.y1 := by
            rcases hfin with hlt | hfl
            · exact le_of_lt hlt
            · exact le_of_eq hfl.1.symm
          have hy2 : s.y2 = s0.y2 := by rw [hs0, probeLeft_y2]
          refine ⟨fun x q y hmem => ?_, fun hkk => by rw [hy2]; exact hk hkk⟩
          rw [hs0] at hmem
          rcases probeLeft_trace_mem E s0 x q y hmem with hold | ⟨_, hy⟩
          · rw [hy2]; exact hm x q y hold
          · rw [hy, ← hs0]; exact hy1
      · rw [hx]; exact h1
  refine ⟨key.1, fun hn => key.2 (by simpa using hn), fun hn => ?_⟩
  have att : Attained (decide (npts < 0)) low m.y2 s := by
    rcases glob_min_ret fuel E low high npts log_space critlim m 0 s h with
      ⟨ha, hc⟩ | ⟨s1, hs, he⟩
    · exact absurd hc.symm (scan_aborted_quit E log_space critlim _ _ _ s ha)
    · have h1 : Attained (decide (npts < 0)) low m.y2 (neighbours log_space s1) := by
        have := scan_attained E low high npts log_space critlim m hn s1 hs
        rw [neighbours_eq]; exact this
      rcases extend_ret E log_space fuel _ 0 s he with ⟨_, hx⟩ | ⟨_, _, hx⟩ | ⟨_, _, _, hx⟩
      · obtain ⟨s0, hI, hs0, _⟩ := ((extendRight_rule E log_space
          (Attained (decide (npts < 0)) low m.y2)
          (fun t _ hq _ _ => by
            rw [shiftRight_eq]
            left
            have a3 : (probeRight E t).x3 = t.x3 := by rw [probeRight_eq]
            show ∃ q, Event.crit (probeRight E t).x3 q (probeRight E t).y3
              ∈ (probeRight E t).trace
            rw [a3]
            exact ⟨0, probeRight_trace_new E t hq⟩) fuel _ h1).1 0 s hx)
        have a2 : (probeRight E s0).x2 = s0.x2 := by rw [probeRight_eq]
        have b2 : (probeRight E s0).y2 = s0.y2 := by rw [probeRight_eq]
        unfold Attained
        rw [hs0, a2, b2]
        rcases hI with ⟨q, hq⟩ | hk
        · exact Or.inl ⟨q, probeRight_trace_old E s0 _ hq⟩
        · exact Or.inr hk
      · obtain ⟨s0, hI, hs0, _⟩ := ((extendLeft_rule E log_space
          (Attained (decide (npts < 0)) low m.y2)
          (fun t _ hq _ _ => by
            rw [shiftLeft_eq]
            left
            have a3 : (probeLeft E t).x1 = t.x1 := by rw [probeLeft_eq]
            show ∃ q, Event.crit (probeLeft E t).x1 q (probeLeft E t).y1
              ∈ (probeLeft E t).trace
            rw [a3]
            exact ⟨0, probeLeft_trace_new E t hq⟩) fuel _ h1).1 0 s hx)
        have a2 : (probeLeft E s0).x2 = s0.x2 := by rw [probeLeft_eq]
        have b2 : (probeLeft E s0).y2 = s0.y2 := by rw [probeLeft_eq]
        unfold Attained
        rw [hs0, a2, b2]
        rcases hI with ⟨q, hq⟩ | hk
        · exact Or.inl ⟨q, probeLeft_trace_old E s0 _ hq⟩
        · exact Or.inr hk
      · rw [hx]; exact h1
  rcases att with hq | ⟨hk, hx, hy⟩
  · exact Or.inl hq
  · exact Or.inr ⟨by simpa using hk, hx, hy⟩

/-- The run of `quadEnv` with `npts = -2` and `*y2 = 5` returns 0 with `y2 = 1`,
below its three samples and the value supplied, and the value of the criterion at
`x2 = 2`. -/
theorem best_sample_witness :
    glob_min 2 quadEnv 0 1 (-2) false (-1) ⟨0, 0, 0, 5, 0, 0⟩ = Outcome.ret 0 suppliedState ∧
    ((∀ x q y, Event.crit x q y ∈ suppliedState.trace → suppliedState.y2 ≤ y) ∧
      ((-2 : Int) < 0 → suppliedState.y2 ≤ 5) ∧
      (1 ≤ pointCount (-2) →
        (∃ q, Event.crit suppliedState.x2 q suppliedState.y2 ∈ suppliedState.trace) ∨
          ((-2 : Int) < 0 ∧ suppliedState.x2 = 0 ∧ suppliedState.y2 = 5))) := by
  have h : glob_min 2 quadEnv 0 1 (-2) false (-1) ⟨0, 0, 0, 5, 0, 0⟩
      = Outcome.ret 0 suppliedState := by
    norm_num [glob_min, scan, scanBody, evalPoint, track, pollQuit, advance, initState,
      stepRate, pointCount, neighbours, extend, extendRight, probeRight, shiftRight, quadEnv,
      suppliedState]
  exact ⟨h, best_sample 2 quadEnv 0 1 (-2) false (-1) ⟨0, 0, 0, 5, 0, 0⟩ suppliedState h⟩

/-! ## Requests to stop -/

theorem cancels_crit (x : K) (q : Int) (y : K) : (Event.crit x q y).Cancels ↔ q ≠ 0 := Iff.rfl

theorem cancels_poll (q : Int) : (Event.poll q : Event K).Cancels ↔ q ≠ 0 := Iff.rfl

theorem quitInv_of_quiet (s : State K) (hq : s.user_quit = 0) (hn : NoCancel s.trace) :
    QuitInv s := by
  refine ⟨⟨fun h => absurd hq h, fun ⟨ev, hm, hc⟩ => absurd hc (hn ev hm)⟩, ?_⟩
  intro ev hm
  exact hn ev (List.mem_of_mem_tail hm)

theorem noCancel_of_quitInv (s : State K) (h : QuitInv s) (hq : s.user_quit = 0) :
    NoCancel s.trace := by
  intro ev hm hc
  exact (not_not.mpr hq) (h.1.mpr ⟨ev, hm, hc⟩)

theorem scanBody_quitInv (E : Env K) (know : Bool) (s : State K)
    (hq : s.user_quit = 0) (hn : NoCancel s.trace) : QuitInv (scanBody E know s) := by
  unfold QuitInv NoCancel at *
  simp only [scanBody, evalPoint, pollQuit, track]
  split_ifs <;> simp_all [cancels_crit, cancels_poll]

theorem probeRight_quitInv (E : Env K) (s : State K) (hn : NoCancel s.trace) :
    QuitInv (probeRight E s) := by
  unfold QuitInv NoCancel at *
  simp only [probeRight]
  split_ifs <;> simp_all [cancels_crit, cancels_poll]

theorem probeLeft_quitInv (E : Env K) (s : State K) (hn : NoCancel s.trace) :
    QuitInv (probeLeft E s) := by
  unfold QuitInv NoCancel at *
  simp only [probeLeft]
  split_ifs <;> simp_all [cancels_crit, cancels_poll]

theorem track_turned_up (s : State K) (y : K) (hi : 0 ≤ s.i)
    (h : s.turned_up = true → 0 ≤ s.ibest) :
    (track s y).turned_up = true → 0 ≤ (track s y).ibest := by
  unfold track
  split_ifs with h1 h2
  · intro hf; simp at hf
  · intro _
    push_neg at h1
    show 0 ≤ s.ibest
    have := h1.1
    omega
  · exact h

theorem scanBody_bodyQuit (E : Env K) (know : Bool) (s : State K) (h : HeadQuit s) :
    BodyQuit (scanBody E know s) := by
  obtain ⟨hq, hn, hi, ht⟩ := h
  refine ⟨scanBody_quitInv E know s hq hn, scanBody_i_nonneg E know s hi, ?_⟩
  rw [scanBody_track]
  exact track_turned_up s _ hi ht

theorem advance_headQuit (log_space : Bool) (s : State K) (h : BodyQuit s)
    (hq : s.user_quit = 0) : HeadQuit (advance log_space s) := by
  obtain ⟨hqi, hi, ht⟩ := h
  have e : advance log_space s = { s with x := (advance log_space s).x, i := s.i + 1 } := by
    unfold advance; split_ifs <;> rfl
  rw [e]
  exact ⟨hq, noCancel_of_quitInv s hqi hq, by show 0 ≤ s.i + 1; omega, ht⟩

theorem initState_headQuit (E : Env K) (low high : K) (npts : Int) (log_space : Bool)
    (m : Bracket K) : HeadQuit (initState E low high npts log_space m) :=
  ⟨rfl, fun ev hm => by simp [initState] at hm, le_refl _, fun h => by simp [initState] at h⟩

/-- How requests to stop show in the state `glob_min` returns in: `user_quit` and
the newest call tell whether one was made, and the value returned is nonzero
exactly when the bracket was not closed at that moment. -/
theorem run_quit (fuel : Nat) (E : Env K) (low high : K) (npts : Int) (log_space : Bool)
    (critlim : K) (m : Bracket K) (c : Int) (s : State K)
    (h : glob_min fuel E low high npts log_space critlim m = Outcome.ret c s) :
    QuitInv s ∧ (c ≠ 0 → c = s.user_quit) ∧
      ((∃ ev ∈ s.trace, ev.Cancels) → (c ≠ 0 ↔ ¬ (0 < s.ibest ∧ s.turned_up = true))) := by
  have hrule := scan_rule E log_space critlim (decide (npts < 0)) HeadQuit BodyQuit
    (fun s hs => scanBody_bodyQuit E _ s hs)
    (fun s hs hq _ => advance_headQuit log_space s hs hq)
    (pointCount npts).toNat (initState E low high npts log_space m)
    (initState_headQuit E low high npts log_space m)
  rcases glob_min_ret fuel E low high npts log_space critlim m c s h with ⟨ha, hc⟩ | ⟨s1, hs, he⟩
  · obtain ⟨⟨hqi, _, _⟩, hq, hncl⟩ := hrule.2 s ha
    have hc0 : c ≠ 0 := by rw [hc]; exact hq
    refine ⟨hqi, fun _ => hc, fun _ => ⟨fun _ hcl => ?_, fun _ => hc0⟩⟩
    exact hncl ⟨Or.inl hq, hcl.1, hcl.2⟩
  · have hs1 : (HeadQuit s1) ∨ (BodyQuit s1 ∧ closedExit critlim s1) := by
      rcases hrule.1 s1 hs with ⟨hh, _⟩ | hb
      · exact Or.inl hh
      · exact Or.inr hb
    have htr : (neighbours log_space s1).trace = s1.trace := by rw [neighbours_eq]
    have htu : (neighbours log_space s1).turned_up = s1.turned_up := by rw [neighbours_eq]
    have hib : (neighbours log_space s1).ibest = s1.ibest := by rw [neighbours_eq]
    have huq : (neighbours log_space s1).user_quit = s1.user_quit := by rw [neighbours_eq]
    rcases extend_ret E log_space fuel _ c s he with ⟨ht, hx⟩ | ⟨ht, hb, hx⟩ | ⟨ht, hb, hc, hx⟩
    · -- right extension: the scan ran to its end
      have hI : NoCancel (neighbours log_space s1).trace ∧
          (neighbours log_space s1).turned_up = false := by
        refine ⟨?_, ht⟩
        rw [htr]
        rcases hs1 with hh | ⟨_, hcl⟩
        · exact hh.2.1
        · rw [htu, hcl.2.2] at ht; simp at ht
      obtain ⟨s0, ⟨hn0, ht0⟩, hs0, hret⟩ := (extendRight_rule E log_space
        (fun t => NoCancel t.trace ∧ t.turned_up = false)
        (fun t ht hq _ _ => by
          rw [shiftRight_eq]
          refine ⟨noCancel_of_quitInv _ (probeRight_quitInv E t ht.1) hq, ?_⟩
          show (probeRight E t).turned_up = false
          rw [probeRight_eq]; exact ht.2) fuel _ hI).1 c s hx
      have hqi : QuitInv s := by rw [hs0]; exact probeRight_quitInv E s0 hn0
      have htf : s.turned_up = false := by rw [hs0, probeRight_eq]; exact ht0
      refine ⟨hqi, fun hc0 => ?_, fun hev => ⟨fun _ hcl => ?_, fun _ => ?_⟩⟩
      · rcases hret with ⟨_, hcu⟩ | ⟨hc, _, _⟩
        · exact hcu
        · exact absurd hc hc0
      · rw [htf] at hcl; simp at hcl
      · rcases hret with ⟨hc0, _⟩ | ⟨_, hu, _⟩
        · exact hc0
        · exact absurd hu (hqi.1.mpr hev)
    · -- left extension: the scan ran to its end
      have hI : NoCancel (neighbours log_space s1).trace ∧
          (neighbours log_space s1).ibest = 0 := by
        refine ⟨?_, hb⟩
        rw [htr]
        rcases hs1 with hh | ⟨_, hcl⟩
        · exact hh.2.1
        · rw [hib] at hb
          have := hcl.2.1
          omega
      obtain ⟨s0, ⟨hn0, hb0⟩, hs0, hret⟩ := (extendLeft_rule E log_space
        (fun t => NoCancel t.trace ∧ t.ibest = 0)
        (fun t ht hq _ _ => by
          rw [shiftLeft_eq]
          refine ⟨noCancel_of_quitInv _ (probeLeft_quitInv E t ht.1) hq, ?_⟩
          show (probeLeft E t).ibest = 0
          rw [probeLeft_eq]; exact ht.2) fuel _ hI).1 c s hx
      have hqi : QuitInv s := by rw [hs0]; exact probeLeft_quitInv E s0 hn0
      have hbf : s.ibest = 0 := by rw [hs0, probeLeft_eq]; exact hb0
      refine ⟨hqi, fun hc0 => ?_, fun hev => ⟨fun _ hcl => ?_, fun _ => ?_⟩⟩
      · rcases hret with ⟨_, hcu⟩ | ⟨hc, _, _⟩
        · exact hcu
        · exact absurd hc hc0
      · rw [hbf] at hcl; exact absurd hcl.1 (lt_irrefl _)
      · rcases hret with ⟨hc0, _⟩ | ⟨_, hu, _⟩
        · exact hc0
        · exact absurd hu (hqi.1.mpr hev)
    · -- no extension
      subst hx
      have hqi : QuitInv (neighbours log_space s1) := by
        unfold QuitInv
        rw [htr, huq]
        rcases hs1 with hh | ⟨hbq, _⟩
        · exact quitInv_of_quiet s1 hh.1 hh.2.1
        · exact hbq.1
      have hnn : 0 ≤ s1.ibest := by
        rw [htu] at ht
        rcases hs1 with hh | ⟨hbq, _⟩
        · exact hh.2.2.2 ht
        · exact hbq.2.2 ht
      refine ⟨hqi, fun hc0 => absurd hc hc0, fun _ => ⟨fun hc0 => absurd hc hc0, fun hncl => ?_⟩⟩
      exfalso
      apply hncl
      rw [hib] at hb ⊢
      exact ⟨lt_of_le_of_ne hnn (Ne.symm hb), ht⟩

/-! ## C3 -/

/-- C4. Cancellation before the bracket is closed.  (1) In every run that returns,
if the criterion or the poll asked to stop while the best point was the first
sample or its right neighbour had not been captured, `glob_min` returns the nonzero
value of that request, and the request is the newest call of the trace: no
criterion evaluation follows it.  (2) For every `npts ≥ 2` and every criterion
that does not itself ask to stop at the first two grid points, a poll that returns
0 at the first grid point and `q ≠ 0` at the second makes `glob_min` return `q`
after exactly two criterion evaluations. -/
theorem cancel_before_closed (fuel : Nat) (E : Env K) (low high : K) (npts : Int)
    (log_space : Bool) (critlim : K) (m : Bracket K) :
    (∀ c s, glob_min fuel E low high npts log_space critlim m = Outcome.ret c s →
      (∃ ev ∈ s.trace, ev.Cancels) → (s.ibest = 0 ∨ s.turned_up = false) →
        c ≠ 0 ∧ c = s.user_quit ∧ (∃ ev, s.trace.head? = some ev ∧ ev.Cancels) ∧
          NoCancel s.trace.tail) ∧
    (∀ (y0 y1 : K) (q : Int), 2 ≤ npts →
      E.criter [] low = (0, y0) →
      E.user_pressed_escape [Event.crit low 0 y0] = 0 →
      E.criter [Event.poll 0, Event.crit low 0 y0]
        (gridX low (stepRate E low high npts log_space) log_space 1) = (0, y1) →
      E.user_pressed_escape
        [Event.crit (gridX low (stepRate E low high npts log_space) log_space 1) 0 y1,
          Event.poll 0, Event.crit low 0 y0] = q →
      q ≠ 0 →
      ∃ s, glob_min fuel E low high npts log_space critlim m = Outcome.ret q s ∧
        s.trace = [Event.poll q,
          Event.crit (gridX low (stepRate E low high npts log_space) log_space 1) 0 y1,
          Event.poll 0, Event.crit low 0 y0] ∧
        critCount s.trace = 2) := by
  constructor
  · intro c s h hev hopen
    obtain ⟨hqi, hcu, hiff⟩ := run_quit fuel E low high npts log_space critlim m c s h
    have hc : c ≠ 0 := by
      apply (hiff hev).mpr
      rintro ⟨hp, ht⟩
      rcases hopen with h0 | hf
      · omega
      · rw [hf] at ht; simp at ht
    refine ⟨hc, hcu hc, ?_, hqi.2⟩
    obtain ⟨ev, hm, hcan⟩ := hev
    cases htr : s.trace with
    | nil => rw [htr] at hm; simp at hm
    | cons e t =>
      refine ⟨e, rfl, ?_⟩
      rw [htr] at hm
      rcases List.mem_cons.mp hm with he | ht
      · rw [← he]; exact hcan
      · have := hqi.2
        rw [htr] at this
        exact absurd hcan (this ev ht)
  · intro y0 y1 q hn ha hp0 hb hp1 hq
    have hpc : pointCount npts = npts := by unfold pointCount; rw [if_neg (by omega)]
    obtain ⟨n, hnn⟩ : ∃ n, npts.toNat = n + 2 := ⟨npts.toNat - 2, by omega⟩
    have hd : decide (npts < 0) = false := by simp; omega
    unfold glob_min
    rw [hpc, hnn, hd]
    cases log_space <;>
    simp [scan, scanBody, evalPoint, track, pollQuit, advance, initState, gridX, critCount,
      ha, hp0] at hb hp1 ⊢ <;>
    simp [hb, hp1, hq, critCount] <;> split_ifs <;> simp_all [critCount]

/-- The run of `pollAfter 2`: ESCape at the second grid step, where the best point
has no right neighbour yet; both parts of `cancel_before_closed` apply. -/
theorem cancel_before_closed_witness :
    (glob_min 0 (pollAfter 2) 0 2 3 false (-1) ⟨0, 0, 0, 0, 0, 0⟩ = Outcome.ret 1 openState ∧
      (∃ ev ∈ openState.trace, ev.Cancels) ∧
      (openState.ibest = 0 ∨ openState.turned_up = false) ∧
      ((1 : Int) ≠ 0 ∧ 1 = openState.user_quit ∧
        (∃ ev, openState.trace.head? = some ev ∧ ev.Cancels) ∧
        NoCancel openState.trace.tail)) ∧
    (∃ s, glob_min 0 (pollAfter 2) 0 2 3 false (-1) ⟨0, 0, 0, 0, 0, 0⟩ = Outcome.ret 1 s ∧
      s.trace = [Event.poll 1,
        Event.crit (gridX 0 (stepRate (pollAfter 2) 0 2 3 false) false 1) 0 0,
        Event.poll 0, Event.crit 0 0 1] ∧
      critCount s.trace = 2) := by
  have h1 : glob_min 0 (pollAfter 2) 0 2 3 false (-1) ⟨0, 0, 0, 0, 0, 0⟩
      = Outcome.ret 1 openState := by
    norm_num [glob_min, scan, scanBody, evalPoint, track, pollQuit, advance, initState,
      stepRate, pointCount, neighbours, extend, pollAfter, openState]
  have e1 : ∃ ev ∈ openState.trace, ev.Cancels :=
    ⟨Event.poll 1, by simp [openState], by simp [cancels_poll]⟩
  have o1 : openState.ibest = 0 ∨ openState.turned_up = false := Or.inr rfl
  exact ⟨⟨h1, e1, o1, (cancel_before_closed 0 (pollAfter 2) 0 2 3 false (-1)
      ⟨0, 0, 0, 0, 0, 0⟩).1 1 openState h1 e1 o1⟩,
    (cancel_before_closed 0 (pollAfter 2) 0 2 3 false (-1) ⟨0, 0, 0, 0, 0, 0⟩).2 1 0 1
      (by decide) (by norm_num [pollAfter]) (by norm_num [pollAfter])
      (by norm_num [pollAfter, gridX, stepRate, pointCount])
      (by norm_num [pollAfter]) (by decide)⟩

/-! ## The abscissas of the grid -/

theorem scanBody_ibest (E : Env K) (know : Bool) (s : State K) :
    (scanBody E know s).ibest = (track s (sampleY E know s)).ibest := by
  rw [scanBody_track]

theorem scanBody_gridBody (E : Env K) (know : Bool) (low : K) (log_space : Bool) (s : State K)
    (h : GridHead low log_space s) : GridBody low log_space (scanBody E know s) := by
  obtain ⟨hg, hi, h0, hpos⟩ := h
  have hlx : low ≤ s.x := by
    by_cases hz : s.i = 0
    · exact le_of_eq (h0 hz).1.symm
    · exact le_of_lt (hpos (lt_of_le_of_ne hi (Ne.symm hz))).1
  refine ⟨by rw [scanBody_rate]; exact hg, by rw [scanBody_i]; exact hi,
    by rw [scanBody_x]; exact hlx, ?_, ?_, ?_, ?_, ?_⟩
  · rw [scanBody_i, scanBody_x]; exact fun hp => (hpos hp).1
  · rw [scanBody_x2]; unfold track
    split_ifs with h1 h2
    · exact hlx
    · push_neg at h1
      exact (hpos (lt_of_le_of_ne hi (Ne.symm h1.1))).2.1
    · push_neg at h1
      exact (hpos (lt_of_le_of_ne hi (Ne.symm h1.1))).2.1
  · rw [scanBody_x2, scanBody_x]; unfold track
    split_ifs with h1 h2
    · exact le_refl _
    · push_neg at h1
      exact le_of_lt (hpos (lt_of_le_of_ne hi (Ne.symm h1.1))).2.2.1
    · push_neg at h1
      exact le_of_lt (hpos (lt_of_le_of_ne hi (Ne.symm h1.1))).2.2.1
  · rw [scanBody_x2, scanBody_ibest]; unfold track
    split_ifs with h1 h2
    · intro hb
      have hz : s.i = 0 := hb
      exact (h0 hz).1
    · push_neg at h1
      exact (hpos (lt_of_le_of_ne hi (Ne.symm h1.1))).2.2.2.1
    · push_neg at h1
      exact (hpos (lt_of_le_of_ne hi (Ne.symm h1.1))).2.2.2.1
  · intro x q y hm
    rw [scanBody_x]
    rcases scanBody_trace_mem E know s x q y hm with hold | ⟨_, hx, _⟩
    · by_cases hz : s.i = 0
      · rw [(h0 hz).2] at hold; simp at hold
      · have := (hpos (lt_of_le_of_ne hi (Ne.symm hz))).2.2.2.2 x q y hold
        exact ⟨this.1, le_of_lt this.2⟩
    · rw [hx]; exact ⟨hlx, le_refl _⟩

theorem advance_x_gt (low : K) (log_space : Bool) (s : State K) (hlow : log_space = true → 0 < low)
    (hg : GoodStep log_space s.rate) (hx : low ≤ s.x) : s.x < (advance log_space s).x := by
  unfold advance
  cases log_space with
  | true =>
    simp only [if_true]
    have h1 : (1 : K) < s.rate := hg.1 rfl
    have hp : 0 < s.x := lt_of_lt_of_le (hlow rfl) hx
    exact lt_mul_of_one_lt_right hp h1
  | false =>
    simp only [Bool.false_eq_true, if_false]
    have h0 : (0 : K) < s.rate := hg.2 rfl
    show s.x < s.x + s.rate
    linarith

theorem advance_gridHead (low : K) (log_space : Bool) (s : State K)
    (hlow : log_space = true → 0 < low) (h : GridBody low log_space s) :
    GridHead low log_space (advance log_space s) := by
  obtain ⟨hg, hi, hlx, _, hl2, h2x, hb, htr⟩ := h
  have hgt := advance_x_gt low log_space s hlow hg hlx
  rw [advance_eq] at hgt ⊢
  refine ⟨hg, by show 0 ≤ s.i + 1; omega, fun h0 => ?_, fun _ => ?_⟩
  · have : s.i + 1 = 0 := h0
    omega
  · exact ⟨lt_of_le_of_lt hlx hgt, hl2, lt_of_le_of_lt h2x hgt, hb,
      fun x q y hm => ⟨(htr x q y hm).1, lt_of_le_of_lt (htr x q y hm).2 hgt⟩⟩

theorem initState_gridHead (E : Env K) (low high : K) (npts : Int) (log_space : Bool)
    (m : Bracket K) (hlh : low < high) (hn : 2 ≤ pointCount npts)
    (hlog : log_space = true → 0 < low ∧ ExpLogOk E) :
    GridHead low log_space (initState E low high npts log_space m) :=
  ⟨stepRate_good E low high npts log_space hlh hn hlog, le_refl _, fun _ => ⟨rfl, rfl⟩,
    fun h0 => absurd h0 (lt_irrefl _)⟩

/-! ## A run with the first value supplied, and the run that evaluates it -/

theorem pointCount_pos (n : Int) (hn : 0 ≤ n) : pointCount n = n := by
  unfold pointCount; rw [if_neg (by omega)]

/-- A property of states kept by every step of an extension holds of the state
the extension ends in. -/
theorem extend_final (E : Env K) (log_space : Bool) (I : State K → Prop)
    (hpr : ∀ s, I s → I (probeRight E s)) (hpl : ∀ s, I s → I (probeLeft E s))
    (hsr : ∀ s, I s → I (shiftRight log_space s)) (hsl : ∀ s, I s → I (shiftLeft log_space s))
    (fuel : Nat) (s : State K) (h : I s) : I (extend E log_space fuel s).final := by
  have hR : ∀ (n : Nat) (t : State K), I t → I (extendRight E log_space n t).final := by
    intro n
    induction n with
    | zero => intro t ht; exact ht
    | succ n ih =>
      intro t ht
      simp only [extendRight]
      split_ifs
      · exact hpr t ht
      · exact hpr t ht
      · exact hpr t ht
      · exact ih _ (hsr _ (hpr t ht))
  have hL : ∀ (n : Nat) (t : State K), I t → I (extendLeft E log_space n t).final := by
    intro n
    induction n with
    | zero => intro t ht; exact ht
    | succ n ih =>
      intro t ht
      simp only [extendLeft]
      split_ifs
      · exact hpl t ht
      · exact hpl t ht
      · exact hpl t ht
      · exact ih _ (hsl _ (hpl t ht))
  unfold extend
  split_ifs
  · exact hR fuel s h
  · exact hL fuel s h
  · exact h

theorem isFirstMin_unique (ys : Nat → K) (i b b' : Nat) (h : IsFirstMin ys i b)
    (h' : IsFirstMin ys i b') : b = b' := by
  obtain ⟨hb, hmin, hfirst⟩ := h
  obtain ⟨hb', hmin', hfirst'⟩ := h'
  rcases lt_trichotomy b b' with hlt | heq | hgt
  · exact absurd (hmin b' hb') (not_le.mpr (hfirst' b hlt))
  · exact heq
  · exact absurd (hmin' b hb) (not_le.mpr (hfirst b' hgt))

theorem track_trackAt (ys : Nat → K) (k : Nat) (s : State K) (y : K)
    (hi : s.i = (k : Int)) (hy : y = ys k) (hprev : 0 < k → TrackAt ys (k - 1) s) :
    TrackAt ys k (track s y) := by
  unfold track
  by_cases h1 : s.i = 0 ∨ y < s.y2
  · rw [if_pos h1]
    refine ⟨k, ⟨le_refl _, ?_, ?_⟩, hi, hy, by simp, fun h => absurd h (lt_irrefl _), ?_, hy⟩
    · intro j hj
      rcases Nat.lt_or_ge j k with hlt | hge
      · have hk : 0 < k := by omega
        obtain ⟨b, ⟨_, hmin, _⟩, _, hy2, _⟩ := hprev hk
        rcases h1 with h0 | hlt'
        · omega
        · rw [← hy]
          exact le_of_lt (lt_of_lt_of_le hlt' (by rw [hy2]; exact hmin j (by omega)))
      · have : j = k := by omega
        rw [this]
    · intro j hj
      have hk : 0 < k := by omega
      obtain ⟨b, ⟨_, hmin, _⟩, _, hy2, _⟩ := hprev hk
      rcases h1 with h0 | hlt'
      · omega
      · rw [← hy]
        exact lt_of_lt_of_le hlt' (by rw [hy2]; exact hmin j (by omega))
    · intro hk
      obtain ⟨b, _, _, _, _, _, _, hpv⟩ := hprev hk
      exact hpv
  · rw [if_neg h1]
    push_neg at h1
    obtain ⟨hne, hge⟩ := h1
    have hk : 0 < k := by omega
    obtain ⟨b, ⟨hbk, hmin, hfirst⟩, hib, hy2, htu, hy3, hy1, _⟩ := hprev hk
    have hfm : IsFirstMin ys k b := by
      refine ⟨by omega, ?_, hfirst⟩
      intro j hj
      rcases Nat.lt_or_ge j k with hlt | hge'
      · exact hmin j (by omega)
      · have : j = k := by omega
        rw [this, ← hy, ← hy2]; exact hge
    by_cases h2 : s.i = s.ibest + 1
    · rw [if_pos h2]
      have hkb : k = b + 1 := by omega
      refine ⟨b, hfm, hib, hy2, ?_, fun _ => ?_, hy1, hy⟩
      · show (true = true ↔ b < k)
        simp only [true_iff]
        omega
      · show y = ys (b + 1)
        rw [hy, hkb]
    · rw [if_neg h2]
      have hlt : b < k - 1 := by omega
      refine ⟨b, hfm, hib, hy2, ?_, fun _ => hy3 hlt, hy1, hy⟩
      show (s.turned_up = true ↔ b < k)
      constructor
      · intro _; omega
      · intro _; exact htu.mpr hlt

theorem track_x2_grid (low r : K) (log_space : Bool) (k : Nat) (s : State K) (y : K)
    (hi : s.i = (k : Int)) (hx : s.x = gridX low r log_space k)
    (hprev : 0 < k → s.x2 = gridX low r log_space s.ibest.toNat) :
    (track s y).x2 = gridX low r log_space (track s y).ibest.toNat := by
  unfold track
  split_ifs with h1 h2
  · show s.x = gridX low r log_space s.i.toNat
    rw [hx, hi]; simp
  · push_neg at h1
    exact hprev (by omega)
  · push_neg at h1
    exact hprev (by omega)

theorem advance_x_grid (low r : K) (log_space : Bool) (k : Nat) (s : State K)
    (hx : s.x = gridX low r log_space k) (hr : s.rate = r) :
    (advance log_space s).x = gridX low r log_space (k + 1) := by
  unfold advance
  cases log_space with
  | true => simp only [if_true, gridX]; rw [hx, hr]
  | false => simp only [Bool.false_eq_true, if_false, gridX]; rw [hx, hr]

theorem critCount_gridTrace (E : Env K) (low r : K) (log_space : Bool) (i : Nat) :
    critCount (gridTrace E low r log_space false i) = i := by
  induction i with
  | zero => rfl
  | succ i ih => simp only [gridTrace, critCount, or_true, if_true]; rw [ih]

/-- When the first value is supplied, the grid steps `0, ..., i` evaluate the
criterion `i` times. -/
theorem critCount_gridTrace_known (E : Env K) (low r : K) (log_space : Bool) (i : Nat) :
    critCount (gridTrace E low r log_space true (i + 1)) = i := by
  induction i with
  | zero => simp [gridTrace, critCount]
  | succ i ih =>
    have e : gridTrace E low r log_space true (i + 1 + 1) =
        Event.poll (E.user_pressed_escape
            (Event.crit (gridX low r log_space (i + 1))
              (E.criter (gridTrace E low r log_space true (i + 1))
                (gridX low r log_space (i + 1))).1
              (E.criter (gridTrace E low r log_space true (i + 1))
                (gridX low r log_space (i + 1))).2 ::
              gridTrace E low r log_space true (i + 1))) ::
          Event.crit (gridX low r log_space (i + 1))
            (E.criter (gridTrace E low r log_space true (i + 1))
              (gridX low r log_space (i + 1))).1
            (E.criter (gridTrace E low r log_space true (i + 1))
              (gridX low r log_space (i + 1))).2 ::
          gridTrace E low r log_space true (i + 1) := by
      rw [gridTrace]
      simp
    rw [e]
    simp only [critCount]
    rw [ih]

/-- A scan iteration in which nothing asks to stop extends the trace as
`gridTrace` does. -/
theorem scanBody_gridTrace (E : Env K) (low r : K) (log_space know : Bool) (y0 : K) (k : Nat)
    (s : State K) (hq : Quiet E) (hi : s.i = (k : Int)) (huq : s.user_quit = 0)
    (ht : s.trace = gridTrace E low r log_space know k)
    (hx : s.x = gridX low r log_space k) (h0 : k = 0 → s.y2 = y0) :
    (scanBody E know s).trace = gridTrace E low r log_space know (k + 1) ∧
      (scanBody E know s).user_quit = 0 ∧
      sampleY E know s = gridY E low r log_space know y0 k := by
  obtain ⟨hc, hp⟩ := hq
  by_cases hev : k ≠ 0 ∨ know = false
  · have hev1 : s.i ≠ 0 ∨ know = false := by
      rcases hev with h | h
      · left; rw [hi]; exact_mod_cast h
      · right; exact h
    simp only [scanBody, sampleY, evalPoint, pollQuit, track, gridTrace, gridY]
    rw [if_pos hev1, if_pos hev, if_pos hev, ht, hx]
    split_ifs <;> simp_all
  · have hev1 : ¬ (s.i ≠ 0 ∨ know = false) := by
      push_neg at hev ⊢
      exact ⟨by rw [hi, hev.1]; rfl, hev.2⟩
    have hk0 : k = 0 := by
      push_neg at hev
      exact hev.1
    simp only [scanBody, sampleY, evalPoint, pollQuit, track, gridTrace, gridY]
    rw [if_neg hev1, if_neg hev, if_neg hev, ht]
    split_ifs <;> simp_all

theorem scanBody_quietBody (E : Env K) (low r : K) (log_space know : Bool) (y0 critlim : K)
    (hq : Quiet E) (s : State K) (h : QuietHead E low r log_space know y0 critlim s) :
    QuietBody E low r log_space know y0 critlim (scanBody E know s) := by
  obtain ⟨k, hi, huq0, ht, hx, hr, hno, h0, hprev⟩ := h
  obtain ⟨htr, huq, hy⟩ := scanBody_gridTrace E low r log_space know y0 k s hq hi huq0 ht hx h0
  refine ⟨k, by rw [scanBody_i]; exact hi, huq, htr, by rw [scanBody_x]; exact hx,
    by rw [scanBody_rate]; exact hr, hno, ?_, ?_⟩
  · have := track_trackAt (gridY E low r log_space know y0) k s (sampleY E know s) hi hy
      (fun hk => (hprev hk).1)
    rw [scanBody_track]; exact this
  · have := track_x2_grid low r log_space k s (sampleY E know s) hi hx
      (fun hk => (hprev hk).2)
    rw [scanBody_track]; exact this

theorem advance_quietHead (E : Env K) (low r : K) (log_space know : Bool) (y0 critlim : K)
    (s : State K) (h : QuietBody E low r log_space know y0 critlim s)
    (hncl : ¬ closedExit critlim s) :
    QuietHead E low r log_space know y0 critlim (advance log_space s) := by
  obtain ⟨k, hi, huq, ht, hx, hr, hno, htk, hx2⟩ := h
  have hxa := advance_x_grid low r log_space k s hx hr
  rw [advance_eq] at hxa ⊢
  refine ⟨k + 1, by show s.i + 1 = ((k + 1 : Nat) : Int); rw [hi]; push_cast; ring,
    huq, ht, hxa, hr, ?_, fun h0 => absurd h0 (Nat.succ_ne_zero k),
    fun _ => ⟨by simpa using htk, hx2⟩⟩
  intro j hj hstop
  rcases Nat.lt_or_ge j k with hlt | hge
  · exact hno j hlt hstop
  · have hjk : j = k := by omega
    rw [hjk] at hstop
    obtain ⟨b', hfm', hb0, hbk, hyc⟩ := hstop
    obtain ⟨b, hfm, hib, hy2, htu, _⟩ := htk
    have hbb : b' = b := isFirstMin_unique _ k b' b hfm' hfm
    rw [hbb] at hb0 hbk hyc
    apply hncl
    refine ⟨Or.inr (by rw [hy2]; exact hyc), ?_, htu.mpr hbk⟩
    rw [hib]
    exact_mod_cast hb0

/-! ## C6 -/

/-- C6, amended.  Let neither the criterion nor the poll ever ask to stop, and let
`y_i` be the value of the grid point of index `i`: what the criterion returns
there, or the value supplied in `*y2` for `i = 0` when `npts < 0`.  If
`istar < |npts|` is the smallest index at which the first-minimum index `b` of
`y_0, ..., y_istar` satisfies `0 < b < istar` and `y_b ≤ critlim`, then `glob_min`
returns 0, the calls made are exactly those of the grid steps `0, ..., istar` (no
extension step is made), the criterion is evaluated `istar + 1` times when
`npts > 0` and `istar` times when `npts < 0`, and `(x2, y2)` is the grid point of
index `b` with its value. -/
theorem quality_exit (fuel : Nat) (E : Env K) (low high : K) (npts : Int) (log_space : Bool)
    (critlim : K) (m : Bracket K) (istar b : Nat)
    (hq : Quiet E) (hi : (istar : Int) < pointCount npts)
    (hb : IsFirstMin (gridY E low (stepRate E low high npts log_space) log_space
      (decide (npts < 0)) m.y2) istar b)
    (hb0 : 0 < b) (hbi : b < istar)
    (hy : gridY E low (stepRate E low high npts log_space) log_space
      (decide (npts < 0)) m.y2 b ≤ critlim)
    (hmin : ∀ i, i < istar →
      ¬ StopsAt (gridY E low (stepRate E low high npts log_space) log_space
        (decide (npts < 0)) m.y2) critlim i) :
    ∃ s, glob_min fuel E low high npts log_space critlim m = Outcome.ret 0 s ∧
      s.trace = gridTrace E low (stepRate E low high npts log_space) log_space
        (decide (npts < 0)) (istar + 1) ∧
      (0 ≤ npts → critCount s.trace = istar + 1) ∧
      (npts < 0 → critCount s.trace = istar) ∧ s.i = (istar : Int) ∧
      s.x2 = gridX low (stepRate E low high npts log_space) log_space b ∧
      s.y2 = gridY E low (stepRate E low high npts log_space) log_space
        (decide (npts < 0)) m.y2 b := by
  have hstop : StopsAt (gridY E low (stepRate E low high npts log_space) log_space
      (decide (npts < 0)) m.y2) critlim istar := ⟨b, hb, hb0, hbi, hy⟩
  have hrule := scan_rule E log_space critlim (decide (npts < 0))
    (QuietHead E low (stepRate E low high npts log_space) log_space (decide (npts < 0)) m.y2
      critlim)
    (QuietBody E low (stepRate E low high npts log_space) log_space (decide (npts < 0)) m.y2
      critlim)
    (fun s hs => scanBody_quietBody E low _ log_space _ _ critlim hq s hs)
    (fun s hs _ hncl => advance_quietHead E low _ log_space _ _ critlim s hs hncl)
    (pointCount npts).toNat (initState E low high npts log_space m)
    ⟨0, rfl, rfl, rfl, rfl, rfl, fun j hj => absurd hj (Nat.not_lt_zero j), fun _ => rfl,
      fun h0 => absurd h0 (lt_irrefl _)⟩
  unfold glob_min
  cases hsc : scan E log_space critlim (decide (npts < 0)) (pointCount npts).toNat
      (initState E low high npts log_space m) with
  | aborted s =>
    obtain ⟨⟨k, _, huq, _⟩, hne, _⟩ := hrule.2 s hsc
    exact absurd huq hne
  | finished s1 =>
    rcases hrule.1 s1 hsc with ⟨⟨k, hk, _, _, _, _, hno, _⟩, hend⟩ |
      ⟨⟨k, hk, huq, htr, _, _, hno, ⟨b', hfm', hib, hy2, htu, _⟩, hx2⟩, hcl⟩
    · exfalso
      have hkn : (k : Int) = pointCount npts := by
        rw [← hk, hend]
        show (0 : Int) + ((pointCount npts).toNat : Int) = pointCount npts
        omega
      exact hno istar (by omega) hstop
    · obtain ⟨hcrit, hpos, hup⟩ := hcl
      have hyc : s1.y2 ≤ critlim := by
        rcases hcrit with hne | hle
        · exact absurd huq hne
        · exact hle
      have hb'0 : 0 < b' := by
        rw [hib] at hpos
        exact_mod_cast hpos
      have hstopk : StopsAt (gridY E low (stepRate E low high npts log_space) log_space
          (decide (npts < 0)) m.y2) critlim k :=
        ⟨b', hfm', hb'0, htu.mp hup, by rw [← hy2]; exact hyc⟩
      have hkeq : k = istar := by
        rcases lt_trichotomy k istar with hlt | heq | hgt
        · exact absurd hstopk (hmin k hlt)
        · exact heq
        · exact absurd hstop (hno istar hgt)
      subst hkeq
      have hbb : b' = b := isFirstMin_unique _ k b' b hfm' hb
      subst hbb
      have hne0 : s1.ibest ≠ 0 := by omega
      refine ⟨neighbours log_space s1, ?_, ?_, ?_, ?_, ?_, ?_, ?_⟩
      · have f1 : (neighbours log_space s1).turned_up = true := by rw [neighbours_eq]; exact hup
        have f2 : (neighbours log_space s1).ibest ≠ 0 := by rw [neighbours_eq]; exact hne0
        simp only [extend]
        rw [if_neg (by rw [f1]; simp), if_neg f2]
      · rw [neighbours_eq]; exact htr
      · intro hpos0
        have hd : decide (npts < 0) = false := by simp; omega
        rw [neighbours_eq]
        show critCount s1.trace = k + 1
        rw [htr, hd, critCount_gridTrace]
      · intro hneg
        have hd : decide (npts < 0) = true := by simp; omega
        rw [neighbours_eq]
        show critCount s1.trace = k
        rw [htr, hd, critCount_gridTrace_known]
      · rw [neighbours_eq]; exact hk
      · rw [neighbours_eq]
        show s1.x2 = _
        rw [hx2, hib]; simp
      · rw [neighbours_eq]; exact hy2

theorem gridX_linear (low r : K) (i : Nat) : gridX low r false i = low + (i : K) * r := by
  induction i with
  | zero => simp [gridX]
  | succ i ih =>
    simp only [gridX, Bool.false_eq_true, if_false]
    rw [ih]; push_cast; ring

theorem demoEnv_quiet : Quiet demoEnv := ⟨fun _ _ => rfl, fun _ => rfl⟩

theorem demoEnv_gridY (know : Bool) (j : Nat) :
    gridY demoEnv 0 1 false know 4 j = ((j : ℚ) - 2) * ((j : ℚ) - 2) := by
  unfold gridY
  split_ifs with h
  · simp only [demoEnv, gridX_linear]
    ring
  · push_neg at h
    rw [h.1]
    norm_num

/-- The criterion `(x - 2)^2` on `[0, 5]` with six points and `critlim = 0`: the
values are 4, 1, 0, 1, 4, 9, and the scan stops at the index 3 with the best point
at the index 2, after four evaluations. -/
theorem quality_exit_witness :
    ∃ s, glob_min 0 demoEnv 0 5 6 false 0 ⟨0, 0, 0, 4, 0, 0⟩ = Outcome.ret 0 s ∧
      s.trace = gridTrace demoEnv 0 (stepRate demoEnv 0 5 6 false) false
        (decide ((6 : Int) < 0)) (3 + 1) ∧
      ((0 : Int) ≤ 6 → critCount s.trace = 3 + 1) ∧
      ((6 : Int) < 0 → critCount s.trace = 3) ∧ s.i = ((3 : Nat) : Int) ∧
      s.x2 = gridX 0 (stepRate demoEnv 0 5 6 false) false 2 ∧
      s.y2 = gridY demoEnv 0 (stepRate demoEnv 0 5 6 false) false
        (decide ((6 : Int) < 0)) 4 2 := by
  have hr : stepRate demoEnv 0 5 6 false = 1 := by norm_num [stepRate, pointCount]
  refine quality_exit 0 demoEnv 0 5 6 false 0 ⟨0, 0, 0, 4, 0, 0⟩ 3 2 demoEnv_quiet
    (by decide) ⟨by decide, ?_, ?_⟩ (by decide) (by decide) ?_ ?_
  · intro j hj
    rw [hr, demoEnv_gridY, demoEnv_gridY]
    interval_cases j <;> norm_num
  · intro j hj
    rw [hr, demoEnv_gridY, demoEnv_gridY]
    interval_cases j <;> norm_num
  · rw [hr, demoEnv_gridY]; norm_num
  · rw [hr]
    rintro i hi ⟨b, ⟨_, hmin, _⟩, hb0, hbi, hyb⟩
    have hb1 : b = 1 := by omega
    subst hb1
    rw [demoEnv_gridY] at hyb
    norm_num at hyb

/-- C6, as stated, fails when the first value is supplied.  The criterion
`(x - 2)^2` on `[0, 5]` with `npts = -6`, `*y2 = 4` and `critlim = 0`: the values
of the grid points are 4, 1, 0, 1, so the scan stops at the index `i* = 3`, and the
criterion has been evaluated 3 times, not `i* + 1 = 4`. -/
theorem quality_exit_supplied_count :
    (StopsAt (gridY demoEnv 0 (stepRate demoEnv 0 5 (-6) false) false true 4) 0 3 ∧
      ∀ i, i < 3 →
        ¬ StopsAt (gridY demoEnv 0 (stepRate demoEnv 0 5 (-6) false) false true 4) 0 i) ∧
    glob_min 0 demoEnv 0 5 (-6) false 0 ⟨0, 0, 0, 4, 0, 0⟩ = Outcome.ret 0 suppliedStopState ∧
    critCount suppliedStopState.trace = 3 := by
  have hr : stepRate demoEnv 0 5 (-6) false = 1 := by norm_num [stepRate, pointCount]
  rw [hr]
  refine ⟨⟨⟨2, ⟨by decide, ?_, ?_⟩, by decide, by decide, ?_⟩, ?_⟩, ?_, ?_⟩
  · intro j hj
    rw [demoEnv_gridY, demoEnv_gridY]
    interval_cases j <;> norm_num
  · intro j hj
    rw [demoEnv_gridY, demoEnv_gridY]
    interval_cases j <;> norm_num
  · rw [demoEnv_gridY]; norm_num
  · rintro i hi ⟨b, ⟨_, hmin, _⟩, hb0, hbi, hyb⟩
    have hb1 : b = 1 := by omega
    subst hb1
    rw [demoEnv_gridY] at hyb
    norm_num at hyb
  · norm_num [glob_min, scan, scanBody, evalPoint, track, pollQuit, advance, initState,
      stepRate, pointCount, neighbours, extend, closedExit, demoEnv, suppliedStopState]
  · simp [suppliedStopState, critCount]

/-! ## C7 -/

/-- C7. Flat-function termination.  For a criterion that returns the constant `c`
and never asks to stop, a keyboard that is never pressed, linear spacing,
`npts ≥ 2` and any `critlim`, `glob_min` returns 0 as soon as the left extension
may run once, with `y1 = y2 = y3 = c`, `x2 = low`, `x1 = low - rate`,
`x3 = low + rate`, after exactly `npts + 1` criterion evaluations. -/
theorem flat_terminates (fuel : Nat) (E : Env K) (low high : K) (npts : Int) (critlim : K)
    (m : Bracket K) (c : K) (hn : 2 ≤ npts)
    (hc : ∀ t x, E.criter t x = (0, c)) (hp : ∀ t, E.user_pressed_escape t = 0) :
    ∃ s, glob_min (fuel + 1) E low high npts false critlim m = Outcome.ret 0 s ∧
      s.y1 = c ∧ s.y2 = c ∧ s.y3 = c ∧ s.x2 = low ∧
      s.x1 = low - (high - low) / ((npts - 1 : Int) : K) ∧
      s.x3 = low + (high - low) / ((npts - 1 : Int) : K) ∧
      critCount s.trace = npts.toNat + 1 := by
  have hq : Quiet E := ⟨fun t x => by rw [hc], hp⟩
  have hpc : pointCount npts = npts := pointCount_pos npts (by omega)
  have hd : decide (npts < 0) = false := by simp; omega
  have hr : stepRate E low high npts false = (high - low) / ((npts - 1 : Int) : K) := by
    simp [stepRate, hpc]
  have hys : ∀ j, gridY E low (stepRate E low high npts false) false false m.y2 j = c := by
    intro j; simp [gridY, hc]
  have hrule := scan_rule E false critlim false
    (QuietHead E low (stepRate E low high npts false) false false m.y2 critlim)
    (QuietBody E low (stepRate E low high npts false) false false m.y2 critlim)
    (fun s hs => scanBody_quietBody E low _ false false m.y2 critlim hq s hs)
    (fun s hs _ hncl => advance_quietHead E low _ false false m.y2 critlim s hs hncl)
    npts.toNat (initState E low high npts false m)
    ⟨0, rfl, rfl, rfl, rfl, rfl, fun j hj => absurd hj (Nat.not_lt_zero j), fun _ => rfl,
      fun h0 => absurd h0 (lt_irrefl _)⟩
  have hb0 : ∀ k b, IsFirstMin (gridY E low (stepRate E low high npts false) false false
      m.y2) k b → b = 0 := by
    intro k b hfm
    by_contra hne
    have := hfm.2.2 0 (Nat.pos_of_ne_zero hne)
    rw [hys, hys] at this
    exact lt_irrefl _ this
  unfold glob_min
  rw [hpc, hd]
  cases hsc : scan E false critlim false npts.toNat (initState E low high npts false m) with
  | aborted s =>
    obtain ⟨⟨k, _, huq, _⟩, hne, _⟩ := hrule.2 s hsc
    exact absurd huq hne
  | finished s1 =>
    rcases hrule.1 s1 hsc with ⟨⟨k, hk, _, htr, _, hrt, _, _, hprev⟩, hend⟩ |
      ⟨⟨k, _, _, _, _, _, _, ⟨b, hfm, hib, _⟩, _⟩, _, hpos, _⟩
    · have hkn : (k : Int) = npts := by
        rw [← hk, hend]
        show (0 : Int) + (npts.toNat : Int) = npts
        omega
      have hk2 : 2 ≤ k := by omega
      obtain ⟨⟨b, hfm, hib, hy2, htu, hy3, _, _⟩, hx2⟩ := hprev (by omega)
      have hb := hb0 _ b hfm
      subst hb
      have hup : s1.turned_up = true := htu.mpr (by omega)
      have hy3' : s1.y3 = c := by rw [hy3 (by omega), hys]
      have hy2' : s1.y2 = c := by rw [hy2, hys]
      have hib' : s1.ibest = 0 := by simpa using hib
      have hx2' : s1.x2 = low := by rw [hx2, hib']; rfl
      have hcount : critCount s1.trace = npts.toNat := by
        rw [htr, critCount_gridTrace]; omega
      simp [extend, neighbours, extendLeft, probeLeft, hup, hib', hp, hc, hy2', hy3', hx2',
        hrt, hr, critCount, hcount]
    · exfalso
      have hb := hb0 _ b hfm
      subst hb
      rw [hib] at hpos
      simp at hpos

/-- The constant criterion 7 on `[0, 1]` with four points. -/
theorem flat_terminates_witness :
    ∃ s, glob_min (0 + 1) (constEnv 7) 0 1 4 false 3 ⟨0, 0, 0, 0, 0, 0⟩ = Outcome.ret 0 s ∧
      s.y1 = 7 ∧ s.y2 = 7 ∧ s.y3 = 7 ∧ s.x2 = 0 ∧
      s.x1 = 0 - (1 - 0) / (((4 : Int) - 1 : Int) : ℚ) ∧
      s.x3 = 0 + (1 - 0) / (((4 : Int) - 1 : Int) : ℚ) ∧
      critCount s.trace = (4 : Int).toNat + 1 :=
  flat_terminates 0 (constEnv 7) 0 1 4 3 ⟨0, 0, 0, 0, 0, 0⟩ 7 (by decide)
    (fun _ _ => rfl) (fun _ => rfl)

/-! ## The abscissas evaluated -/

theorem critXs_probeRight (E : Env K) (s : State K) :
    ∃ l, critXs (probeRight E s).trace = critXs s.trace ++ l := by
  simp only [probeRight]
  split_ifs
  · exact ⟨[s.x3], by simp [critXs]⟩
  · exact ⟨[], by simp [critXs]⟩

theorem critXs_probeLeft (E : Env K) (s : State K) :
    ∃ l, critXs (probeLeft E s).trace = critXs s.trace ++ l := by
  simp only [probeLeft]
  split_ifs
  · exact ⟨[s.x1], by simp [critXs]⟩
  · exact ⟨[], by simp [critXs]⟩

/-- On `f(x) = -x` every step of the right extension finds a smaller value, so the
loop uses up any fuel. -/
theorem extendRight_neg :
    ∀ (n : Nat) (s : State ℚ), s.y2 = -s.x2 → s.x2 < s.x3 → 0 < s.rate →
      ∃ s', extendRight negEnv false n s = Outcome.timeout s' ∧
        critCount s'.trace = critCount s.trace + n ∧ s.x3 ≤ s'.x3 ∧
        s'.turned_up = s.turned_up ∧ s'.y2 ≤ s.y2 := by
  intro n
  induction n with
  | zero => intro s _ _ _; exact ⟨s, rfl, rfl, le_refl _, rfl, le_refl _⟩
  | succ n ih =>
    intro s hy hx hr
    have hlt : -s.x3 < s.y2 := by rw [hy]; linarith
    have hstep : extendRight negEnv false (n + 1) s
        = extendRight negEnv false n (shiftRight false (probeRight negEnv s)) := by
      simp only [extendRight, probeRight, negEnv]
      simp [not_lt.mpr (le_of_lt hlt), ne_of_gt hlt]
    obtain ⟨s', h1, h2, h3, h4, h5⟩ := ih (shiftRight false (probeRight negEnv s))
      (by simp [shiftRight, probeRight, negEnv])
      (by simp [shiftRight, probeRight, negEnv]; linarith)
      (by simp [shiftRight, probeRight, negEnv]; linarith)
    refine ⟨s', by rw [hstep]; exact h1, ?_, ?_, ?_, ?_⟩
    · rw [h2]; simp [shiftRight, probeRight, negEnv, critCount]; ring
    · refine le_trans ?_ h3
      simp [shiftRight, probeRight, negEnv]; linarith
    · rw [h4]; simp [shiftRight, probeRight, negEnv]
    · refine le_trans h5 ?_
      simp [shiftRight, probeRight, negEnv]; linarith

/-- The run on `f(x) = -x`, `[0, 1]`, three points: the scan ends with the best
point at `x = 1` and no right neighbour, and the right extension never returns. -/
theorem neg_run (fuel : Nat) (critlim : ℚ) (m : Bracket ℚ) :
    ∃ s, glob_min fuel negEnv 0 1 3 false critlim m = Outcome.timeout s ∧
      s.turned_up = false ∧ critCount s.trace = 3 + fuel ∧ 1 < s.x3 ∧ s.y2 ≤ -1 := by
  have hscan : glob_min fuel negEnv 0 1 3 false critlim m
      = extendRight negEnv false fuel
          { i := 3, ibest := 2, turned_up := false, user_quit := 0, x := 3 / 2, rate := 1 / 2,
            previous := -1, x1 := 1 / 2, y1 := -(1 / 2), x2 := 1, y2 := -1, x3 := 3 / 2,
            y3 := m.y3,
            trace := [Event.poll 0, Event.crit 1 0 (-1), Event.poll 0,
              Event.crit (1 / 2) 0 (-(1 / 2)), Event.poll 0, Event.crit 0 0 0] } := by
    norm_num [glob_min, scan, scanBody, evalPoint, track, pollQuit, advance, initState,
      stepRate, pointCount, neighbours, extend, negEnv]
  obtain ⟨s', h1, h2, h3, h4, h5⟩ := extendRight_neg fuel
    { i := 3, ibest := 2, turned_up := false, user_quit := 0, x := 3 / 2, rate := 1 / 2,
      previous := -1, x1 := 1 / 2, y1 := -(1 / 2), x2 := 1, y2 := -1, x3 := 3 / 2,
      y3 := m.y3,
      trace := [Event.poll 0, Event.crit 1 0 (-1), Event.poll 0,
        Event.crit (1 / 2) 0 (-(1 / 2)), Event.poll 0, Event.crit 0 0 0] }
    (by norm_num) (by norm_num) (by norm_num)
  refine ⟨s', by rw [hscan]; exact h1, h4, ?_, ?_, h5⟩
  · rw [h2]; simp [critCount]
  · have : (3 / 2 : ℚ) ≤ s'.x3 := h3
    linarith

/-! ## Ties -/

theorem track_new (s : State K) (y : K) (h : s.i = 0 ∨ y < s.y2) :
    (track s y).x2 = s.x ∧ (track s y).y2 = y := by
  unfold track; rw [if_pos h]; exact ⟨rfl, rfl⟩

theorem track_old (s : State K) (y : K) (h : ¬ (s.i = 0 ∨ y < s.y2)) :
    (track s y).x2 = s.x2 ∧ (track s y).y2 = s.y2 := by
  unfold track; rw [if_neg h]
  split_ifs <;> exact ⟨rfl, rfl⟩

theorem scanBody_tie (E : Env K) (know : Bool) (y0 low : K) (log_space : Bool) (s : State K)
    (hm : HeadMin know y0 s) (hg : GridHead low log_space s)
    (ht : 0 < s.i → Tie know y0 low s) : Tie know y0 low (scanBody E know s) := by
  obtain ⟨hi, hm0, hmpos⟩ := hm
  obtain ⟨_, _, hg0, hgpos⟩ := hg
  unfold Tie
  rw [scanBody_x2, scanBody_y2]
  by_cases h1 : s.i = 0 ∨ sampleY E know s < s.y2
  · obtain ⟨e1, e2⟩ := track_new s _ h1
    rw [e1, e2]
    constructor
    · intro x q y hmem hx
      rcases scanBody_trace_mem E know s x q y hmem with hold | ⟨_, hxs, _⟩
      · by_cases hz : s.i = 0
        · rw [(hm0 hz).1] at hold; simp at hold
        · have hp : 0 < s.i := lt_of_le_of_ne hi (Ne.symm hz)
          rcases h1 with h0 | hlt
          · exact absurd h0 hz
          · exact lt_of_lt_of_le hlt ((hmpos hp).1 x q y hold)
      · rw [hxs] at hx; exact absurd hx (lt_irrefl _)
    · intro hk hlow
      by_cases hz : s.i = 0
      · rw [(hg0 hz).1] at hlow; exact absurd hlow (lt_irrefl _)
      · have hp : 0 < s.i := lt_of_le_of_ne hi (Ne.symm hz)
        rcases h1 with h0 | hlt
        · exact absurd h0 hz
        · exact lt_of_lt_of_le hlt ((hmpos hp).2 hk)
  · obtain ⟨e1, e2⟩ := track_old s _ h1
    rw [e1, e2]
    push_neg at h1
    have hp : 0 < s.i := lt_of_le_of_ne hi (Ne.symm h1.1)
    obtain ⟨t1, t2⟩ := ht hp
    refine ⟨?_, t2⟩
    intro x q y hmem hx
    rcases scanBody_trace_mem E know s x q y hmem with hold | ⟨_, hxs, _⟩
    · exact t1 x q y hold hx
    · rw [hxs] at hx
      exact absurd hx (not_lt.mpr (le_of_lt (hgpos hp).2.2.1))

/-- What is known of the samples when the scan of a valid range is left towards
line 111. -/
theorem scan_tie_end (E : Env K) (low high : K) (npts : Int) (log_space : Bool) (critlim : K)
    (m : Bracket K) (hlh : low < high) (hn : 2 ≤ pointCount npts)
    (hlog : log_space = true → 0 < low ∧ ExpLogOk E) (s1 : State K)
    (h : scan E log_space critlim (decide (npts < 0)) (pointCount npts).toNat
      (initState E low high npts log_space m) = ScanExit.finished s1) :
    BestSoFar (decide (npts < 0)) m.y2 s1 ∧ Tie (decide (npts < 0)) m.y2 low s1 ∧
      (s1.ibest = 0 → AllRight (decide (npts < 0)) low s1) := by
  have hrule := scan_rule E log_space critlim (decide (npts < 0))
    (fun s => HeadMin (decide (npts < 0)) m.y2 s ∧ GridHead low log_space s ∧
      (0 < s.i → Tie (decide (npts < 0)) m.y2 low s))
    (fun s => (0 ≤ s.i ∧ BestSoFar (decide (npts < 0)) m.y2 s) ∧ GridBody low log_space s ∧
      Tie (decide (npts < 0)) m.y2 low s)
    (fun s hs => ⟨⟨scanBody_i_nonneg E _ s hs.1.1, scanBody_bestSoFar E _ _ s hs.1⟩,
      scanBody_gridBody E _ low log_space s hs.2.1,
      scanBody_tie E _ _ low log_space s hs.1 hs.2.1 hs.2.2⟩)
    (fun s hs _ _ => ⟨advance_headMin log_space _ _ s hs.1.1 hs.1.2,
      advance_gridHead low log_space s (fun hl => (hlog hl).1) hs.2.1,
      fun _ => by rw [advance_eq]; exact hs.2.2⟩)
    (pointCount npts).toNat (initState E low high npts log_space m)
    ⟨⟨le_refl _, fun _ => ⟨rfl, rfl⟩, fun h0 => absurd h0 (lt_irrefl _)⟩,
      initState_gridHead E low high npts log_space m hlh hn hlog,
      fun h0 => absurd h0 (lt_irrefl _)⟩
  rcases hrule.1 s1 h with ⟨⟨⟨_, _, hmpos⟩, ⟨_, _, _, hgpos⟩, htie⟩, hi⟩ |
    ⟨⟨⟨_, hb⟩, ⟨_, _, _, _, _, _, hb0, htr⟩, htie⟩, _⟩
  · have hi' : 0 < s1.i := by
      rw [hi]
      show (0 : Int) < 0 + ((pointCount npts).toNat : Int)
      rw [Int.toNat_of_nonneg (by omega)]; omega
    obtain ⟨_, _, _, hb0, htr⟩ := hgpos hi'
    refine ⟨hmpos hi', htie hi', fun hib => ⟨fun x q y hmem => ?_, fun _ => ?_⟩⟩
    · rw [hb0 hib]; exact (htr x q y hmem).1
    · rw [hb0 hib]
  · refine ⟨hb, htie, fun hib => ⟨fun x q y hmem => ?_, fun _ => ?_⟩⟩
    · rw [hb0 hib]; exact (htr x q y hmem).1
    · rw [hb0 hib]

theorem shiftRight_tie (E : Env K) (log_space know : Bool) (y0 low : K) (s : State K)
    (hb : BestSoFar know y0 s) :
    (shiftRight log_space (probeRight E s)).y2 < (shiftRight log_space (probeRight E s)).y1 →
      Tie know y0 low (shiftRight log_space (probeRight E s)) := by
  rw [shiftRight_eq]
  intro hlt
  have hlt' : (probeRight E s).y3 < s.y2 := by
    have : (probeRight E s).y3 < (probeRight E s).y2 := hlt
    rw [probeRight_y2] at this; exact this
  constructor
  · intro x q y hmem hx
    show (probeRight E s).y3 < y
    have hx' : x < (probeRight E s).x3 := hx
    rcases probeRight_trace_mem E s x q y hmem with hold | ⟨hxs, _⟩
    · exact lt_of_lt_of_le hlt' (hb.1 x q y hold)
    · rw [probeRight_eq] at hx'
      rw [hxs] at hx'
      exact absurd hx' (lt_irrefl _)
  · intro hk _
    show (probeRight E s).y3 < y0
    exact lt_of_lt_of_le hlt' (hb.2 hk)

theorem shiftLeft_allRight (E : Env K) (log_space know : Bool) (low : K) (s : State K)
    (ha : AllRight know low s) (hx : s.x1 < s.x2) :
    AllRight know low (shiftLeft log_space (probeLeft E s)) := by
  rw [shiftLeft_eq]
  have hx1 : (probeLeft E s).x1 = s.x1 := by rw [probeLeft_eq]
  constructor
  · intro x q y hmem
    show (probeLeft E s).x1 ≤ x
    rw [hx1]
    rcases probeLeft_trace_mem E s x q y hmem with hold | ⟨hxs, _⟩
    · exact le_trans (le_of_lt hx) (ha.1 x q y hold)
    · rw [hxs]
  · intro hk
    show (probeLeft E s).x1 ≤ low
    rw [hx1]
    exact le_trans (le_of_lt hx) (ha.2 hk)

/-! ## C10 -/

/-- C10, amended.  Tie-break: for every run on a valid range that returns 0 with
the left neighbour strictly above the best value (`y2 < y1`), the point reported
as best is the leftmost sampled point attaining the least sampled value: every
sampled point (the supplied one at `low` included) whose value is at most `y2`
lies at or right of `x2`, so of two adjacent sampled points that both attain the
minimum the one with the larger `x` is not the one reported.  The condition
`y2 < y1` always holds when no extension step ran (`ibest > 0` with the right
neighbour captured in the scan). -/
theorem leftmost_min (fuel : Nat) (E : Env K) (low high : K) (npts : Int) (log_space : Bool)
    (critlim : K) (m : Bracket K) (s : State K)
    (hlh : low < high) (hn : 2 ≤ pointCount npts)
    (hlog : log_space = true → 0 < low ∧ ExpLogOk E)
    (h : glob_min fuel E low high npts log_space critlim m = Outcome.ret 0 s) :
    (s.y2 < s.y1 →
      (∀ x q y, Event.crit x q y ∈ s.trace → y ≤ s.y2 → s.x2 ≤ x) ∧
      (npts < 0 → m.y2 ≤ s.y2 → s.x2 ≤ low)) ∧
    (0 < s.ibest ∧ s.turned_up = true → s.y2 < s.y1) := by
  have hkn : ∀ hnp : npts < 0, decide (npts < 0) = true := fun hnp => by simpa using hnp
  rcases glob_min_ret fuel E low high npts log_space critlim m 0 s h with ⟨ha, hc⟩ | ⟨s1, hs, he⟩
  · exact absurd hc.symm (scan_aborted_quit E log_space critlim _ _ _ s ha)
  · obtain ⟨hbest, htie, hall⟩ :=
      scan_tie_end E low high npts log_space critlim m hlh hn hlog s1 hs
    obtain ⟨e0, e1, e2, e3, eg, ex⟩ :=
      scan_end E low high npts log_space critlim m hlh hn hlog s1 hs
    obtain ⟨n12, n23, nx1, neq⟩ := neighbours_order log_space s1 eg ex
    rcases extend_ret E log_space fuel _ 0 s he with ⟨ht, hx⟩ | ⟨ht, hb, hx⟩ | ⟨ht, hb, _, hx⟩
    · -- right extension
      obtain ⟨s0, ⟨hb0, ht0, hu0⟩, hs0, hret⟩ := (extendRight_rule E log_space
        (fun t => BestSoFar (decide (npts < 0)) m.y2 t ∧
          (t.y2 < t.y1 → Tie (decide (npts < 0)) m.y2 low t) ∧ t.turned_up = false)
        (fun t ht _ hup _ => ⟨shiftRight_bestSoFar E log_space _ _ t ht.1 hup,
          shiftRight_tie E log_space _ _ low t ht.1,
          by rw [shiftRight_eq]; show (probeRight E t).turned_up = false
             rw [probeRight_eq]; exact ht.2.2⟩)
        fuel _ ⟨by rw [neq]; exact hbest, fun _ => by rw [neq]; exact htie, ht⟩).1 0 s hx
      have q1 : s.y1 = s0.y1 := by rw [hs0, probeRight_eq]
      have q2 : s.y2 = s0.y2 := by rw [hs0, probeRight_eq]
      have q3 : s.x2 = s0.x2 := by rw [hs0, probeRight_eq]
      have q4 : s.turned_up = false := by rw [hs0, probeRight_eq]; exact hu0
      refine ⟨fun hlt => ?_, fun hcl => ?_⟩
      · rcases hret with ⟨hne, _⟩ | ⟨_, _, hfin⟩
        · exact absurd rfl hne
        · have hy3 : s.y2 < s.y3 := by
            rcases hfin with h3 | hfl
            · exact h3
            · exact absurd hfl.1 (ne_of_gt hlt)
          obtain ⟨t1, t2⟩ := ht0 (by rw [← q1, ← q2]; exact hlt)
          refine ⟨fun x q y hmem hy => ?_, fun hnp hy => ?_⟩
          · rw [hs0] at hmem
            rcases probeRight_trace_mem E s0 x q y hmem with hold | ⟨_, hyy⟩
            · by_contra hcon
              have := t1 x q y hold (by rw [← q3]; exact not_le.mp hcon)
              rw [← q2] at this
              exact absurd hy (not_le.mpr this)
            · rw [hyy, ← hs0] at hy
              exact absurd hy (not_le.mpr hy3)
          · by_contra hcon
            have := t2 (hkn hnp) (by rw [← q3]; exact not_le.mp hcon)
            rw [← q2] at this
            exact absurd hy (not_le.mpr this)
      · rw [q4] at hcl; exact absurd hcl.2 (by simp)
    · -- left extension
      have hib : s1.ibest = 0 := by rw [neq] at hb; exact hb
      have htu : s1.turned_up = true := by rw [neq] at ht; exact ht
      obtain ⟨s0, ⟨hb0, ha0, hl0, hi0⟩, hs0, hret⟩ := (extendLeft_rule E log_space
        (fun t => BestSoFar (decide (npts < 0)) m.y2 t ∧ AllRight (decide (npts < 0)) low t ∧
          LeftInv log_space t ∧ t.ibest = 0)
        (fun t ht _ hup _ => ⟨shiftLeft_bestSoFar E log_space _ _ t ht.1 hup,
          shiftLeft_allRight E log_space _ low t ht.2.1 ht.2.2.1.2.1,
          shiftLeft_inv E log_space t ht.2.2.1 hup,
          by rw [shiftLeft_eq]; show (probeLeft E t).ibest = 0
             rw [probeLeft_eq]; exact ht.2.2.2⟩)
        fuel _ ⟨by rw [neq]; exact hbest, by rw [neq]; exact hall hib,
          ⟨by rw [neq]; exact e3 htu, n12, n23, by rw [neq]; exact eg, nx1⟩, hb⟩).1 0 s hx
      have q2 : s.y2 = s0.y2 := by rw [hs0, probeLeft_eq]
      have q3 : s.x2 = s0.x2 := by rw [hs0, probeLeft_eq]
      have q4 : s.ibest = 0 := by rw [hs0, probeLeft_eq]; exact hi0
      refine ⟨fun hlt => ⟨fun x q y hmem hy => ?_, fun hnp _ => ?_⟩, fun hcl => ?_⟩
      · rw [hs0] at hmem
        rcases probeLeft_trace_mem E s0 x q y hmem with hold | ⟨_, hyy⟩
        · rw [q3]; exact ha0.1 x q y hold
        · rw [hyy, ← hs0] at hy
          exact absurd hy (not_le.mpr hlt)
      · rw [q3]; exact ha0.2 (hkn hnp)
      · rw [q4] at hcl; exact absurd hcl.1 (lt_irrefl _)
    · -- no extension
      subst hx
      have hib : (neighbours log_space s1).ibest = s1.ibest := by rw [neq]
      refine ⟨fun _ => ⟨fun x q y hmem hy => ?_, fun hnp hy => ?_⟩, fun hcl => ?_⟩
      · rw [neq] at hmem hy ⊢
        by_contra hcon
        exact absurd hy (not_le.mpr (htie.1 x q y hmem (not_le.mp hcon)))
      · rw [neq] at hy ⊢
        by_contra hcon
        exact absurd hy (not_le.mpr (htie.2 (hkn hnp) (not_le.mp hcon)))
      · rw [hib] at hcl
        rw [neq]
        exact e2 hcl.1

/-- C10, as stated, fails: on `[0, 1]` with two points and a criterion with
`f(0) = 1`, `f(1) = 0`, `f(2) = 0`, `f(5) = 1`, the right extension samples
`x = 2` and `x = 5` and `glob_min` returns 0.  The points sampled are
`0, 1, 2, 5`; the adjacent points `1` and `2` both attain the least value 0, and
the point reported as best is `x2 = 2`, the one with the larger `x`. -/
theorem tie_reports_larger :
    glob_min 2 tieEnv 0 1 2 false (-1) ⟨0, 0, 0, 0, 0, 0⟩ = Outcome.ret 0 tieState ∧
      critXs tieState.trace = [0, 1, 2, 5] ∧
      Event.crit 1 0 0 ∈ tieState.trace ∧ Event.crit 2 0 0 ∈ tieState.trace ∧
      (∀ x q y, Event.crit x q y ∈ tieState.trace → 0 ≤ y) ∧
      tieState.x2 = 2 := by
  refine ⟨?_, by simp [tieState, critXs], by simp [tieState], by simp [tieState], ?_, rfl⟩
  · norm_num [glob_min, scan, scanBody, evalPoint, track, pollQuit, advance, initState,
      stepRate, pointCount, neighbours, extend, extendRight, probeRight, shiftRight, tieEnv,
      tieState]
  · intro x q y hmem
    simp [tieState] at hmem
    rcases hmem with h | h | h | h <;>
    · obtain ⟨_, _, hy⟩ := h
      subst hy
      norm_num

/-- The run of `demoEnv` returns 0 with `y2 = 0 < 1 = y1`; its best point `x2 = 2`
is the leftmost sample of value 0. -/
theorem leftmost_min_witness :
    glob_min 0 demoEnv 1 4 4 true (-1) ⟨0, 0, 0, 0, 0, 0⟩ = Outcome.ret 0 demoState ∧
    ((demoState.y2 < demoState.y1 →
        (∀ x q y, Event.crit x q y ∈ demoState.trace → y ≤ demoState.y2 → demoState.x2 ≤ x) ∧
        ((4 : Int) < 0 → (0 : ℚ) ≤ demoState.y2 → demoState.x2 ≤ 1)) ∧
      (0 < demoState.ibest ∧ demoState.turned_up = true → demoState.y2 < demoState.y1)) := by
  have h : glob_min 0 demoEnv 1 4 4 true (-1) ⟨0, 0, 0, 0, 0, 0⟩ = Outcome.ret 0 demoState := by
    norm_num [glob_min, scan, scanBody, evalPoint, track, pollQuit, advance, initState,
      stepRate, pointCount, neighbours, extend, demoEnv, demoState]
  exact ⟨h, leftmost_min 0 demoEnv 1 4 4 true (-1) ⟨0, 0, 0, 0, 0, 0⟩ demoState
    (by norm_num) (by decide) (fun _ => ⟨by norm_num, demoEnv_ok⟩) h⟩

/-! ## Every call of a trace is an answer of the environment -/

theorem scanBody_answered (E : Env K) (know : Bool) (s : State K)
    (h : Answered E s.trace) : Answered E (scanBody E know s).trace := by
  unfold Answered at *
  simp only [scanBody, evalPoint, pollQuit, track]
  split_ifs
  all_goals
    intro ev hm
    simp only [List.mem_cons] at hm
    first
      | exact h ev hm
      | (rcases hm with rfl | hm
         · first
             | exact Or.inl ⟨_, rfl⟩
             | exact Or.inr ⟨_, _, rfl⟩
         · first
             | exact h ev hm
             | (rcases hm with rfl | hm
                · first
                    | exact Or.inl ⟨_, rfl⟩
                    | exact Or.inr ⟨_, _, rfl⟩
                · exact h ev hm))

theorem probeRight_answered (E : Env K) (s : State K)
    (h : Answered E s.trace) : Answered E (probeRight E s).trace := by
  unfold Answered at *
  simp only [probeRight]
  split_ifs
  · intro ev hm
    simp only [List.mem_cons] at hm
    rcases hm with rfl | rfl | hm
    · exact Or.inr ⟨_, _, rfl⟩
    · exact Or.inl ⟨_, rfl⟩
    · exact h ev hm
  · intro ev hm
    simp only [List.mem_cons] at hm
    rcases hm with rfl | hm
    · exact Or.inl ⟨_, rfl⟩
    · exact h ev hm

theorem probeLeft_answered (E : Env K) (s : State K)
    (h : Answered E s.trace) : Answered E (probeLeft E s).trace := by
  unfold Answered at *
  simp only [probeLeft]
  split_ifs
  · intro ev hm
    simp only [List.mem_cons] at hm
    rcases hm with rfl | rfl | hm
    · exact Or.inr ⟨_, _, rfl⟩
    · exact Or.inl ⟨_, rfl⟩
    · exact h ev hm
  · intro ev hm
    simp only [List.mem_cons] at hm
    rcases hm with rfl | hm
    · exact Or.inl ⟨_, rfl⟩
    · exact h ev hm

/-- The trace a run ends with holds answers of the environment only. -/
theorem run_answered (fuel : Nat) (E : Env K) (low high : K) (npts : Int) (log_space : Bool)
    (critlim : K) (m : Bracket K) :
    Answered E (glob_min fuel E low high npts log_space critlim m).final.trace := by
  have hrule := scan_rule E log_space critlim (decide (npts < 0))
    (fun s => Answered E s.trace) (fun s => Answered E s.trace)
    (fun s hs => scanBody_answered E _ s hs)
    (fun s hs _ _ => by rw [advance_eq]; exact hs)
    (pointCount npts).toNat (initState E low high npts log_space m)
    (fun ev hm => by simp [initState] at hm)
  unfold glob_min
  split
  · rename_i s heq
    exact (hrule.2 s heq).1
  · rename_i s1 heq
    have h1 : Answered E s1.trace := by
      rcases hrule.1 s1 heq with ⟨hh, _⟩ | ⟨hb, _⟩
      · exact hh
      · exact hb
    exact extend_final E log_space (fun s => Answered E s.trace)
      (fun s hs => probeRight_answered E s hs) (fun s hs => probeLeft_answered E s hs)
      (fun s hs => by rw [shiftRight_eq]; exact hs) (fun s hs => by rw [shiftLeft_eq]; exact hs)
      fuel _ (by rw [neighbours_eq]; exact h1)

theorem quiet_noCancel (E : Env K) (hq : Quiet E) (t : List (Event K)) (h : Answered E t) :
    NoCancel t := by
  intro ev hm hc
  rcases h ev hm with ⟨u, rfl⟩ | ⟨u, x, rfl⟩
  · exact hc (hq.2 u)
  · exact hc (hq.1 u x)

/-! ## C11 -/

/-- C11, as stated, fails: `glob_min` does not check its range.  With the criterion
`(x - 3)^2`, the call on `low = high = 0` with three points returns 0 with
`x1 = x2 = x3 = 0`, and the call with `npts = 0` on `[0, 1]` returns 0 with the
bracket `x1 = 1, x2 = 0, x3 = -1`, whose centre was never sampled. -/
theorem invalid_range_returns_zero :
    glob_min 1 quadEnv 0 0 3 false (-1) ⟨0, 0, 0, 0, 0, 0⟩ = Outcome.ret 0 emptyRangeState ∧
    glob_min 1 quadEnv 0 1 0 false (-1) ⟨0, 0, 0, 0, 0, 0⟩ = Outcome.ret 0 noPointState := by
  constructor
  · norm_num [glob_min, scan, scanBody, evalPoint, track, pollQuit, advance, initState,
      stepRate, pointCount, neighbours, extend, extendLeft, probeLeft, quadEnv,
      emptyRangeState]
  · norm_num [glob_min, scan, initState, stepRate, pointCount, neighbours, extend,
      extendRight, probeRight, quadEnv, noPointState]

/-- C11, amended.  `glob_min` has no invalid-input signal: for every call, whether
its range meets the preconditions or not, a nonzero value returned is the value of
a request to stop that the criterion or the poll made during the call; and when
neither of them ever asks to stop, every return is a return of 0.  Checking
`npts`, `low < high` and the sign of the bounds is left to the caller. -/
theorem no_validation (fuel : Nat) (E : Env K) (low high : K) (npts : Int) (log_space : Bool)
    (critlim : K) (m : Bracket K) (c : Int) (s : State K)
    (h : glob_min fuel E low high npts log_space critlim m = Outcome.ret c s) :
    (c ≠ 0 → c = s.user_quit ∧ ∃ ev ∈ s.trace, ev.Cancels) ∧ (Quiet E → c = 0) := by
  obtain ⟨hqi, hcu, _⟩ := run_quit fuel E low high npts log_space critlim m c s h
  have hans := run_answered fuel E low high npts log_space critlim m
  rw [h] at hans
  have hc : c ≠ 0 → c = s.user_quit ∧ ∃ ev ∈ s.trace, ev.Cancels := by
    intro hc0
    refine ⟨hcu hc0, hqi.1.mp ?_⟩
    rw [← hcu hc0]; exact hc0
  refine ⟨hc, fun hq => ?_⟩
  by_contra hc0
  obtain ⟨_, ev, hm, hcan⟩ := hc hc0
  exact quiet_noCancel E hq s.trace hans ev hm hcan

theorem quadEnv_quiet : Quiet quadEnv := ⟨fun _ _ => rfl, fun _ => rfl⟩

/-- The call on the empty range `[0, 0]`, to which `no_validation` applies. -/
theorem no_validation_witness :
    glob_min 1 quadEnv 0 0 3 false (-1) ⟨0, 0, 0, 0, 0, 0⟩ = Outcome.ret 0 emptyRangeState ∧
    (((0 : Int) ≠ 0 → 0 = emptyRangeState.user_quit ∧ ∃ ev ∈ emptyRangeState.trace, ev.Cancels) ∧
      (Quiet quadEnv → (0 : Int) = 0)) := by
  have h : glob_min 1 quadEnv 0 0 3 false (-1) ⟨0, 0, 0, 0, 0, 0⟩
      = Outcome.ret 0 emptyRangeState := by
    norm_num [glob_min, scan, scanBody, evalPoint, track, pollQuit, advance, initState,
      stepRate, pointCount, neighbours, extend, extendLeft, probeLeft, quadEnv,
      emptyRangeState]
  exact ⟨h, no_validation 1 quadEnv 0 0 3 false (-1) ⟨0, 0, 0, 0, 0, 0⟩ 0 emptyRangeState h⟩

/-! ## C16 -/

/-- C16. Cancellation during extension.  At every iteration of either extension
loop, from any state `s` at the head of the loop, the poll is called first (the
criterion sees it in the calls made before it).  If the poll returns `q ≠ 0` the
criterion is not called in that iteration, the loop returns `q` at once, and the
state returned differs from `s` in `user_quit` and the trace only: none of
`x1, y1, x2, y2, x3, y3` is changed.  In every run of `glob_min` that returns with
a poll as its newest call, `y2` is at most every value the criterion returned
(and the value supplied when `npts < 0`). -/
theorem extension_cancel (fuel : Nat) (E : Env K) (low high : K) (npts : Int)
    (log_space : Bool) (critlim : K) (m : Bracket K) :
    (∀ (n : Nat) (s : State K) (q : Int), E.user_pressed_escape s.trace = q →
      (q ≠ 0 → extendRight E log_space (n + 1) s
          = Outcome.ret q { s with user_quit := q, trace := Event.poll q :: s.trace }) ∧
      (q = 0 → (probeRight E s).trace
          = Event.crit s.x3 (E.criter (Event.poll 0 :: s.trace) s.x3).1
              (E.criter (Event.poll 0 :: s.trace) s.x3).2 :: Event.poll 0 :: s.trace)) ∧
    (∀ (n : Nat) (s : State K) (q : Int), E.user_pressed_escape s.trace = q →
      (q ≠ 0 → extendLeft E log_space (n + 1) s
          = Outcome.ret q { s with user_quit := q, trace := Event.poll q :: s.trace }) ∧
      (q = 0 → (probeLeft E s).trace
          = Event.crit s.x1 (E.criter (Event.poll 0 :: s.trace) s.x1).1
              (E.criter (Event.poll 0 :: s.trace) s.x1).2 :: Event.poll 0 :: s.trace)) ∧
    (∀ (c : Int) (s : State K) (q : Int) (t : List (Event K)),
      glob_min fuel E low high npts log_space critlim m = Outcome.ret c s →
      s.trace = Event.poll q :: t →
        (∀ x r y, Event.crit x r y ∈ s.trace → s.y2 ≤ y) ∧ (npts < 0 → s.y2 ≤ m.y2)) := by
  refine ⟨?_, ?_, ?_⟩
  · intro n s q hq
    constructor
    · intro hne
      simp [extendRight, probeRight, hq, hne]
    · intro h0
      rw [h0] at hq
      simp [probeRight, hq]
  · intro n s q hq
    constructor
    · intro hne
      simp [extendLeft, probeLeft, hq, hne]
    · intro h0
      rw [h0] at hq
      simp [probeLeft, hq]
  · intro c s q t h htr
    have key : BestSoFar (decide (npts < 0)) m.y2 s := by
      rcases glob_min_ret fuel E low high npts log_space critlim m c s h with
        ⟨ha, _⟩ | ⟨s1, hs, he⟩
      · have hrule := scan_rule E log_space critlim (decide (npts < 0))
          (HeadMin (decide (npts < 0)) m.y2)
          (fun s => 0 ≤ s.i ∧ BestSoFar (decide (npts < 0)) m.y2 s)
          (fun s hs => ⟨scanBody_i_nonneg E _ s hs.1, scanBody_bestSoFar E _ _ s hs⟩)
          (fun s hs _ _ => advance_headMin log_space _ _ s hs.1 hs.2)
          (pointCount npts).toNat (initState E low high npts log_space m)
          ⟨le_refl _, fun _ => ⟨rfl, rfl⟩, fun h0 => absurd h0 (lt_irrefl _)⟩
        exact (hrule.2 s ha).1.2
      · have h1 := neighbours_bestSoFar log_space _ _ s1
          (scan_bestSoFar E low high npts log_space critlim m s1 hs)
        rcases extend_ret E log_space fuel _ c s he with ⟨_, hx⟩ | ⟨_, _, hx⟩ | ⟨_, _, _, hx⟩
        · obtain ⟨s0, ⟨hm, hk⟩, hs0, _⟩ := ((extendRight_rule E log_space
            (BestSoFar (decide (npts < 0)) m.y2)
            (fun u hu _ hup _ => shiftRight_bestSoFar E log_space _ _ u hu hup)
            fuel _ h1).1 c s hx)
          have hy2 : s.y2 = s0.y2 := by rw [hs0, probeRight_y2]
          have hold : ∀ x r y, Event.crit x r y ∈ s.trace → Event.crit x r y ∈ s0.trace := by
            intro x r y hmem
            rw [hs0] at hmem htr
            simp only [probeRight] at hmem htr
            split_ifs at hmem htr
            · simp at htr
            · simpa using hmem
          exact ⟨fun x r y hmem => by rw [hy2]; exact hm x r y (hold x r y hmem),
            fun hkk => by rw [hy2]; exact hk hkk⟩
        · obtain ⟨s0, ⟨hm, hk⟩, hs0, _⟩ := ((extendLeft_rule E log_space
            (BestSoFar (decide (npts < 0)) m.y2)
            (fun u hu _ hup _ => shiftLeft_bestSoFar E log_space _ _ u hu hup)
            fuel _ h1).1 c s hx)
          have hy2 : s.y2 = s0.y2 := by rw [hs0, probeLeft_y2]
          have hold : ∀ x r y, Event.crit x r y ∈ s.trace → Event.crit x r y ∈ s0.trace := by
            intro x r y hmem
            rw [hs0] at hmem htr
            simp only [probeLeft] at hmem htr
            split_ifs at hmem htr
            · simp at htr
            · simpa using hmem
          exact ⟨fun x r y hmem => by rw [hy2]; exact hm x r y (hold x r y hmem),
            fun hkk => by rw [hy2]; exact hk hkk⟩
        · rw [hx]; exact h1
    exact ⟨key.1, fun hn => key.2 (by simpa using hn)⟩

/-- The run of `quadPollAfter 3` on `[0, 1]` with two points: the scan ends with the
best point at `x = 1`, and the keyboard reports ESCape at the first iteration of
the right extension. -/
theorem extension_cancel_witness :
    ((quadPollAfter 3).user_pressed_escape extHeadState.trace = 1 ∧ (1 : Int) ≠ 0 ∧
      extendRight (quadPollAfter 3) false (0 + 1) extHeadState
        = Outcome.ret 1 { extHeadState with
            user_quit := 1, trace := Event.poll 1 :: extHeadState.trace }) ∧
    (glob_min 1 (quadPollAfter 3) 0 1 2 false (-1) ⟨0, 0, 0, 0, 0, 0⟩
        = Outcome.ret 1 { extHeadState with
            user_quit := 1, trace := Event.poll 1 :: extHeadState.trace } ∧
      ((∀ x r y, Event.crit x r y ∈ (Event.poll 1 :: extHeadState.trace) →
          extHeadState.y2 ≤ y) ∧
        ((2 : Int) < 0 → extHeadState.y2 ≤ 0))) := by
  have hq : (quadPollAfter 3).user_pressed_escape extHeadState.trace = 1 := by
    simp [quadPollAfter, extHeadState]
  have hrun : glob_min 1 (quadPollAfter 3) 0 1 2 false (-1) ⟨0, 0, 0, 0, 0, 0⟩
      = Outcome.ret 1 { extHeadState with
          user_quit := 1, trace := Event.poll 1 :: extHeadState.trace } := by
    norm_num [glob_min, scan, scanBody, evalPoint, track, pollQuit, advance, initState,
      stepRate, pointCount, neighbours, extend, extendRight, probeRight, quadPollAfter,
      extHeadState]
  exact ⟨⟨hq, by decide,
      ((extension_cancel 1 (quadPollAfter 3) 0 1 2 false (-1) ⟨0, 0, 0, 0, 0, 0⟩).1
        0 extHeadState 1 hq).1 (by decide)⟩,
    hrun,
    (extension_cancel 1 (quadPollAfter 3) 0 1 2 false (-1) ⟨0, 0, 0, 0, 0, 0⟩).2.2
      1 _ 1 _ hrun rfl⟩

/-! ## Where the scan is left -/

theorem closedExit_advance (log_space : Bool) (critlim : K) (s : State K) :
    closedExit critlim (advance log_space s) ↔ closedExit critlim s := by
  rw [advance_eq]; rfl

/-- The index at which the scan is left: `npts` when the loop ran to its end,
below `npts` when it was left by `break` or `return`. -/
theorem scan_exit_index (E : Env K) (log_space : Bool) (critlim : K) (know : Bool) :
    ∀ (n : Nat) (s : State K),
      (∀ s', scan E log_space critlim know n s = ScanExit.finished s' →
        (s'.i = s.i + n ∧ (0 < n → ¬ closedExit critlim s')) ∨
        (closedExit critlim s' ∧ s'.i < s.i + n)) ∧
      (∀ s', scan E log_space critlim know n s = ScanExit.aborted s' → s'.i < s.i + n) := by
  intro n
  induction n with
  | zero =>
    intro s
    constructor
    · intro s' h
      simp only [scan, ScanExit.finished.injEq] at h
      subst h
      left; exact ⟨by simp, fun h0 => absurd h0 (lt_irrefl _)⟩
    · intro s' h
      simp [scan] at h
  | succ n ih =>
    intro s
    by_cases hc : closedExit critlim (scanBody E know s)
    · have hscan : scan E log_space critlim know (n + 1) s
          = ScanExit.finished (scanBody E know s) := by
        have hc' := hc
        unfold closedExit at hc'
        simp only [scan]
        rw [if_pos hc']
      rw [hscan]
      constructor
      · intro s' h
        simp only [ScanExit.finished.injEq] at h
        subst h
        right
        refine ⟨hc, ?_⟩
        rw [scanBody_i]; push_cast; omega
      · intro s' h
        simp at h
    · by_cases hq : (scanBody E know s).user_quit ≠ 0
      · have hscan : scan E log_space critlim know (n + 1) s
            = ScanExit.aborted (scanBody E know s) := by
          have hc' := hc
          unfold closedExit at hc'
          simp only [scan]
          rw [if_neg hc', if_pos hq]
        rw [hscan]
        constructor
        · intro s' h
          simp at h
        · intro s' h
          simp only [ScanExit.aborted.injEq] at h
          subst h
          rw [scanBody_i]; push_cast; omega
      · have hscan : scan E log_space critlim know (n + 1) s
            = scan E log_space critlim know n (advance log_space (scanBody E know s)) := by
          have hc' := hc
          unfold closedExit at hc'
          simp only [scan]
          rw [if_neg hc', if_neg hq]
        rw [hscan]
        obtain ⟨h1, h2⟩ := ih (advance log_space (scanBody E know s))
        have hi : (advance log_space (scanBody E know s)).i = s.i + 1 := by
          rw [advance_i, scanBody_i]
        constructor
        · intro s' h
          rcases h1 s' h with ⟨ha, hb⟩ | ⟨ha, hb⟩
          · left
            refine ⟨by rw [ha, hi]; push_cast; ring, fun _ => ?_⟩
            rcases Nat.eq_zero_or_pos n with h0 | hpos
            · subst h0
              simp only [scan, ScanExit.finished.injEq] at h
              rw [← h, closedExit_advance]
              exact hc
            · exact hb hpos
          · right
            refine ⟨ha, ?_⟩
            rw [hi] at hb; push_cast; omega
        · intro s' h
          have := h2 s' h
          rw [hi] at this; push_cast; omega

/-! ## The first minimum of the values sampled, for any criterion -/

theorem trackAt_congr (ys ys' : Nat → K) (k : Nat) (s : State K)
    (h : ∀ j, j ≤ k → ys j = ys' j) (ht : TrackAt ys k s) : TrackAt ys' k s := by
  obtain ⟨b, ⟨hbk, hmin, hfirst⟩, hib, hy2, htu, hy3, hy1, hpv⟩ := ht
  refine ⟨b, ⟨hbk, ?_, ?_⟩, hib, ?_, htu, ?_, ?_, ?_⟩
  · intro j hj
    rw [← h b hbk, ← h j hj]; exact hmin j hj
  · intro j hj
    rw [← h b hbk, ← h j (by omega)]; exact hfirst j hj
  · rw [← h b hbk]; exact hy2
  · intro hlt
    rw [← h (b + 1) (by omega)]; exact hy3 hlt
  · intro hpos
    rw [← h (b - 1) (by omega)]; exact hy1 hpos
  · rw [← h k (le_refl _)]; exact hpv

theorem critYs_scanBody_eval (E : Env K) (know : Bool) (s : State K)
    (h : s.i ≠ 0 ∨ know = false) :
    critYs (scanBody E know s).trace = critYs s.trace ++ [sampleY E know s] := by
  simp only [scanBody, sampleY, evalPoint, pollQuit, track]
  rw [if_pos h]
  split_ifs <;> simp [critYs]

theorem critYs_scanBody_known (E : Env K) (know : Bool) (s : State K)
    (h : ¬ (s.i ≠ 0 ∨ know = false)) :
    critYs (scanBody E know s).trace = critYs s.trace := by
  simp only [scanBody, sampleY, evalPoint, pollQuit, track]
  rw [if_neg h]
  split_ifs <;> simp [critYs]

theorem scanBody_sampBody (E : Env K) (know : Bool) (y0 : K) (s : State K)
    (h : SampHead know y0 s) : SampBody know y0 (scanBody E know s) := by
  obtain ⟨k, hi, h0, hpos⟩ := h
  have key : (samples know y0 (scanBody E know s).trace).length = k + 1 ∧
      sampleY E know s = sampleAt know y0 (scanBody E know s).trace k ∧
      (0 < k → ∀ j, j ≤ k - 1 →
        sampleAt know y0 s.trace j = sampleAt know y0 (scanBody E know s).trace j) := by
    rcases Nat.eq_zero_or_pos k with hk | hk
    · subst hk
      obtain ⟨ht, hy⟩ := h0 rfl
      have hz : s.i = 0 := by simpa using hi
      cases know with
      | true =>
        have hc : ¬ (s.i ≠ 0 ∨ true = false) := by simp [hz]
        rw [sampleY_known E true s hc]
        unfold sampleAt samples
        rw [critYs_scanBody_known E true s hc, ht]
        simp [critYs, hy]
      | false =>
        have hc : s.i ≠ 0 ∨ false = false := Or.inr rfl
        unfold sampleAt samples
        rw [critYs_scanBody_eval E false s hc, ht]
        simp [critYs]
    · obtain ⟨hlen, _⟩ := hpos hk
      have hc : s.i ≠ 0 ∨ know = false := Or.inl (by omega)
      have hs' : samples know y0 (scanBody E know s).trace
          = samples know y0 s.trace ++ [sampleY E know s] := by
        unfold samples
        rw [critYs_scanBody_eval E know s hc, List.append_assoc]
      unfold sampleAt
      rw [hs']
      refine ⟨by rw [List.length_append, hlen]; rfl, ?_, fun _ j hj => ?_⟩
      · rw [List.getD_append_right _ _ _ _ (by rw [hlen]), hlen]
        simp
      · rw [List.getD_append _ _ _ _ (by rw [hlen]; omega)]
  obtain ⟨hlen, hy, hsame⟩ := key
  refine ⟨k, by rw [scanBody_i]; exact hi, hlen, ?_⟩
  have := track_trackAt (sampleAt know y0 (scanBody E know s).trace) k s
    (sampleY E know s) hi hy
    (fun hk => trackAt_congr _ _ (k - 1) s (hsame hk) (hpos hk).2)
  rw [scanBody_track]
  exact this

theorem advance_sampHead (log_space know : Bool) (y0 : K) (s : State K)
    (h : SampBody know y0 s) : SampHead know y0 (advance log_space s) := by
  obtain ⟨k, hi, hlen, ht⟩ := h
  rw [advance_eq]
  refine ⟨k + 1, by show s.i + 1 = ((k + 1 : Nat) : Int); rw [hi]; push_cast; ring,
    fun h0 => absurd h0 (Nat.succ_ne_zero k), fun _ => ⟨hlen, by simpa using ht⟩⟩

/-- What the scan knows of the values sampled when it is left towards line 111:
`k` is the index of the last grid point processed and `b` the first-minimum index. -/
theorem scan_samples_end (E : Env K) (low high : K) (npts : Int) (log_space : Bool)
    (critlim : K) (m : Bracket K) (s1 : State K) (hn : 2 ≤ pointCount npts)
    (hs : scan E log_space critlim (decide (npts < 0)) (pointCount npts).toNat
      (initState E low high npts log_space m) = ScanExit.finished s1) :
    ∃ k b : Nat, (samples (decide (npts < 0)) m.y2 s1.trace).length = k + 1 ∧
      (k : Int) ≤ pointCount npts - 1 ∧
      TrackAt (sampleAt (decide (npts < 0)) m.y2 s1.trace) k s1 ∧
      IsFirstMin (sampleAt (decide (npts < 0)) m.y2 s1.trace) k b ∧
      s1.ibest = (b : Int) ∧ (s1.turned_up = true ↔ b < k) ∧
      (s1.turned_up = false → (k : Int) = pointCount npts - 1) := by
  have hrule := scan_rule E log_space critlim (decide (npts < 0))
    (SampHead (decide (npts < 0)) m.y2) (SampBody (decide (npts < 0)) m.y2)
    (fun s hs => scanBody_sampBody E _ _ s hs)
    (fun s hs _ _ => advance_sampHead log_space _ _ s hs)
    (pointCount npts).toNat (initState E low high npts log_space m)
    ⟨0, rfl, fun _ => ⟨rfl, rfl⟩, fun h0 => absurd h0 (lt_irrefl _)⟩
  have hidx := (scan_exit_index E log_space critlim (decide (npts < 0))
    (pointCount npts).toNat (initState E low high npts log_space m)).1 s1 hs
  have hi0 : (initState E low high npts log_space m).i = 0 := rfl
  rw [hi0] at hidx
  have hN : ((pointCount npts).toNat : Int) = pointCount npts := by omega
  rcases hidx with ⟨hend, hncl⟩ | ⟨hcl, hlt⟩
  · have hncl' : ¬ closedExit critlim s1 := hncl (by omega)
    rcases hrule.1 s1 hs with ⟨⟨k, hk, _, hpos⟩, _⟩ | ⟨_, hcl⟩
    · have hkN : (k : Int) = pointCount npts := by rw [← hk, hend, hN]; ring
      obtain ⟨hlen, ht⟩ := hpos (by omega)
      obtain ⟨b, hfm, hib, hy2, htu, hrest⟩ := ht
      exact ⟨k - 1, b, by rw [hlen]; omega, by omega, ⟨b, hfm, hib, hy2, htu, hrest⟩,
        hfm, hib, htu, fun _ => by omega⟩
    · exact absurd hcl hncl'
  · rcases hrule.1 s1 hs with ⟨_, hend⟩ | ⟨⟨k, hk, hlen, ht⟩, _⟩
    · rw [hi0] at hend; omega
    · obtain ⟨b, hfm, hib, hy2, htu, hrest⟩ := ht
      refine ⟨k, b, hlen, by omega, ⟨b, hfm, hib, hy2, htu, hrest⟩, hfm, hib, htu, ?_⟩
      intro hf
      rw [hcl.2.2] at hf
      exact absurd hf (by simp)

/-! ## C14 -/

/-- C14. Which extension runs.  Let the range have at least two points and let the
scan be left towards line 111 (not by `return user_quit`), in the state `s1`.
Then `0 ≤ ibest ≤ npts - 1`; the right extension is entered (`turned_up = 0`)
exactly when `ibest = npts - 1`, the left extension (`turned_up` set and
`ibest = 0`) exactly when `ibest = 0`, and no extension exactly when
`0 < ibest < npts - 1`; `glob_min` then is the right extension loop, the left
extension loop, or `return 0`.  Moreover `ibest` is the first-minimum index of the
values of the grid points processed, and the right neighbour is not captured
exactly when all `npts` points were processed and the last value is strictly
smaller than every earlier one. -/
theorem extension_dispatch (fuel : Nat) (E : Env K) (low high : K) (npts : Int)
    (log_space : Bool) (critlim : K) (m : Bracket K) (s1 : State K)
    (hn : 2 ≤ pointCount npts)
    (hs : scan E log_space critlim (decide (npts < 0)) (pointCount npts).toNat
      (initState E low high npts log_space m) = ScanExit.finished s1) :
    (0 ≤ s1.ibest ∧ s1.ibest ≤ pointCount npts - 1) ∧
    (s1.turned_up = false ↔ s1.ibest = pointCount npts - 1) ∧
    ((s1.turned_up = true ∧ s1.ibest = 0) ↔ s1.ibest = 0) ∧
    ((s1.turned_up = true ∧ s1.ibest ≠ 0) ↔ (0 < s1.ibest ∧ s1.ibest < pointCount npts - 1)) ∧
    (s1.ibest = pointCount npts - 1 →
      glob_min fuel E low high npts log_space critlim m
        = extendRight E log_space fuel (neighbours log_space s1)) ∧
    (s1.ibest = 0 →
      glob_min fuel E low high npts log_space critlim m
        = extendLeft E log_space fuel (neighbours log_space s1)) ∧
    (0 < s1.ibest → s1.ibest < pointCount npts - 1 →
      glob_min fuel E low high npts log_space critlim m
        = Outcome.ret 0 (neighbours log_space s1)) ∧
    IsFirstMin (sampleAt (decide (npts < 0)) m.y2 s1.trace)
      ((samples (decide (npts < 0)) m.y2 s1.trace).length - 1) s1.ibest.toNat ∧
    (s1.turned_up = false ↔
      ((samples (decide (npts < 0)) m.y2 s1.trace).length = (pointCount npts).toNat ∧
        ∀ j, j + 1 < (pointCount npts).toNat →
          sampleAt (decide (npts < 0)) m.y2 s1.trace ((pointCount npts).toNat - 1)
            < sampleAt (decide (npts < 0)) m.y2 s1.trace j)) := by
  obtain ⟨k, b, hlen, hkN, _, hfm, hib, htu, hend⟩ :=
    scan_samples_end E low high npts log_space critlim m s1 hn hs
  have hbk : b ≤ k := hfm.1
  have htf : s1.turned_up = false ↔ ¬ b < k := by
    rw [← htu]; cases s1.turned_up <;> simp
  have hright : s1.turned_up = false ↔ s1.ibest = pointCount npts - 1 := by
    rw [hib]
    constructor
    · intro hf
      have h1 := hend hf
      have h2 := htf.mp hf
      omega
    · intro hb
      apply htf.mpr
      omega
  have hgm : glob_min fuel E low high npts log_space critlim m
      = extend E log_space fuel (neighbours log_space s1) := by
    unfold glob_min; rw [hs]
  have ntu : (neighbours log_space s1).turned_up = s1.turned_up := by rw [neighbours_eq]
  have nib : (neighbours log_space s1).ibest = s1.ibest := by rw [neighbours_eq]
  refine ⟨⟨by omega, by omega⟩, hright, ?_, ?_, ?_, ?_, ?_, ?_, ?_⟩
  · constructor
    · exact fun h => h.2
    · intro h0
      refine ⟨?_, h0⟩
      apply htu.mpr
      have : ¬ s1.turned_up = false := by rw [hright]; omega
      by_contra hcon
      have hcon' : ¬ b < k := hcon
      exact this (htf.mpr hcon')
  · constructor
    · rintro ⟨ht, hne⟩
      have := htu.mp ht
      omega
    · rintro ⟨hp, hlt⟩
      refine ⟨?_, by omega⟩
      cases hc : s1.turned_up with
      | true => rfl
      | false => exact absurd (hright.mp hc) (by omega)
  · intro hb
    rw [hgm]; unfold extend
    rw [if_pos (by rw [ntu]; exact hright.mpr hb)]
  · intro hb
    have ht : s1.turned_up = true := by
      cases hc : s1.turned_up with
      | true => rfl
      | false => exact absurd (hright.mp hc) (by omega)
    rw [hgm]; unfold extend
    rw [if_neg (by rw [ntu, ht]; simp), if_pos (by rw [nib]; exact hb)]
  · intro hp hlt
    have ht : s1.turned_up = true := by
      cases hc : s1.turned_up with
      | true => rfl
      | false => exact absurd (hright.mp hc) (by omega)
    rw [hgm]; unfold extend
    rw [if_neg (by rw [ntu, ht]; simp), if_neg (by rw [nib]; omega)]
  · rw [hlen, hib]
    simpa using hfm
  · constructor
    · intro hf
      have h1 := hend hf
      have h2 := htf.mp hf
      have hbeq : b = k := by omega
      have hkeq : k = (pointCount npts).toNat - 1 := by omega
      refine ⟨by rw [hlen]; omega, fun j hj => ?_⟩
      rw [← hkeq, ← hbeq]
      exact hfm.2.2 j (by omega)
    · rintro ⟨hl, hsm⟩
      have hkeq : k = (pointCount npts).toNat - 1 := by rw [hlen] at hl; omega
      have hfk : IsFirstMin (sampleAt (decide (npts < 0)) m.y2 s1.trace) k k := by
        refine ⟨le_refl _, fun j hj => ?_, fun j hj => ?_⟩
        · rcases Nat.lt_or_ge j k with hlt | hge
          · rw [hkeq]; exact le_of_lt (hsm j (by omega))
          · have : j = k := by omega
            rw [this]
        · rw [hkeq]; exact hsm j (by omega)
      have hbeq : b = k := isFirstMin_unique _ k b k hfm hfk
      apply htf.mpr
      omega

/-- The scan of `(x - 3)^2` on `[0, 1]` with three points ends with `ibest = 2`,
and the right extension is entered. -/
theorem extension_dispatch_witness :
    ((2 : Int) ≤ pointCount 3 ∧
      scan quadEnv false (-1) (decide ((3 : Int) < 0)) (pointCount 3).toNat
        (initState quadEnv 0 1 3 false ⟨0, 0, 0, 0, 0, 0⟩) = ScanExit.finished quadScanState) ∧
    quadScanState.ibest = pointCount 3 - 1 ∧
    glob_min 5 quadEnv 0 1 3 false (-1) ⟨0, 0, 0, 0, 0, 0⟩
      = extendRight quadEnv false 5 (neighbours false quadScanState) := by
  have hn : (2 : Int) ≤ pointCount 3 := by decide
  have hs : scan quadEnv false (-1) (decide ((3 : Int) < 0)) (pointCount 3).toNat
      (initState quadEnv 0 1 3 false ⟨0, 0, 0, 0, 0, 0⟩) = ScanExit.finished quadScanState := by
    norm_num [scan, scanBody, evalPoint, track, pollQuit, advance, initState, stepRate,
      pointCount, quadEnv, quadScanState]
  have hb : quadScanState.ibest = pointCount 3 - 1 := by decide
  exact ⟨⟨hn, hs⟩, hb,
    (extension_dispatch 5 quadEnv 0 1 3 false (-1) ⟨0, 0, 0, 0, 0, 0⟩ quadScanState
      hn hs).2.2.2.2.1 hb⟩

/-! ## Each point of the bracket was sampled with its own value -/

theorem val_mono (f : K → K) (know : Bool) (low y0 : K) (t t' : List (Event K)) (x y : K)
    (hm : ∀ z, z ∈ critXs t → z ∈ critXs t') (h : Val f know low y0 t x y) :
    Val f know low y0 t' x y := by
  rcases h with ⟨h1, h2⟩ | h
  · exact Or.inl ⟨h1, hm x h2⟩
  · exact Or.inr h

theorem critXs_scanBody_eval (E : Env K) (know : Bool) (s : State K)
    (h : s.i ≠ 0 ∨ know = false) :
    critXs (scanBody E know s).trace = critXs s.trace ++ [s.x] := by
  simp only [scanBody, evalPoint, pollQuit, track]
  rw [if_pos h]
  split_ifs <;> simp [critXs]

theorem critXs_scanBody_known (E : Env K) (know : Bool) (s : State K)
    (h : ¬ (s.i ≠ 0 ∨ know = false)) :
    critXs (scanBody E know s).trace = critXs s.trace := by
  simp only [scanBody, evalPoint, pollQuit, track]
  rw [if_neg h]
  split_ifs <;> simp [critXs]

theorem critXs_scanBody_mono (E : Env K) (know : Bool) (s : State K) (z : K)
    (h : z ∈ critXs s.trace) : z ∈ critXs (scanBody E know s).trace := by
  by_cases hc : s.i ≠ 0 ∨ know = false
  · rw [critXs_scanBody_eval E know s hc]
    exact List.mem_append_left _ h
  · rw [critXs_scanBody_known E know s hc]
    exact h

theorem critXs_probeRight_mono (E : Env K) (s : State K) (z : K)
    (h : z ∈ critXs s.trace) : z ∈ critXs (probeRight E s).trace := by
  obtain ⟨l, hl⟩ := critXs_probeRight E s
  rw [hl]
  exact List.mem_append_left _ h

theorem critXs_probeLeft_mono (E : Env K) (s : State K) (z : K)
    (h : z ∈ critXs s.trace) : z ∈ critXs (probeLeft E s).trace := by
  obtain ⟨l, hl⟩ := critXs_probeLeft E s
  rw [hl]
  exact List.mem_append_left _ h

theorem sampleY_val (E : Env K) (f : K → K) (know : Bool) (low y0 : K) (s : State K)
    (hf : ∀ t x, (E.criter t x).2 = f x) (h0 : s.i = 0 → s.x = low ∧ s.y2 = y0) :
    Val f know low y0 (scanBody E know s).trace s.x (sampleY E know s) := by
  by_cases hc : s.i ≠ 0 ∨ know = false
  · left
    constructor
    · simp only [sampleY, evalPoint]
      rw [if_pos hc]
      exact hf _ _
    · rw [critXs_scanBody_eval E know s hc]
      simp
  · right
    rw [sampleY_known E know s hc]
    push_neg at hc
    obtain ⟨hz, hk⟩ := hc
    have hk' : know = true := by simpa using hk
    exact ⟨hk', (h0 hz).1, (h0 hz).2⟩

theorem track_valBody (f : K → K) (know : Bool) (low y0 : K) (t : List (Event K))
    (s : State K) (y : K) (h : ValHead f know low y0 s)
    (hm : ∀ z, z ∈ critXs s.trace → z ∈ critXs t) (hy : Val f know low y0 t s.x y) :
    ValBodyAt f know low y0 t (track s y) := by
  obtain ⟨hi, h0, hpos⟩ := h
  unfold track
  by_cases h1 : s.i = 0 ∨ y < s.y2
  · rw [if_pos h1]
    refine ⟨hi, ⟨hy, fun hp => ?_, fun hf => by simp at hf⟩, hy, ?_⟩
    · have hp' : 0 < s.i := hp
      exact val_mono f know low y0 _ t _ _ hm (hpos hp').2.1
    · show s.x = s.x + ((s.i - s.i : Int) : K) * s.rate
      simp
  · rw [if_neg h1]
    push_neg at h1
    have hp : 0 < s.i := lt_of_le_of_ne hi (Ne.symm h1.1)
    obtain ⟨⟨c1, c2, c3⟩, _, hx⟩ := hpos hp
    have d1 := val_mono f know low y0 _ t _ _ hm c1
    have d2 := fun hb => val_mono f know low y0 _ t _ _ hm (c2 hb)
    have d3 := fun hb => val_mono f know low y0 _ t _ _ hm (c3 hb)
    by_cases h2 : s.i = s.ibest + 1
    · rw [if_pos h2]
      refine ⟨hi, ⟨d1, d2, fun _ => ?_⟩, hy, hx⟩
      show Val f know low y0 t (s.x2 + s.rate) y
      have : s.x = s.x2 + s.rate := by
        rw [hx, h2]; simp
      rw [← this]; exact hy
    · rw [if_neg h2]
      exact ⟨hi, ⟨d1, d2, d3⟩, hy, hx⟩

theorem scanBody_valBody (E : Env K) (f : K → K) (know : Bool) (low y0 : K) (s : State K)
    (hf : ∀ t x, (E.criter t x).2 = f x) (h : ValHead f know low y0 s) :
    ValBody f know low y0 (scanBody E know s) := by
  have h1 := track_valBody f know low y0 (scanBody E know s).trace s (sampleY E know s) h
    (critXs_scanBody_mono E know s) (sampleY_val E f know low y0 s hf h.2.1)
  unfold ValBody
  generalize (scanBody E know s).trace = t at h1 ⊢
  rw [scanBody_track]
  exact h1

theorem advance_valHead (f : K → K) (know : Bool) (low y0 : K) (s : State K)
    (h : ValBody f know low y0 s) : ValHead f know low y0 (advance false s) := by
  obtain ⟨hi, hc, hp, hx⟩ := h
  have e : advance false s = { s with x := s.x + s.rate, i := s.i + 1 } := by
    simp [advance]
  rw [e]
  refine ⟨by show 0 ≤ s.i + 1; omega, fun h0 => ?_, fun _ => ⟨hc, ?_, ?_⟩⟩
  · have : s.i + 1 = 0 := h0
    omega
  · show Val f know low y0 s.trace (s.x + s.rate - s.rate) s.previous
    have : s.x + s.rate - s.rate = s.x := by ring
    rw [this]; exact hp
  · show s.x + s.rate = s.x2 + ((s.i + 1 - s.ibest : Int) : K) * s.rate
    rw [hx]; push_cast; ring

theorem probeRight_val (E : Env K) (f : K → K) (know : Bool) (low y0 : K) (s : State K)
    (hf : ∀ t x, (E.criter t x).2 = f x) (hq : (probeRight E s).user_quit = 0) :
    Val f know low y0 (probeRight E s).trace s.x3 (probeRight E s).y3 := by
  left
  simp only [probeRight] at hq ⊢
  split_ifs at hq ⊢ with h0
  · exact ⟨hf _ _, by simp [critXs]⟩
  · exact absurd hq h0

theorem probeLeft_val (E : Env K) (f : K → K) (know : Bool) (low y0 : K) (s : State K)
    (hf : ∀ t x, (E.criter t x).2 = f x) (hq : (probeLeft E s).user_quit = 0) :
    Val f know low y0 (probeLeft E s).trace s.x1 (probeLeft E s).y1 := by
  left
  simp only [probeLeft] at hq ⊢
  split_ifs at hq ⊢ with h0
  · exact ⟨hf _ _, by simp [critXs]⟩
  · exact absurd hq h0

/-! ## C17 -/

/-- C17. Bracket consistency.  On a valid linear range, for a criterion whose
value is a function `f` of `x`, whenever `glob_min` returns 0 each point of the
bracket was sampled in this call with its own value: `y1 = f(x1)`, `y2 = f(x2)`,
`y3 = f(x3)`, each `x` being an abscissa at which the criterion was evaluated;
for `npts < 0` the point `x = low` may carry the value supplied in `*y2` instead.
So the 0.0 stored into `y1` when the best point is the first sample is never
returned with a 0. -/
theorem bracket_consistency (fuel : Nat) (E : Env K) (f : K → K) (low high : K) (npts : Int)
    (critlim : K) (m : Bracket K) (s : State K)
    (hlh : low < high) (hn : 2 ≤ pointCount npts)
    (hf : ∀ t x, (E.criter t x).2 = f x)
    (h : glob_min fuel E low high npts false critlim m = Outcome.ret 0 s) :
    ((s.y1 = f s.x1 ∧ s.x1 ∈ critXs s.trace) ∨ (npts < 0 ∧ s.x1 = low ∧ s.y1 = m.y2)) ∧
    ((s.y2 = f s.x2 ∧ s.x2 ∈ critXs s.trace) ∨ (npts < 0 ∧ s.x2 = low ∧ s.y2 = m.y2)) ∧
    ((s.y3 = f s.x3 ∧ s.x3 ∈ critXs s.trace) ∨ (npts < 0 ∧ s.x3 = low ∧ s.y3 = m.y2)) := by
  have key : Val f (decide (npts < 0)) low m.y2 s.trace s.x1 s.y1 ∧
      Val f (decide (npts < 0)) low m.y2 s.trace s.x2 s.y2 ∧
      Val f (decide (npts < 0)) low m.y2 s.trace s.x3 s.y3 := by
    rcases glob_min_ret fuel E low high npts false critlim m 0 s h with ⟨ha, hc⟩ | ⟨s1, hs, he⟩
    · exact absurd hc.symm (scan_aborted_quit E false critlim _ _ _ s ha)
    · obtain ⟨e0, e1, _, _, _, _⟩ :=
        scan_end E low high npts false critlim m hlh hn (fun hl => by simp at hl) s1 hs
      have hrule := scan_rule E false critlim (decide (npts < 0))
        (ValHead f (decide (npts < 0)) low m.y2) (ValBody f (decide (npts < 0)) low m.y2)
        (fun s hs => scanBody_valBody E f _ low m.y2 s hf hs)
        (fun s hs _ _ => advance_valHead f _ low m.y2 s hs)
        (pointCount npts).toNat (initState E low high npts false m)
        ⟨le_refl _, fun _ => ⟨rfl, rfl⟩, fun h0 => absurd h0 (lt_irrefl _)⟩
      have hcore : ValCore f (decide (npts < 0)) low m.y2 s1.trace s1 := by
        rcases hrule.1 s1 hs with ⟨⟨_, _, hpos⟩, hi⟩ | ⟨⟨_, hc, _⟩, _⟩
        · apply (hpos _).1
          rw [hi]
          show (0 : Int) < 0 + ((pointCount npts).toNat : Int)
          omega
        · exact hc
      obtain ⟨c1, c2, c3⟩ := hcore
      have nx1 : (neighbours false s1).x1 = s1.x2 - s1.rate := by simp [neighbours]
      have nx3 : (neighbours false s1).x3 = s1.x2 + s1.rate := by simp [neighbours]
      have neq := neighbours_eq false s1
      rcases extend_ret E false fuel _ 0 s he with ⟨ht, hx⟩ | ⟨ht, hb, hx⟩ | ⟨ht, hb, _, hx⟩
      · -- right extension
        have ht1 : s1.turned_up = false := by rw [neq] at ht; exact ht
        obtain ⟨s0, ⟨i1, i2⟩, hs0, hret⟩ := (extendRight_rule E false
          (fun t => Val f (decide (npts < 0)) low m.y2 t.trace t.x1 t.y1 ∧
            Val f (decide (npts < 0)) low m.y2 t.trace t.x2 t.y2)
          (fun t ht hq _ _ => by
            have a1 : (probeRight E t).x2 = t.x2 := by rw [probeRight_eq]
            have a2 : (probeRight E t).y2 = t.y2 := by rw [probeRight_eq]
            have a3 : (probeRight E t).x3 = t.x3 := by rw [probeRight_eq]
            rw [shiftRight_eq]
            refine ⟨?_, ?_⟩
            · show Val f _ low m.y2 (probeRight E t).trace (probeRight E t).x2
                (probeRight E t).y2
              rw [a1, a2]
              exact val_mono f _ low m.y2 _ _ _ _ (critXs_probeRight_mono E t) ht.2
            · show Val f _ low m.y2 (probeRight E t).trace (probeRight E t).x3
                (probeRight E t).y3
              rw [a3]
              exact probeRight_val E f _ low m.y2 t hf hq)
          fuel _ ⟨by rw [nx1, neq]; exact c2 (e1 ht1), by rw [neq]; exact c1⟩).1 0 s hx
        have b1 : (probeRight E s0).x1 = s0.x1 := by rw [probeRight_eq]
        have b2 : (probeRight E s0).y1 = s0.y1 := by rw [probeRight_eq]
        have b3 : (probeRight E s0).x2 = s0.x2 := by rw [probeRight_eq]
        have b4 : (probeRight E s0).y2 = s0.y2 := by rw [probeRight_eq]
        have b5 : (probeRight E s0).x3 = s0.x3 := by rw [probeRight_eq]
        rcases hret with ⟨hne, _⟩ | ⟨_, hq, _⟩
        · exact absurd rfl hne
        · rw [hs0] at hq
          rw [hs0, b1, b2, b3, b4, b5]
          exact ⟨val_mono f _ low m.y2 _ _ _ _ (critXs_probeRight_mono E s0) i1,
            val_mono f _ low m.y2 _ _ _ _ (critXs_probeRight_mono E s0) i2,
            probeRight_val E f _ low m.y2 s0 hf hq⟩
      · -- left extension
        have ht1 : s1.turned_up = true := by rw [neq] at ht; exact ht
        obtain ⟨s0, ⟨i2, i3⟩, hs0, hret⟩ := (extendLeft_rule E false
          (fun t => Val f (decide (npts < 0)) low m.y2 t.trace t.x2 t.y2 ∧
            Val f (decide (npts < 0)) low m.y2 t.trace t.x3 t.y3)
          (fun t ht hq _ _ => by
            have a1 : (probeLeft E t).x2 = t.x2 := by rw [probeLeft_eq]
            have a2 : (probeLeft E t).y2 = t.y2 := by rw [probeLeft_eq]
            have a3 : (probeLeft E t).x1 = t.x1 := by rw [probeLeft_eq]
            rw [shiftLeft_eq]
            refine ⟨?_, ?_⟩
            · show Val f _ low m.y2 (probeLeft E t).trace (probeLeft E t).x1
                (probeLeft E t).y1
              rw [a3]
              exact probeLeft_val E f _ low m.y2 t hf hq
            · show Val f _ low m.y2 (probeLeft E t).trace (probeLeft E t).x2
                (probeLeft E t).y2
              rw [a1, a2]
              exact val_mono f _ low m.y2 _ _ _ _ (critXs_probeLeft_mono E t) ht.1)
          fuel _ ⟨by rw [neq]; exact c1, by rw [nx3, neq]; exact c3 ht1⟩).1 0 s hx
        have b1 : (probeLeft E s0).x1 = s0.x1 := by rw [probeLeft_eq]
        have b3 : (probeLeft E s0).x2 = s0.x2 := by rw [probeLeft_eq]
        have b4 : (probeLeft E s0).y2 = s0.y2 := by rw [probeLeft_eq]
        have b5 : (probeLeft E s0).x3 = s0.x3 := by rw [probeLeft_eq]
        have b6 : (probeLeft E s0).y3 = s0.y3 := by rw [probeLeft_eq]
        rcases hret with ⟨hne, _⟩ | ⟨_, hq, _⟩
        · exact absurd rfl hne
        · rw [hs0] at hq
          rw [hs0, b1, b3, b4, b5, b6]
          exact ⟨probeLeft_val E f _ low m.y2 s0 hf hq,
            val_mono f _ low m.y2 _ _ _ _ (critXs_probeLeft_mono E s0) i2,
            val_mono f _ low m.y2 _ _ _ _ (critXs_probeLeft_mono E s0) i3⟩
      · -- no extension
        have ht1 : s1.turned_up = true := by rw [neq] at ht; exact ht
        have hb1 : s1.ibest ≠ 0 := by rw [neq] at hb; exact hb
        have hp : 0 < s1.ibest := lt_of_le_of_ne e0 (Ne.symm hb1)
        rw [hx]
        refine ⟨by rw [nx1, neq]; exact c2 hp, by rw [neq]; exact c1,
          by rw [nx3, neq]; exact c3 ht1⟩
  obtain ⟨k1, k2, k3⟩ := key
  have conv : ∀ x y, Val f (decide (npts < 0)) low m.y2 s.trace x y →
      ((y = f x ∧ x ∈ critXs s.trace) ∨ (npts < 0 ∧ x = low ∧ y = m.y2)) := by
    intro x y hv
    rcases hv with hv | ⟨hk, hx, hy⟩
    · exact Or.inl hv
    · exact Or.inr ⟨by simpa using hk, hx, hy⟩
  exact ⟨conv _ _ k1, conv _ _ k2, conv _ _ k3⟩

/-- A run to which `bracket_consistency` applies: the best sample is the first one,
so the scan leaves `y1 = 0.0`, and the left extension replaces it. -/
theorem bracket_consistency_witness :
    glob_min 5 quadEnv 4 6 3 false (-1) ⟨0, 0, 0, 0, 0, 0⟩ = Outcome.ret 0 leftRunState ∧
    (((leftRunState.y1 = (leftRunState.x1 - 3) * (leftRunState.x1 - 3) ∧
          leftRunState.x1 ∈ critXs leftRunState.trace) ∨
        ((3 : Int) < 0 ∧ leftRunState.x1 = 4 ∧ leftRunState.y1 = 0)) ∧
      ((leftRunState.y2 = (leftRunState.x2 - 3) * (leftRunState.x2 - 3) ∧
          leftRunState.x2 ∈ critXs leftRunState.trace) ∨
        ((3 : Int) < 0 ∧ leftRunState.x2 = 4 ∧ leftRunState.y2 = 0)) ∧
      ((leftRunState.y3 = (leftRunState.x3 - 3) * (leftRunState.x3 - 3) ∧
          leftRunState.x3 ∈ critXs leftRunState.trace) ∨
        ((3 : Int) < 0 ∧ leftRunState.x3 = 4 ∧ leftRunState.y3 = 0))) := by
  have h : glob_min 5 quadEnv 4 6 3 false (-1) ⟨0, 0, 0, 0, 0, 0⟩ =
      Outcome.ret 0 leftRunState := by
    norm_num [glob_min, scan, scanBody, evalPoint, track, pollQuit, advance, initState,
      stepRate, pointCount, neighbours, extend, extendLeft, probeLeft, shiftLeft, flat,
      quadEnv, leftRunState]
  exact ⟨h, bracket_consistency 5 quadEnv (fun x => (x - 3) * (x - 3)) 4 6 3 (-1)
    ⟨0, 0, 0, 0, 0, 0⟩ leftRunState (by norm_num) (by decide) (fun _ _ => rfl) h⟩

/-! ## No abscissa is evaluated twice -/

theorem critXs_scanBody_cases (E : Env K) (know : Bool) (s : State K) :
    ∃ l, critXs (scanBody E know s).trace = critXs s.trace ++ l ∧ (l = [] ∨ l = [s.x]) := by
  by_cases hc : s.i ≠ 0 ∨ know = false
  · exact ⟨[s.x], critXs_scanBody_eval E know s hc, Or.inr rfl⟩
  · exact ⟨[], by rw [critXs_scanBody_known E know s hc]; simp, Or.inl rfl⟩

theorem critXs_probeRight_cases (E : Env K) (s : State K) :
    ∃ l, critXs (probeRight E s).trace = critXs s.trace ++ l ∧ (l = [] ∨ l = [s.x3]) := by
  simp only [probeRight]
  split_ifs
  · exact ⟨[s.x3], by simp [critXs], Or.inr rfl⟩
  · exact ⟨[], by simp [critXs], Or.inl rfl⟩

theorem critXs_probeLeft_cases (E : Env K) (s : State K) :
    ∃ l, critXs (probeLeft E s).trace = critXs s.trace ++ l ∧ (l = [] ∨ l = [s.x1]) := by
  simp only [probeLeft]
  split_ifs
  · exact ⟨[s.x1], by simp [critXs], Or.inr rfl⟩
  · exact ⟨[], by simp [critXs], Or.inl rfl⟩

theorem scanBody_lineBody (E : Env K) (know : Bool) (low r : K) (s : State K) (hr : 0 < r)
    (h : LineHead low r s) : LineBody low r (scanBody E know s) := by
  obtain ⟨hi, hrate, hx, hx2, hnd, hb, hc⟩ := h
  have hlx : low ≤ s.x := by
    rw [hx]
    have : (0 : K) ≤ (s.i : K) := by exact_mod_cast hi
    nlinarith
  obtain ⟨l, hl, hcase⟩ := critXs_scanBody_cases E know s
  refine ⟨by rw [scanBody_i]; exact hi, by rw [scanBody_rate]; exact hrate,
    by rw [scanBody_x, scanBody_i]; exact hx, ?_, ?_, ?_, ?_⟩
  · rw [scanBody_x2, scanBody_ibest]
    unfold track
    split_ifs with h1 h2
    · exact hx
    · push_neg at h1
      exact hx2 (lt_of_le_of_ne hi (Ne.symm h1.1))
    · push_neg at h1
      exact hx2 (lt_of_le_of_ne hi (Ne.symm h1.1))
  · rw [hl]
    rcases hcase with rfl | rfl
    · simpa using hnd
    · rw [List.nodup_append]
      refine ⟨hnd, List.nodup_singleton _, ?_⟩
      intro z hz hz'
      simp at hz'
      subst hz'
      have := (hb _ hz).2
      linarith
  · intro x hxm
    rw [hl] at hxm
    rw [scanBody_x]
    rcases List.mem_append.mp hxm with h1 | h1
    · have := hb x h1
      exact ⟨this.1, by linarith⟩
    · rcases hcase with rfl | rfl
      · simp at h1
      · simp at h1
        subst h1
        exact ⟨hlx, le_refl _⟩
  · rw [hl, scanBody_i]
    rcases hcase with rfl | rfl
    · simp; omega
    · simp; omega

theorem advance_lineHead (low r : K) (s : State K) (h : LineBody low r s) :
    LineHead low r (advance false s) := by
  obtain ⟨hi, hrate, hx, hx2, hnd, hb, hc⟩ := h
  have e : advance false s = { s with x := s.x + s.rate, i := s.i + 1 } := by
    simp [advance]
  rw [e]
  refine ⟨by show 0 ≤ s.i + 1; omega, hrate, ?_, fun _ => hx2, hnd, ?_, hc⟩
  · show s.x + s.rate = low + ((s.i + 1 : Int) : K) * r
    rw [hx, hrate]; push_cast; ring
  · intro x hxm
    show low ≤ x ∧ x + r ≤ s.x + s.rate
    have := hb x hxm
    rw [hrate]
    exact ⟨this.1, by linarith⟩

/-- What the scan of a valid linear range leaves: distinct abscissas in
`[low, high]`, at most `npts` of them, and the best point on the grid; at `high`
when its right neighbour is missing. -/
theorem scan_line (E : Env K) (low high : K) (npts : Int) (critlim : K) (m : Bracket K)
    (hlh : low < high) (hn : 2 ≤ pointCount npts) (s1 : State K)
    (h : (scan E false critlim (decide (npts < 0)) (pointCount npts).toNat
      (initState E low high npts false m)).state = s1) :
    (critXs s1.trace).Nodup ∧ (∀ x ∈ critXs s1.trace, low ≤ x ∧ x ≤ high) ∧
    (critXs s1.trace).length ≤ (pointCount npts).toNat ∧
    (scan E false critlim (decide (npts < 0)) (pointCount npts).toNat
      (initState E low high npts false m) = ScanExit.finished s1 →
      s1.rate = stepRate E low high npts false ∧ 0 < s1.rate ∧
      (s1.turned_up = false → s1.x2 = high) ∧ (s1.ibest = 0 → s1.x2 = low)) := by
  have hr : 0 < stepRate E low high npts false :=
    (stepRate_good E low high npts false hlh hn (fun hl => by simp at hl)).2 rfl
  have hc0 : (0 : K) < ((pointCount npts - 1 : Int) : K) := by
    have : (0 : Int) < pointCount npts - 1 := by omega
    exact_mod_cast this
  have hhigh : low + ((pointCount npts - 1 : Int) : K) * stepRate E low high npts false
      = high := by
    have e : stepRate E low high npts false =
        (high - low) / ((pointCount npts - 1 : Int) : K) := rfl
    have hne := ne_of_gt hc0
    rw [e, mul_div_cancel₀ _ hne]
    ring
  have hN : ((pointCount npts).toNat : Int) = pointCount npts := Int.toNat_of_nonneg (by omega)
  have hrule := scan_rule E false critlim (decide (npts < 0))
    (fun s => HeadY s ∧ LineHead low (stepRate E low high npts false) s)
    (fun s => BodyY s ∧ LineBody low (stepRate E low high npts false) s)
    (fun s hs => ⟨scanBody_bodyY E _ s hs.1, scanBody_lineBody E _ low _ s hr hs.2⟩)
    (fun s hs _ _ => ⟨advance_headY false s hs.1, advance_lineHead low _ s hs.2⟩)
    (pointCount npts).toNat (initState E low high npts false m)
    ⟨⟨le_refl _, fun h0 => absurd h0 (lt_irrefl _)⟩,
      ⟨le_refl _, rfl, by simp [initState], fun h0 => absurd h0 (lt_irrefl _),
        List.nodup_nil, fun x hx => by simp [initState, critXs] at hx, le_refl _⟩⟩
  have hidx := scan_exit_index E false critlim (decide (npts < 0)) (pointCount npts).toNat
    (initState E low high npts false m)
  have hi0 : (initState E low high npts false m).i = 0 := rfl
  -- the facts after the body of an iteration of index below `npts`
  have body : ∀ s : State K, BodyY s ∧ LineBody low (stepRate E low high npts false) s →
      s.i < pointCount npts →
      (critXs s.trace).Nodup ∧ (∀ x ∈ critXs s.trace, low ≤ x ∧ x ≤ high) ∧
      (critXs s.trace).length ≤ (pointCount npts).toNat := by
    intro s hs hlt
    obtain ⟨_, _, _, hx, _, hnd, hb, hc⟩ := hs
    have hle : (s.i : K) ≤ ((pointCount npts - 1 : Int) : K) := by
      have : s.i ≤ pointCount npts - 1 := by omega
      exact_mod_cast this
    refine ⟨hnd, fun x hxm => ?_, by omega⟩
    have := hb x hxm
    refine ⟨this.1, ?_⟩
    have h2 : s.x ≤ high := by
      rw [hx]
      have := mul_le_mul_of_nonneg_right hle (le_of_lt hr)
      linarith
    linarith
  cases hsc : scan E false critlim (decide (npts < 0)) (pointCount npts).toNat
      (initState E low high npts false m) with
  | aborted s =>
    rw [hsc] at h
    have hs : s = s1 := h
    subst hs
    obtain ⟨hB, _, _⟩ := hrule.2 s hsc
    have hlt := hidx.2 s hsc
    rw [hi0] at hlt
    obtain ⟨b1, b2, b3⟩ := body s hB (by omega)
    exact ⟨b1, b2, b3, fun hf => by simp at hf⟩
  | finished s =>
    rw [hsc] at h
    have hs : s = s1 := h
    subst hs
    rcases hrule.1 s hsc with ⟨⟨⟨_, hY⟩, _, hrate, hx, hx2, hnd, hb, hc⟩, hi⟩ |
      ⟨⟨hY, hL⟩, hcl⟩
    · rw [hi0] at hi
      have hipos : 0 < s.i := by omega
      obtain ⟨_, hble, htu, _⟩ := hY hipos
      have hx2' := hx2 hipos
      have hiK : (s.i : K) = ((pointCount npts - 1 : Int) : K) + 1 := by
        have : s.i = (pointCount npts - 1) + 1 := by omega
        rw [this]; push_cast; ring
      refine ⟨hnd, fun x hxm => ?_, by omega, fun _ => ⟨hrate, by rw [hrate]; exact hr, ?_, ?_⟩⟩
      · have := hb x hxm
        refine ⟨this.1, ?_⟩
        have h2 := this.2
        rw [hx, hiK] at h2
        linarith
      · intro hf
        have hnb : ¬ s.ibest < s.i - 1 := by
          intro hlt
          have := htu.mpr hlt
          rw [hf] at this
          exact absurd this (by simp)
        have hib : s.ibest = pointCount npts - 1 := by omega
        rw [hx2', hib]
        exact hhigh
      · intro hz
        rw [hx2', hz]; simp
    · have hlt : s.i < pointCount npts := by
        rcases hidx.1 s hsc with ⟨hi, hnc⟩ | ⟨_, hlt⟩
        · exact absurd hcl (hnc (by omega))
        · rw [hi0] at hlt; omega
      obtain ⟨b1, b2, b3⟩ := body s ⟨hY, hL⟩ hlt
      obtain ⟨_, hrate, _, hx2, _⟩ := hL
      refine ⟨b1, b2, b3, fun _ => ⟨hrate, by rw [hrate]; exact hr, fun hf => ?_, fun hz => ?_⟩⟩
      · have := hcl.2.2
        rw [hf] at this
        exact absurd this (by simp)
      · rw [hx2, hz]; simp

theorem rightPoint_succ (high r : K) (j : Nat) :
    rightPoint high r j + r * 3 ^ j * 3 = rightPoint high r (j + 1) := by
  unfold rightPoint
  rw [pow_succ, pow_succ, pow_succ]
  ring

theorem leftPoint_succ (low r : K) (j : Nat) :
    leftPoint low r j - r * 3 ^ j * 3 = leftPoint low r (j + 1) := by
  unfold leftPoint
  rw [pow_succ, pow_succ, pow_succ]
  ring

theorem rightPoint_gt (high r : K) (j : Nat) (hr : 0 < r) : high < rightPoint high r j := by
  unfold rightPoint
  have h3 : (1 : K) < 3 ^ (j + 1) := one_lt_pow₀ (by norm_num) (by omega)
  have : 0 < r * (3 ^ (j + 1) - 1) := mul_pos hr (by linarith)
  linarith

theorem probeRight_evaluated (E : Env K) (s : State K)
    (h : (probeRight E s).user_quit = 0) :
    critXs (probeRight E s).trace = critXs s.trace ++ [s.x3] := by
  simp only [probeRight] at h ⊢
  split_ifs at h ⊢ with h0
  · simp [critXs]
  · exact absurd h h0

theorem probeLeft_evaluated (E : Env K) (s : State K)
    (h : (probeLeft E s).user_quit = 0) :
    critXs (probeLeft E s).trace = critXs s.trace ++ [s.x1] := by
  simp only [probeLeft] at h ⊢
  split_ifs at h ⊢ with h0
  · simp [critXs]
  · exact absurd h h0

theorem shiftRight_geo (E : Env K) (high r : K) (grid : List K) (j : Nat) (s : State K)
    (h : RightGeo high r grid j s) (hq : (probeRight E s).user_quit = 0) :
    RightGeo high r grid (j + 1) (shiftRight false (probeRight E s)) := by
  obtain ⟨ht, hx, hr⟩ := h
  have a1 : (probeRight E s).x3 = s.x3 := by rw [probeRight_eq]
  have a2 : (probeRight E s).rate = s.rate := by rw [probeRight_eq]
  have e3 : (shiftRight false (probeRight E s)).x3 = s.x3 + s.rate * 3 := by
    simp [shiftRight, a1, a2]
  have et : (shiftRight false (probeRight E s)).trace = (probeRight E s).trace := by
    rw [shiftRight_eq]
  have er : (shiftRight false (probeRight E s)).rate = s.rate * 3 := by
    rw [shiftRight_eq]; exact congrArg (fun z => z * 3) a2
  refine ⟨?_, ?_, ?_⟩
  · rw [et, probeRight_evaluated E s hq, ht, List.range_succ, List.map_append,
      List.append_assoc, hx]
    rfl
  · rw [e3, hx, hr]
    exact rightPoint_succ high r j
  · rw [er, hr, pow_succ]
    ring

theorem shiftLeft_geo (E : Env K) (low r : K) (grid : List K) (j : Nat) (s : State K)
    (h : LeftGeo low r grid j s) (hq : (probeLeft E s).user_quit = 0) :
    LeftGeo low r grid (j + 1) (shiftLeft false (probeLeft E s)) := by
  obtain ⟨ht, hx, hr⟩ := h
  have a1 : (probeLeft E s).x1 = s.x1 := by rw [probeLeft_eq]
  have a2 : (probeLeft E s).rate = s.rate := by rw [probeLeft_eq]
  have e3 : (shiftLeft false (probeLeft E s)).x1 = s.x1 - s.rate * 3 := by
    simp [shiftLeft, a1, a2]
  have et : (shiftLeft false (probeLeft E s)).trace = (probeLeft E s).trace := by
    rw [shiftLeft_eq]
  have er : (shiftLeft false (probeLeft E s)).rate = s.rate * 3 := by
    rw [shiftLeft_eq]; exact congrArg (fun z => z * 3) a2
  refine ⟨?_, ?_, ?_⟩
  · rw [et, probeLeft_evaluated E s hq, ht, List.range_succ, List.map_append,
      List.append_assoc, hx]
    rfl
  · rw [e3, hx, hr]
    exact leftPoint_succ low r j
  · rw [er, hr, pow_succ]
    ring

/-- Wherever the right extension is left, it has evaluated the criterion at the
first `j` points of `rightPoint`, for some `j`. -/
theorem extendRight_geo (E : Env K) (high r : K) (grid : List K) (n : Nat) (s : State K)
    (h : ∃ j, RightGeo high r grid j s) :
    ∃ j, critXs (extendRight E false n s).final.trace =
      grid ++ List.map (rightPoint high r) (List.range j) := by
  have hrule := extendRight_rule E false (fun t => ∃ j, RightGeo high r grid j t)
    (fun t ht hq _ _ => by
      obtain ⟨j, hj⟩ := ht
      exact ⟨j + 1, shiftRight_geo E high r grid j t hj hq⟩) n s h
  cases ho : extendRight E false n s with
  | ret c s' =>
    obtain ⟨s0, ⟨j, ht, hx, _⟩, hs', _⟩ := hrule.1 c s' ho
    show ∃ j, critXs s'.trace = grid ++ List.map (rightPoint high r) (List.range j)
    obtain ⟨l, hl, hcase⟩ := critXs_probeRight_cases E s0
    rw [hs', hl, ht]
    rcases hcase with rfl | rfl
    · exact ⟨j, by simp⟩
    · exact ⟨j + 1, by rw [List.range_succ, List.map_append, List.append_assoc, hx]; rfl⟩
  | timeout s' =>
    obtain ⟨j, ht, _⟩ := hrule.2 s' ho
    exact ⟨j, ht⟩

/-- Wherever the left extension is left, it has evaluated the criterion at the
first `j` points of `leftPoint`, for some `j`. -/
theorem extendLeft_geo (E : Env K) (low r : K) (grid : List K) (n : Nat) (s : State K)
    (h : ∃ j, LeftGeo low r grid j s) :
    ∃ j, critXs (extendLeft E false n s).final.trace =
      grid ++ List.map (leftPoint low r) (List.range j) := by
  have hrule := extendLeft_rule E false (fun t => ∃ j, LeftGeo low r grid j t)
    (fun t ht hq _ _ => by
      obtain ⟨j, hj⟩ := ht
      exact ⟨j + 1, shiftLeft_geo E low r grid j t hj hq⟩) n s h
  cases ho : extendLeft E false n s with
  | ret c s' =>
    obtain ⟨s0, ⟨j, ht, hx, _⟩, hs', _⟩ := hrule.1 c s' ho
    show ∃ j, critXs s'.trace = grid ++ List.map (leftPoint low r) (List.range j)
    obtain ⟨l, hl, hcase⟩ := critXs_probeLeft_cases E s0
    rw [hs', hl, ht]
    rcases hcase with rfl | rfl
    · exact ⟨j, by simp⟩
    · exact ⟨j + 1, by rw [List.range_succ, List.map_append, List.append_assoc, hx]; rfl⟩
  | timeout s' =>
    obtain ⟨j, ht, _⟩ := hrule.2 s' ho
    exact ⟨j, ht⟩

theorem probeRight_quiet (E : Env K) (f : K → K) (s : State K) (hq : Quiet E)
    (hf : ∀ t x, (E.criter t x).2 = f x) :
    (probeRight E s).user_quit = 0 ∧ (probeRight E s).y3 = f s.x3 := by
  obtain ⟨hc, hp⟩ := hq
  simp only [probeRight]
  rw [if_pos (hp _)]
  exact ⟨hc _ _, hf _ _⟩

/-- The right extension of a criterion `f` that never asks to stop: when the
value of index `j + d` is the first to rise above the best value and no flat stop
comes before, the loop returns 0 at that evaluation. -/
theorem extendRight_first_rise (E : Env K) (f : K → K) (high r : K) (grid : List K)
    (y1 y2 : K) (hq : Quiet E) (hf : ∀ t x, (E.criter t x).2 = f x) :
    ∀ (d j : Nat) (t : State K), RightGeo high r grid j t →
      t.y1 = rightVals f high r y1 y2 j → t.y2 = rightVals f high r y1 y2 (j + 1) →
      (∀ i, j ≤ i → i < j + d →
        ¬ rightVals f high r y1 y2 (i + 2) > rightVals f high r y1 y2 (i + 1) ∧
        ¬ (rightVals f high r y1 y2 i = rightVals f high r y1 y2 (i + 1) ∧
          rightVals f high r y1 y2 (i + 1) = rightVals f high r y1 y2 (i + 2))) →
      rightVals f high r y1 y2 (j + d + 2) > rightVals f high r y1 y2 (j + d + 1) →
      ∀ extra, ∃ s, extendRight E false (d + 1 + extra) t = Outcome.ret 0 s ∧
        s.x3 = rightPoint high r (j + d) ∧ s.y2 < s.y3 ∧
        critXs s.trace = grid ++ List.map (rightPoint high r) (List.range (j + d + 1)) := by
  intro d
  induction d with
  | zero =>
    intro j t hg h1 h2 _ hrise extra
    obtain ⟨hu, hy⟩ := probeRight_quiet E f t hq hf
    have a3 : (probeRight E t).x3 = t.x3 := by rw [probeRight_eq]
    have a2 : (probeRight E t).y2 = t.y2 := by rw [probeRight_eq]
    have hgt : (probeRight E t).y3 > (probeRight E t).y2 := by
      rw [hy, a2, h2, hg.2.1]
      exact hrise
    refine ⟨probeRight E t, ?_, by rw [a3]; exact hg.2.1, hgt, ?_⟩
    · have e : 0 + 1 + extra = extra + 1 := by omega
      rw [e]
      simp only [extendRight]
      rw [if_neg (by rw [hu]; simp), if_pos hgt]
    · rw [probeRight_evaluated E t hu, hg.1, List.range_succ, List.map_append,
        List.append_assoc, hg.2.1]
      rfl
  | succ d ih =>
    intro j t hg h1 h2 hno hrise extra
    obtain ⟨hu, hy⟩ := probeRight_quiet E f t hq hf
    have a1 : (probeRight E t).y1 = t.y1 := by rw [probeRight_eq]
    have a2 : (probeRight E t).y2 = t.y2 := by rw [probeRight_eq]
    obtain ⟨n1, n2⟩ := hno j (le_refl _) (by omega)
    have hy3 : (probeRight E t).y3 = rightVals f high r y1 y2 (j + 2) := by
      rw [hy, hg.2.1]
      rfl
    have hngt : ¬ (probeRight E t).y3 > (probeRight E t).y2 := by
      rw [hy3, a2, h2]
      exact n1
    have hnflat : ¬ ((probeRight E t).y1 = (probeRight E t).y2 ∧
        (probeRight E t).y2 = (probeRight E t).y3) := by
      rw [hy3, a1, a2, h1, h2]
      exact n2
    have e : d + 1 + 1 + extra = (d + 1 + extra) + 1 := by omega
    have hstep : extendRight E false (d + 1 + 1 + extra) t =
        extendRight E false (d + 1 + extra) (shiftRight false (probeRight E t)) := by
      rw [e]
      simp only [extendRight]
      rw [if_neg (by rw [hu]; simp), if_neg hngt, if_neg hnflat]
    have s1 : (shiftRight false (probeRight E t)).y1 = (probeRight E t).y2 := by
      rw [shiftRight_eq]
    have s2 : (shiftRight false (probeRight E t)).y2 = (probeRight E t).y3 := by
      rw [shiftRight_eq]
    obtain ⟨s, hs, hx, hyy, htr⟩ := ih (j + 1) (shiftRight false (probeRight E t))
      (shiftRight_geo E high r grid j t hg hu) (by rw [s1, a2, h2]) (by rw [s2, hy3])
      (fun i hi1 hi2 => hno i (by omega) (by omega))
      (by
        have e1 : j + 1 + d + 2 = j + (d + 1) + 2 := by omega
        have e2 : j + 1 + d + 1 = j + (d + 1) + 1 := by omega
        rw [e1, e2]
        exact hrise) extra
    refine ⟨s, by rw [hstep]; exact hs, ?_, hyy, ?_⟩
    · rw [hx]
      congr 1
      omega
    · rw [htr]
      have e3 : j + 1 + d + 1 = j + (d + 1) + 1 := by omega
      rw [e3]

/-! ## C15 -/

/-- C15, amended.  Geometric step growth, in exact arithmetic.  On a valid linear
range with the initial step
`r = (high - low) / (npts - 1)`, in every run the evaluations after the scan are,
in order, at `high + r * (3^k - 1) / 2` for `k = 1, 2, ...` when the right
extension runs and at `low - r * (3^k - 1) / 2` when the left extension runs.
And if the criterion is a function `f` that never asks to stop, the keyboard is
never pressed, the scan ends with the right neighbour missing, the `k`-th value
of the right extension is the first one above the best value so far and no flat
stop comes before it, then `glob_min` returns 0 after exactly `k` evaluations of
the extension, with `x3 = high + r * (3^k - 1) / 2 > high` and `y3 > y2`. -/
theorem geometric_steps (fuel : Nat) (E : Env K) (low high : K) (npts : Int)
    (critlim : K) (m : Bracket K) (hlh : low < high) (hn : 2 ≤ pointCount npts) :
    ((scan E false critlim (decide (npts < 0)) (pointCount npts).toNat
        (initState E low high npts false m)).state.turned_up = false →
      ∃ j, critXs (glob_min fuel E low high npts false critlim m).final.trace =
        critXs (scan E false critlim (decide (npts < 0)) (pointCount npts).toNat
          (initState E low high npts false m)).state.trace ++
        List.map (fun k : Nat => high + stepRate E low high npts false * (3 ^ (k + 1) - 1) / 2)
          (List.range j)) ∧
    ((scan E false critlim (decide (npts < 0)) (pointCount npts).toNat
        (initState E low high npts false m)).state.turned_up = true →
      ∃ j, critXs (glob_min fuel E low high npts false critlim m).final.trace =
        critXs (scan E false critlim (decide (npts < 0)) (pointCount npts).toNat
          (initState E low high npts false m)).state.trace ++
        List.map (fun k : Nat => low - stepRate E low high npts false * (3 ^ (k + 1) - 1) / 2)
          (List.range j)) ∧
    (∀ (f : K → K) (k : Nat) (s1 : State K), Quiet E → (∀ t x, (E.criter t x).2 = f x) →
      scan E false critlim (decide (npts < 0)) (pointCount npts).toNat
        (initState E low high npts false m) = ScanExit.finished s1 →
      s1.turned_up = false → 1 ≤ k → k ≤ fuel →
      (∀ i, i + 1 < k →
        ¬ rightVals f high (stepRate E low high npts false) s1.y1 s1.y2 (i + 2) >
            rightVals f high (stepRate E low high npts false) s1.y1 s1.y2 (i + 1) ∧
        ¬ (rightVals f high (stepRate E low high npts false) s1.y1 s1.y2 i =
            rightVals f high (stepRate E low high npts false) s1.y1 s1.y2 (i + 1) ∧
          rightVals f high (stepRate E low high npts false) s1.y1 s1.y2 (i + 1) =
            rightVals f high (stepRate E low high npts false) s1.y1 s1.y2 (i + 2))) →
      rightVals f high (stepRate E low high npts false) s1.y1 s1.y2 (k + 1) >
        rightVals f high (stepRate E low high npts false) s1.y1 s1.y2 k →
      ∃ s, glob_min fuel E low high npts false critlim m = Outcome.ret 0 s ∧
        critXs s.trace = critXs s1.trace ++
          List.map (fun k : Nat =>
            high + stepRate E low high npts false * (3 ^ (k + 1) - 1) / 2) (List.range k) ∧
        s.x3 = high + stepRate E low high npts false * (3 ^ k - 1) / 2 ∧
        high < s.x3 ∧ s.y2 < s.y3) := by
  obtain ⟨_, _, _, hfin⟩ := scan_line E low high npts critlim m hlh hn _ rfl
  have hrp : (fun k : Nat => high + stepRate E low high npts false * (3 ^ (k + 1) - 1) / 2)
      = rightPoint high (stepRate E low high npts false) := rfl
  have hlp : (fun k : Nat => low - stepRate E low high npts false * (3 ^ (k + 1) - 1) / 2)
      = leftPoint low (stepRate E low high npts false) := rfl
  rw [hrp, hlp]
  -- the state in which an extension loop is entered
  have start : ∀ s1, scan E false critlim (decide (npts < 0)) (pointCount npts).toNat
        (initState E low high npts false m) = ScanExit.finished s1 →
      0 < stepRate E low high npts false ∧
      (neighbours false s1).trace = s1.trace ∧
      (neighbours false s1).turned_up = s1.turned_up ∧
      (neighbours false s1).ibest = s1.ibest ∧
      (neighbours false s1).y1 = s1.y1 ∧ (neighbours false s1).y2 = s1.y2 ∧
      (s1.turned_up = false → RightGeo high (stepRate E low high npts false)
        (critXs s1.trace) 0 (neighbours false s1)) ∧
      (s1.ibest = 0 → LeftGeo low (stepRate E low high npts false)
        (critXs s1.trace) 0 (neighbours false s1)) := by
    intro s1 hsc
    rw [hsc] at hfin
    obtain ⟨hrate, hr, hup, hz⟩ := hfin rfl
    have hrate : s1.rate = stepRate E low high npts false := hrate
    have hr : 0 < s1.rate := hr
    have hup : s1.turned_up = false → s1.x2 = high := hup
    have hz : s1.ibest = 0 → s1.x2 = low := hz
    have neq := neighbours_eq false s1
    have nx1 : (neighbours false s1).x1 = s1.x2 - s1.rate := by simp [neighbours]
    have nx3 : (neighbours false s1).x3 = s1.x2 + s1.rate := by simp [neighbours]
    have nt : (neighbours false s1).trace = s1.trace := by rw [neq]
    have nr : (neighbours false s1).rate = s1.rate := by rw [neq]
    refine ⟨by rw [← hrate]; exact hr, nt, by rw [neq], by rw [neq], by rw [neq], by rw [neq],
      fun ht => ⟨by rw [nt]; simp, ?_, by rw [nr, hrate]; simp⟩,
      fun hi => ⟨by rw [nt]; simp, ?_, by rw [nr, hrate]; simp⟩⟩
    · rw [nx3, hup ht, hrate]
      unfold rightPoint
      ring
    · rw [nx1, hz hi, hrate]
      unfold leftPoint
      ring
  refine ⟨?_, ?_, ?_⟩
  · intro hup
    unfold glob_min
    cases hsc : scan E false critlim (decide (npts < 0)) (pointCount npts).toNat
        (initState E low high npts false m) with
    | aborted s1 => exact ⟨0, by simp [Outcome.final, ScanExit.state]⟩
    | finished s1 =>
      rw [hsc] at hup
      have hup : s1.turned_up = false := hup
      obtain ⟨_, _, ntu, _, _, _, hR, _⟩ := start s1 hsc
      show ∃ j, critXs (extend E false fuel (neighbours false s1)).final.trace =
        critXs s1.trace ++ List.map (rightPoint high (stepRate E low high npts false))
          (List.range j)
      unfold extend
      rw [if_pos (by rw [ntu]; exact hup)]
      exact extendRight_geo E high _ (critXs s1.trace) fuel _ ⟨0, hR hup⟩
  · intro hup
    unfold glob_min
    cases hsc : scan E false critlim (decide (npts < 0)) (pointCount npts).toNat
        (initState E low high npts false m) with
    | aborted s1 => exact ⟨0, by simp [Outcome.final, ScanExit.state]⟩
    | finished s1 =>
      rw [hsc] at hup
      have hup : s1.turned_up = true := hup
      obtain ⟨_, nt, ntu, nib, _, _, _, hL⟩ := start s1 hsc
      show ∃ j, critXs (extend E false fuel (neighbours false s1)).final.trace =
        critXs s1.trace ++ List.map (leftPoint low (stepRate E low high npts false))
          (List.range j)
      unfold extend
      rw [if_neg (by rw [ntu, hup]; simp)]
      by_cases hi : s1.ibest = 0
      · rw [if_pos (by rw [nib]; exact hi)]
        exact extendLeft_geo E low _ (critXs s1.trace) fuel _ ⟨0, hL hi⟩
      · rw [if_neg (by rw [nib]; exact hi)]
        exact ⟨0, by simp [Outcome.final, nt]⟩
  · intro f k s1 hq hf hsc hup hk hfuel hno hrise
    obtain ⟨hr, _, ntu, _, ny1, ny2, hR, _⟩ := start s1 hsc
    obtain ⟨d, rfl⟩ : ∃ d, k = d + 1 := ⟨k - 1, by omega⟩
    obtain ⟨extra, rfl⟩ : ∃ extra, fuel = d + 1 + extra := ⟨fuel - (d + 1), by omega⟩
    obtain ⟨s, hs, hx, hyy, htr⟩ := extendRight_first_rise E f high
      (stepRate E low high npts false) (critXs s1.trace) s1.y1 s1.y2 hq hf d 0
      (neighbours false s1) (hR hup) ny1 ny2
      (fun i _ hi => hno i (by omega))
      (by
        have e1 : 0 + d + 2 = d + 1 + 1 := by omega
        have e2 : 0 + d + 1 = d + 1 := by omega
        rw [e1, e2]
        exact hrise) extra
    have e0 : 0 + d = d := by omega
    rw [e0] at hx htr
    refine ⟨s, ?_, htr, hx, ?_, hyy⟩
    · unfold glob_min
      rw [hsc]
      show extend E false (d + 1 + extra) (neighbours false s1) = Outcome.ret 0 s
      unfold extend
      rw [if_pos (by rw [ntu]; exact hup)]
      exact hs
    · rw [hx]
      exact rightPoint_gt high _ d hr

/-- A run to which `geometric_steps` applies: after the scan of `[0, 2]` the
second value of the right extension is the first to rise, and `x3 = 6`. -/
theorem geometric_steps_witness :
    ∃ s, glob_min 5 quadEnv 0 2 3 false (-1) ⟨0, 0, 0, 0, 0, 0⟩ = Outcome.ret 0 s ∧
      critXs s.trace = critXs rightScanState.trace ++
        List.map (fun k : Nat => (2 : ℚ) + stepRate quadEnv 0 2 3 false * (3 ^ (k + 1) - 1) / 2)
          (List.range 2) ∧
      s.x3 = 2 + stepRate quadEnv 0 2 3 false * (3 ^ 2 - 1) / 2 ∧
      2 < s.x3 ∧ s.y2 < s.y3 :=
  (geometric_steps 5 quadEnv 0 2 3 (-1) ⟨0, 0, 0, 0, 0, 0⟩ (by norm_num) (by decide)).2.2
    (fun x => (x - 3) * (x - 3)) 2 rightScanState quadEnv_quiet (fun _ _ => rfl)
    (by norm_num [scan, scanBody, evalPoint, track, pollQuit, advance, initState, stepRate,
      pointCount, closedExit, quadEnv, rightScanState])
    rfl (by decide) (by decide)
    (fun i hi => by
      have hi0 : i = 0 := by omega
      subst hi0
      norm_num [rightVals, rightPoint, stepRate, pointCount, rightScanState])
    (by norm_num [rightVals, rightPoint, stepRate, pointCount, rightScanState])

/-! ## The grid under log spacing -/

theorem normal_pair_sq (L : Libm ℝ) (hsqrt : L.sqrt = Real.sqrt) (hlog : L.log = Real.log)
    (hsin : L.sin = Real.sin) (hcos : L.cos = Real.cos) (unifrand : Nat → ℝ)
    (hu : ∀ n, 0 ≤ unifrand n ∧ unifrand n < 1) :
    ∀ (fuel pos : Nat) (a b : ℝ) (pos' : Nat),
      normal_pair L unifrand fuel pos = some (a, b, pos') → 0 < a * a + b * b := by
  intro fuel
  induction fuel with
  | zero => intro pos a b pos' h; simp [normal_pair] at h
  | succ n ih =>
    intro pos a b pos' h
    simp only [normal_pair] at h
    split_ifs at h with h0
    · exact ih _ _ _ _ h
    · simp only [Option.some.injEq, Prod.mk.injEq] at h
      obtain ⟨ha, hb, _⟩ := h
      rw [← ha, ← hb, hsqrt, hlog, hsin, hcos]
      have hpos : 0 < unifrand pos := not_le.mp h0
      have hl : Real.log (unifrand pos) < 0 := Real.log_neg hpos (hu pos).2
      have hr : Real.sqrt (-2 * Real.log (unifrand pos)) *
          Real.sqrt (-2 * Real.log (unifrand pos)) = -2 * Real.log (unifrand pos) :=
        Real.mul_self_sqrt (by linarith)
      have hsc := Real.sin_sq_add_cos_sq (2 * PI * unifrand (pos + 1))
      have e : Real.sqrt (-2 * Real.log (unifrand pos)) * Real.sin (2 * PI * unifrand (pos + 1)) *
            (Real.sqrt (-2 * Real.log (unifrand pos)) *
              Real.sin (2 * PI * unifrand (pos + 1))) +
          Real.sqrt (-2 * Real.log (unifrand pos)) * Real.cos (2 * PI * unifrand (pos + 1)) *
            (Real.sqrt (-2 * Real.log (unifrand pos)) *
              Real.cos (2 * PI * unifrand (pos + 1))) =
          (Real.sqrt (-2 * Real.log (unifrand pos)) *
            Real.sqrt (-2 * Real.log (unifrand pos))) *
          (Real.sin (2 * PI * unifrand (pos + 1)) ^ 2 +
            Real.cos (2 * PI * unifrand (pos + 1)) ^ 2) := by ring
      rw [e, hr, hsc]
      linarith

/-- The loop over the pairs keeps `length` equal to the sum of the squares of the
components written so far, and makes it positive. -/
theorem pairs_spec (L : Libm ℝ) (hsqrt : L.sqrt = Real.sqrt) (hlog : L.log = Real.log)
    (hsin : L.sin = Real.sin) (hcos : L.cos = Real.cos) (unifrand : Nat → ℝ)
    (hu : ∀ n, 0 ≤ unifrand n ∧ unifrand n < 1) (fuel : Nat) :
    ∀ (n i : Nat) (s s' : Sphere ℝ), pairs L unifrand fuel n i s = some s' →
      s.length = Finset.sum (Finset.range (2 * i)) (fun j => s.x j * s.x j) →
      s'.length = Finset.sum (Finset.range (2 * (i + n))) (fun j => s'.x j * s'.x j) ∧
      s.length ≤ s'.length ∧ (0 < n → s.length < s'.length) := by
  intro n
  induction n with
  | zero =>
    intro i s s' h hs
    simp only [pairs, Option.some.injEq] at h
    subst h
    exact ⟨hs, le_refl _, fun h0 => absurd h0 (lt_irrefl _)⟩
  | succ n ih =>
    intro i s s' h hs
    simp only [pairs] at h
    cases hp : normal_pair L unifrand fuel s.pos with
    | none => rw [hp] at h; simp at h
    | some r =>
      obtain ⟨a, b, pos⟩ := r
      rw [hp] at h
      simp only at h
      have hab := normal_pair_sq L hsqrt hlog hsin hcos unifrand hu fuel s.pos a b pos hp
      have hne : 2 * i ≠ 2 * i + 1 := by omega
      have x0 : Function.update (Function.update s.x (2 * i) a) (2 * i + 1) b (2 * i) = a := by
        rw [Function.update_noteq hne, Function.update_same]
      have x1 : Function.update (Function.update s.x (2 * i) a) (2 * i + 1) b (2 * i + 1)
          = b := by
        rw [Function.update_same]
      have xj : ∀ j, j < 2 * i →
          Function.update (Function.update s.x (2 * i) a) (2 * i + 1) b j = s.x j := by
        intro j hj
        rw [Function.update_noteq (by omega), Function.update_noteq (by omega)]
      rw [x0, x1] at h
      obtain ⟨h1, h2, _⟩ := ih (i + 1) _ s' h (by
        show s.length + (a * a + b * b) = Finset.sum (Finset.range (2 * (i + 1)))
          (fun j => Function.update (Function.update s.x (2 * i) a) (2 * i + 1) b j *
            Function.update (Function.update s.x (2 * i) a) (2 * i + 1) b j)
        have e : 2 * (i + 1) = 2 * i + 1 + 1 := by ring
        rw [e, Finset.sum_range_succ, Finset.sum_range_succ, x0, x1,
          Finset.sum_congr rfl (fun j hj => by rw [xj j (Finset.mem_range.mp hj)]), ← hs]
        ring)
      have e2 : 2 * (i + (n + 1)) = 2 * (i + 1 + n) := by ring
      rw [e2]
      have h2' : s.length + (a * a + b * b) ≤ s'.length := h2
      exact ⟨h1, by linarith, fun _ => by linarith⟩

theorem scale_spec (length : ℝ) :
    ∀ (n : Nat) (x : Nat → ℝ) (j : Nat),
      scale length n x j = if j < n then x j * length else x j := by
  intro n
  induction n with
  | zero => intro x j; simp [scale]
  | succ n ih =>
    intro x j
    simp only [scale]
    rw [ih]
    by_cases h1 : j < n
    · rw [if_pos h1, if_pos (by omega), Function.update_noteq (by omega)]
    · rw [if_neg h1]
      by_cases h2 : j = n
      · rw [if_pos (by omega), h2, Function.update_same]
      · rw [if_neg (by omega), Function.update_noteq h2]

/-- Before the scaling, `length` is the sum of the squares of the `nvars`
components, and it is positive. -/
theorem sumSquares_spec (L : Libm ℝ) (hsqrt : L.sqrt = Real.sqrt) (hlog : L.log = Real.log)
    (hsin : L.sin = Real.sin) (hcos : L.cos = Real.cos) (unifrand : Nat → ℝ)
    (hu : ∀ n, 0 ≤ unifrand n ∧ unifrand n < 1) (fuel nvars : Nat) (x : Nat → ℝ) (pos : Nat)
    (hn : 2 ≤ nvars) (s : Sphere ℝ) (h : sumSquares L unifrand fuel nvars x pos = some s) :
    s.length = Finset.sum (Finset.range nvars) (fun j => s.x j * s.x j) ∧ 0 < s.length := by
  unfold sumSquares at h
  cases hp : pairs L unifrand fuel (nvars / 2) 0 { x := x, length := 0, pos := pos } with
  | none => rw [hp] at h; simp at h
  | some s1 =>
    rw [hp] at h
    simp only at h
    obtain ⟨h1, _, h3⟩ := pairs_spec L hsqrt hlog hsin hcos unifrand hu fuel (nvars / 2) 0 _ s1 hp
      (by simp)
    have hpos : 0 < s1.length := h3 (by omega)
    have hdm := Nat.div_add_mod nvars 2
    unfold oddOne at h
    by_cases hodd : nvars % 2 ≠ 0
    · rw [if_pos hodd] at h
      cases hv : normal L unifrand fuel s1.pos with
      | none => rw [hv] at h; simp at h
      | some r =>
        obtain ⟨v, pos1⟩ := r
        rw [hv] at h
        simp only [Option.some.injEq] at h
        subst h
        have e : Finset.range nvars = Finset.range (2 * (0 + nvars / 2) + 1) := by
          congr 1; omega
        have e1 : nvars - 1 = 2 * (0 + nvars / 2) := by omega
        constructor
        · show s1.length + Function.update s1.x (nvars - 1) v (nvars - 1) *
              Function.update s1.x (nvars - 1) v (nvars - 1) =
            Finset.sum (Finset.range nvars)
              (fun j => Function.update s1.x (nvars - 1) v j * Function.update s1.x (nvars - 1) v j)
          rw [e, e1, Finset.sum_range_succ, Function.update_same,
            Finset.sum_congr rfl (fun j hj => by
              rw [Function.update_noteq (ne_of_lt (Finset.mem_range.mp hj))]),
            ← h1]
        · show 0 < s1.length + Function.update s1.x (nvars - 1) v (nvars - 1) *
              Function.update s1.x (nvars - 1) v (nvars - 1)
          have := mul_self_nonneg (Function.update s1.x (nvars - 1) v (nvars - 1))
          linarith
    · rw [if_neg hodd] at h
      simp only [Option.some.injEq] at h
      subst h
      have e : 2 * (0 + nvars / 2) = nvars := by omega
      rw [e] at h1
      exact ⟨h1, hpos⟩

/-- On a stream of positive values the rejection loops return at their first
iteration, so `rand_sphere` returns with any fuel above 0. -/
theorem rand_sphere_returns (L : Libm K) (unifrand : Nat → K) (hu : ∀ n, 0 < unifrand n)
    (fuel nvars : Nat) (x : Nat → K) (pos : Nat) :
    ∃ s, rand_sphere L unifrand (fuel + 1) nvars x pos = some s := by
  have hpair : ∀ p, ∃ a b q, normal_pair L unifrand (fuel + 1) p = some (a, b, q) := by
    intro p
    simp only [normal_pair]
    rw [if_neg (not_le.mpr (hu p))]
    exact ⟨_, _, _, rfl⟩
  have hnormal : ∀ p, ∃ v q, normal L unifrand (fuel + 1) p = some (v, q) := by
    intro p
    simp only [normal]
    rw [if_neg (not_le.mpr (hu p))]
    exact ⟨_, _, rfl⟩
  have hpairs : ∀ (n i : Nat) (s : Sphere K),
      ∃ s', pairs L unifrand (fuel + 1) n i s = some s' := by
    intro n
    induction n with
    | zero => intro i s; exact ⟨s, rfl⟩
    | succ n ih =>
      intro i s
      obtain ⟨a, b, q, hq⟩ := hpair s.pos
      simp only [pairs]
      rw [hq]
      exact ih _ _
  obtain ⟨s1, h1⟩ := hpairs (nvars / 2) 0 { x := x, length := 0, pos := pos }
  have hsum : ∃ s2, sumSquares L unifrand (fuel + 1) nvars x pos = some s2 := by
    unfold sumSquares
    rw [h1]
    show ∃ s2, oddOne L unifrand (fuel + 1) nvars s1 = some s2
    unfold oddOne
    split_ifs
    · obtain ⟨v, q, hq⟩ := hnormal s1.pos
      rw [hq]
      exact ⟨_, rfl⟩
    · exact ⟨_, rfl⟩
  obtain ⟨s2, h2⟩ := hsum
  unfold rand_sphere
  rw [h2]
  exact ⟨_, rfl⟩

/-! ## C18 -/

/-- C18. Unit sphere.  Over the reals, with the real `sqrt`, `log`, `sin` and
`cos`, for every `nvars ≥ 2` and every stream of uniform values in `[0, 1)` on
which `rand_sphere` returns, the sum of the squares of the `nvars` components it
writes is exactly 1; the sum of squares it divides by is strictly positive, and so
is the factor `length = 1 / sqrt (sum)` it scales by. -/
theorem rand_sphere_unit (L : Libm ℝ) (hsqrt : L.sqrt = Real.sqrt) (hlog : L.log = Real.log)
    (hsin : L.sin = Real.sin) (hcos : L.cos = Real.cos) (unifrand : Nat → ℝ)
    (hu : ∀ n, 0 ≤ unifrand n ∧ unifrand n < 1) (fuel nvars : Nat) (x : Nat → ℝ) (pos : Nat)
    (hn : 2 ≤ nvars) (s : Sphere ℝ) (h : rand_sphere L unifrand fuel nvars x pos = some s) :
    Finset.sum (Finset.range nvars) (fun j => s.x j * s.x j) = 1 ∧ 0 < s.length ∧
    ∃ s0, sumSquares L unifrand fuel nvars x pos = some s0 ∧ 0 < s0.length ∧
      s.length = 1 / Real.sqrt s0.length := by
  unfold rand_sphere at h
  cases hp : sumSquares L unifrand fuel nvars x pos with
  | none => rw [hp] at h; simp at h
  | some s0 =>
    rw [hp] at h
    simp only [Option.some.injEq] at h
    subst h
    obtain ⟨hsum, hpos⟩ := sumSquares_spec L hsqrt hlog hsin hcos unifrand hu fuel nvars x pos
      hn s0 hp
    have hsq : 0 < Real.sqrt s0.length := Real.sqrt_pos.mpr hpos
    have hss : Real.sqrt s0.length * Real.sqrt s0.length = s0.length :=
      Real.mul_self_sqrt (le_of_lt hpos)
    refine ⟨?_, ?_, s0, rfl, hpos, ?_⟩
    · show Finset.sum (Finset.range nvars)
        (fun j => scale (1 / L.sqrt s0.length) nvars s0.x j *
          scale (1 / L.sqrt s0.length) nvars s0.x j) = 1
      rw [hsqrt]
      rw [Finset.sum_congr rfl (fun j hj => by
        rw [scale_spec, if_pos (Finset.mem_range.mp hj)])]
      have e : ∀ j, s0.x j * (1 / Real.sqrt s0.length) * (s0.x j * (1 / Real.sqrt s0.length))
          = (s0.x j * s0.x j) * (1 / s0.length) := by
        intro j
        rw [← hss]
        field_simp
      rw [Finset.sum_congr rfl (fun j _ => e j), ← Finset.sum_mul, ← hsum]
      field_simp
    · show 0 < 1 / L.sqrt s0.length
      rw [hsqrt]
      exact div_pos one_pos hsq
    · show 1 / L.sqrt s0.length = 1 / Real.sqrt s0.length
      rw [hsqrt]

/-- A call of `rand_sphere` to which `rand_sphere_unit` applies: two components
from the constant stream `1/2`. -/
theorem rand_sphere_unit_witness :
    ∃ s, rand_sphere ⟨Real.sqrt, Real.log, Real.sin, Real.cos⟩ (fun _ => 1 / 2) 1 2
        (fun _ => 0) 0 = some s ∧
      Finset.sum (Finset.range 2) (fun j => s.x j * s.x j) = 1 := by
  have h : ∃ s, rand_sphere ⟨Real.sqrt, Real.log, Real.sin, Real.cos⟩ (fun _ => (1 : ℝ) / 2) 1 2
      (fun _ => 0) 0 = some s := by
    norm_num [rand_sphere, sumSquares, pairs, normal_pair, oddOne]
  obtain ⟨s, hs⟩ := h
  exact ⟨s, hs, (rand_sphere_unit ⟨Real.sqrt, Real.log, Real.sin, Real.cos⟩ rfl rfl rfl rfl
    (fun _ => 1 / 2) (fun _ => ⟨by norm_num, by norm_num⟩) 1 2 (fun _ => 0) 0 (le_refl _) s
    hs).1⟩

/-! ## The samples of a whole run -/

theorem machine_track_exact (s : State K) (y : K) :
    Machine.track (Arith.exact K) s y = track s y := by
  simp only [Machine.track, track, Arith.exact, decide_eq_true_eq]

theorem machine_advance_exact (log_space : Bool) (s : State K) :
    Machine.advance (Arith.exact K) log_space s = advance log_space s := by
  simp only [Machine.advance, advance, Arith.exact]

theorem machine_scanBody_exact (E : Env K) (know : Bool) (s : State K) :
    Machine.scanBody (Arith.exact K) E know s = scanBody E know s := by
  simp only [Machine.scanBody, scanBody, machine_track_exact]

theorem machine_scan_exact (E : Env K) (log_space : Bool) (critlim : K) (know : Bool) :
    ∀ (n : Nat) (s : State K),
      Machine.scan (Arith.exact K) E log_space critlim know n s =
        scan E log_space critlim know n s := by
  intro n
  induction n with
  | zero => intro s; rfl
  | succ n ih =>
    intro s
    simp only [Machine.scan, scan, machine_scanBody_exact, machine_advance_exact, ih]
    simp only [Arith.exact, decide_eq_true_eq]

theorem machine_neighbours_exact (log_space : Bool) (s : State K) :
    Machine.neighbours (Arith.exact K) log_space s = neighbours log_space s := by
  simp only [Machine.neighbours, neighbours, Arith.exact]

theorem machine_shiftRight_exact (log_space : Bool) (s : State K) :
    Machine.shiftRight (Arith.exact K) log_space s = shiftRight log_space s := by
  simp [Machine.shiftRight, shiftRight, Arith.exact]

theorem machine_shiftLeft_exact (log_space : Bool) (s : State K) :
    Machine.shiftLeft (Arith.exact K) log_space s = shiftLeft log_space s := by
  simp [Machine.shiftLeft, shiftLeft, Arith.exact]

theorem machine_extendRight_exact (E : Env K) (log_space : Bool) :
    ∀ (n : Nat) (s : State K),
      Machine.extendRight (Arith.exact K) E log_space n s = extendRight E log_space n s := by
  intro n
  induction n with
  | zero => intro s; rfl
  | succ n ih =>
    intro s
    simp only [Machine.extendRight, extendRight, machine_shiftRight_exact, ih]
    simp only [Arith.exact, decide_eq_true_eq, gt_iff_lt]

theorem machine_extendLeft_exact (E : Env K) (log_space : Bool) :
    ∀ (n : Nat) (s : State K),
      Machine.extendLeft (Arith.exact K) E log_space n s = extendLeft E log_space n s := by
  intro n
  induction n with
  | zero => intro s; rfl
  | succ n ih =>
    intro s
    simp only [Machine.extendLeft, extendLeft, machine_shiftLeft_exact, ih]
    simp only [Arith.exact, decide_eq_true_eq, gt_iff_lt]

theorem machine_initState_exact (E : Env K) (low high : K) (npts : Int) (log_space : Bool)
    (m : Bracket K) :
    Machine.initState (Arith.exact K) E low high npts log_space m =
      initState E low high npts log_space m := by
  simp [Machine.initState, initState, Machine.stepRate, stepRate, Arith.exact]

/-- Over the arithmetic of an ordered field, the program written over an arithmetic
is `glob_min` as defined first. -/
theorem machine_exact (fuel : Nat) (E : Env K) (low high : K) (npts : Int) (log_space : Bool)
    (critlim : K) (m : Bracket K) :
    Machine.glob_min (Arith.exact K) fuel E low high npts log_space critlim m =
      glob_min fuel E low high npts log_space critlim m := by
  simp only [Machine.glob_min, glob_min, Machine.extend, extend, machine_scan_exact,
    machine_initState_exact, machine_neighbours_exact, machine_extendRight_exact,
    machine_extendLeft_exact]

/-! ## More fuel does not change a run that returns -/

theorem machine_extendRight_mono {F : Type} (A : Arith F) (E : Env F) (log_space : Bool)
    (k : Nat) :
    ∀ (n : Nat) (s : State F) (c : Int) (s' : State F),
      Machine.extendRight A E log_space n s = Outcome.ret c s' →
      Machine.extendRight A E log_space (n + k) s = Outcome.ret c s' := by
  intro n
  induction n with
  | zero => intro s c s' h; simp [Machine.extendRight] at h
  | succ n ih =>
    intro s c s' h
    have e : n + 1 + k = (n + k) + 1 := by omega
    rw [e]
    simp only [Machine.extendRight] at h ⊢
    split_ifs at h ⊢ with h1 h2 h3
    · exact h
    · exact h
    · exact h
    · exact ih _ c s' h

theorem machine_extendLeft_mono {F : Type} (A : Arith F) (E : Env F) (log_space : Bool)
    (k : Nat) :
    ∀ (n : Nat) (s : State F) (c : Int) (s' : State F),
      Machine.extendLeft A E log_space n s = Outcome.ret c s' →
      Machine.extendLeft A E log_space (n + k) s = Outcome.ret c s' := by
  intro n
  induction n with
  | zero => intro s c s' h; simp [Machine.extendLeft] at h
  | succ n ih =>
    intro s c s' h
    have e : n + 1 + k = (n + k) + 1 := by omega
    rw [e]
    simp only [Machine.extendLeft] at h ⊢
    split_ifs at h ⊢ with h1 h2 h3
    · exact h
    · exact h
    · exact h
    · exact ih _ c s' h

/-- A run that returns with the fuel `n` returns the same with any fuel above. -/
theorem machine_glob_min_mono {F : Type} (A : Arith F) (n k : Nat) (E : Env F) (low high : F)
    (npts : Int) (log_space : Bool) (critlim : F) (m : Bracket F) (c : Int) (s : State F)
    (h : Machine.glob_min A n E low high npts log_space critlim m = Outcome.ret c s) :
    Machine.glob_min A (n + k) E low high npts log_space critlim m = Outcome.ret c s := by
  unfold Machine.glob_min at h ⊢
  cases hsc : Machine.scan A E log_space critlim (decide (npts < 0)) (pointCount npts).toNat
      (Machine.initState A E low high npts log_space m) with
  | aborted s1 => rw [hsc] at h; exact h
  | finished s1 =>
    rw [hsc] at h
    simp only [Machine.extend] at h ⊢
    split_ifs at h ⊢ with h1 h2
    · exact machine_extendRight_mono A E log_space k n _ c s h
    · exact machine_extendLeft_mono A E log_space k n _ c s h
    · exact h

/-! ## C9 -/

/-- C9, as stated, fails.  In the arithmetic of `double`, for `f(x) = -x` with
`low = 0`, `high = 1`, `npts = 3`, linear spacing and no cancellation, `glob_min`
returns 0 with `y3 = y2 = -inf`: not with `y3 > y2`. -/
theorem extension_example_flat :
    (Machine.glob_min Arith.double 650 negDbl (Dbl.ofInt 0) (Dbl.ofInt 1) 3 false
      (Dbl.ofInt (-1)) zeroCells).code = some 0 ∧
    (Machine.glob_min Arith.double 650 negDbl (Dbl.ofInt 0) (Dbl.ofInt 1) 3 false
      (Dbl.ofInt (-1)) zeroCells).final.y2 = Dbl.inf true ∧
    (Machine.glob_min Arith.double 650 negDbl (Dbl.ofInt 0) (Dbl.ofInt 1) 3 false
      (Dbl.ofInt (-1)) zeroCells).final.y3 = Dbl.inf true ∧
    Dbl.lt (Dbl.inf true) (Dbl.inf true) = false := by
  decide!

/-! ## C12, C8, C15 and C5 in the arithmetic of `double` -/

/-- C15, as stated, fails in the arithmetic of `double`.  With `low = 0`,
`high = 1`, `npts = 11` and `f(x) = -x`, the first evaluation of the right
extension is at `x2 + rate` with `x2` the last sample, that is at
`4953959590107545 * 2^(-52)` (1.0999999999999999): below `high + r` as computed in
`double`, and below `1 + (1/10) * (3^1 - 1) / 2`. -/
theorem geometric_steps_double :
    (critXs (Machine.glob_min Arith.double 1 negDbl (Dbl.ofInt 0) (Dbl.ofInt 1) 11 false
        (Dbl.ofInt (-1)) zeroCells).final.trace)[11]? = some (Dbl.fin 4953959590107545 (-52)) ∧
    Dbl.lt (Dbl.fin 4953959590107545 (-52))
      (Dbl.add (Dbl.ofInt 1)
        (Machine.stepRate Arith.double negDbl (Dbl.ofInt 0) (Dbl.ofInt 1) 11 false)) = true ∧
    Dbl.toRat (Dbl.fin 4953959590107545 (-52)) < 1 + (1 / 10) * (3 ^ 1 - 1) / 2 := by
  refine ⟨by decide!, by decide!, ?_⟩
  norm_num [Dbl.toRat]

theorem code_ne_none {F : Type} (o : Outcome F) (h : o.code ≠ none) :
    ∃ c s, o = Outcome.ret c s := by
  cases o with
  | ret c s => exact ⟨c, s, rfl⟩
  | timeout s => exact absurd rfl h

/-- In `double`, the run on `f(x) = -x` has not returned after 649 iterations of
the right extension. -/
theorem negDbl_run_649 (c : Int) (s : State Dbl) :
    Machine.glob_min Arith.double 649 negDbl (Dbl.ofInt 0) (Dbl.ofInt 1) 3 false
      (Dbl.ofInt (-1)) zeroCells ≠ Outcome.ret c s := by
  have h649 : (Machine.glob_min Arith.double 649 negDbl (Dbl.ofInt 0) (Dbl.ofInt 1) 3 false
      (Dbl.ofInt (-1)) zeroCells).code = none := by decide!
  intro h
  rw [h] at h649
  simp [Outcome.code] at h649

/-- In `double`, the run on `f(x) = -x` returns at the 650th iteration of the right
extension, by the flat test on three values `-inf`. -/
theorem negDbl_run_650 :
    ∃ s, Machine.glob_min Arith.double 650 negDbl (Dbl.ofInt 0) (Dbl.ofInt 1) 3 false
        (Dbl.ofInt (-1)) zeroCells = Outcome.ret 0 s ∧
      s.turned_up = false ∧ s.y1 = Dbl.inf true ∧ s.y2 = Dbl.inf true ∧
      s.y3 = Dbl.inf true ∧ s.x3 = Dbl.inf false ∧ critCount s.trace = 653 := by
  have h650 : (Machine.glob_min Arith.double 650 negDbl (Dbl.ofInt 0) (Dbl.ofInt 1) 3 false
        (Dbl.ofInt (-1)) zeroCells).code = some 0 ∧
      (Machine.glob_min Arith.double 650 negDbl (Dbl.ofInt 0) (Dbl.ofInt 1) 3 false
        (Dbl.ofInt (-1)) zeroCells).final.turned_up = false ∧
      (Machine.glob_min Arith.double 650 negDbl (Dbl.ofInt 0) (Dbl.ofInt 1) 3 false
        (Dbl.ofInt (-1)) zeroCells).final.y1 = Dbl.inf true ∧
      (Machine.glob_min Arith.double 650 negDbl (Dbl.ofInt 0) (Dbl.ofInt 1) 3 false
        (Dbl.ofInt (-1)) zeroCells).final.y2 = Dbl.inf true ∧
      (Machine.glob_min Arith.double 650 negDbl (Dbl.ofInt 0) (Dbl.ofInt 1) 3 false
        (Dbl.ofInt (-1)) zeroCells).final.y3 = Dbl.inf true ∧
      (Machine.glob_min Arith.double 650 negDbl (Dbl.ofInt 0) (Dbl.ofInt 1) 3 false
        (Dbl.ofInt (-1)) zeroCells).final.x3 = Dbl.inf false ∧
      critCount (Machine.glob_min Arith.double 650 negDbl (Dbl.ofInt 0) (Dbl.ofInt 1) 3 false
        (Dbl.ofInt (-1)) zeroCells).final.trace = 653 := by decide!
  generalize Machine.glob_min Arith.double 650 negDbl (Dbl.ofInt 0) (Dbl.ofInt 1) 3
    false (Dbl.ofInt (-1)) zeroCells = o at h650 ⊢
  cases o with
  | timeout s =>
    have := h650.1
    simp [Outcome.code] at this
  | ret c s =>
    obtain ⟨hc, hP⟩ := h650
    simp only [Outcome.code, Option.some.injEq] at hc
    subst hc
    exact ⟨s, rfl, hP⟩

/-- C9, amended.  For `f(x) = -x` with `low = 0`, `high = 1`, `npts = 3`, linear
spacing and no cancellation, the right-extension loop runs, and no value it finds
is above the best one.  In exact arithmetic it does not end: after any number
`fuel` of iterations it is still running, with `3 + fuel` evaluations made.  In the
arithmetic of `double` it is still running after 649 iterations, and the 650th,
made after the step has overflowed to `+inf`, ends it by the flat test:
`glob_min` returns 0 with `y1 = y2 = y3 = -inf` and `x3 = +inf`, after 653
evaluations of the criterion. -/
theorem extension_example :
    (∀ (fuel : Nat) (critlim : ℚ) (m : Bracket ℚ),
      ∃ s, glob_min fuel negEnv 0 1 3 false critlim m = Outcome.timeout s ∧
        s.turned_up = false ∧ critCount s.trace = 3 + fuel ∧ 1 < s.x3 ∧ s.y2 ≤ -1) ∧
    (∀ fuel, fuel < 650 →
      (Machine.glob_min Arith.double fuel negDbl (Dbl.ofInt 0) (Dbl.ofInt 1) 3 false
        (Dbl.ofInt (-1)) zeroCells).code = none) ∧
    (∀ fuel, 650 ≤ fuel →
      ∃ s, Machine.glob_min Arith.double fuel negDbl (Dbl.ofInt 0) (Dbl.ofInt 1) 3 false
          (Dbl.ofInt (-1)) zeroCells = Outcome.ret 0 s ∧
        s.turned_up = false ∧ s.y1 = Dbl.inf true ∧ s.y2 = Dbl.inf true ∧
        s.y3 = Dbl.inf true ∧ s.x3 = Dbl.inf false ∧ critCount s.trace = 653) := by
  refine ⟨fun fuel critlim m => neg_run fuel critlim m, ?_, ?_⟩
  · intro fuel hf
    by_contra hne
    obtain ⟨c, s, ho⟩ := code_ne_none _ hne
    have hm := machine_glob_min_mono Arith.double fuel (649 - fuel) negDbl (Dbl.ofInt 0)
      (Dbl.ofInt 1) 3 false (Dbl.ofInt (-1)) zeroCells c s ho
    have e : fuel + (649 - fuel) = 649 := by omega
    rw [e] at hm
    exact negDbl_run_649 c s hm
  · intro fuel hf
    obtain ⟨s, hs, hP⟩ := negDbl_run_650
    have hm := machine_glob_min_mono Arith.double 650 (fuel - 650) negDbl (Dbl.ofInt 0)
      (Dbl.ofInt 1) 3 false (Dbl.ofInt (-1)) zeroCells 0 s hs
    have e : 650 + (fuel - 650) = fuel := by omega
    rw [e] at hm
    exact ⟨s, hm, hP⟩

/-- The run of `extension_example` in `double` with room for 700 iterations. -/
theorem extension_example_witness :
    ∃ s, Machine.glob_min Arith.double 700 negDbl (Dbl.ofInt 0) (Dbl.ofInt 1) 3 false
        (Dbl.ofInt (-1)) zeroCells = Outcome.ret 0 s ∧
      s.turned_up = false ∧ s.y1 = Dbl.inf true ∧ s.y2 = Dbl.inf true ∧
      s.y3 = Dbl.inf true ∧ s.x3 = Dbl.inf false ∧ critCount s.trace = 653 :=
  extension_example.2.2 700 (by decide)

end GlobMin
